import Mathlib

/-!
# ssbs: the build pipeline of `main.go`

A shallow embedding of `src/main.go`: the goroutine started by the `build`
handler (the pipeline), `runCommand` with the environment it gives a child
process, `cleanup`, the naming of the work directories and the handler itself,
followed by theorems about them.

Modelling conventions.

* Go strings are Lean strings; a Go `error` is represented by its message, so
  `Option String` is a possibly-nil `error`.
* A nil slice and an empty slice are both the empty list; a nil map is `none`
  and a map made with `make` is `some` of an association list with unique keys.
* The outside world (child processes, the file system, the clock and
  `json.Marshal`) is a `World`: its answers may depend on everything the
  pipeline did before (the trace of events so far), so quantifying over all
  worlds covers every behaviour of the process runner and of file reads.
* Every effect of the pipeline is recorded as an `Event` in a trace, in the
  order the source performs it.  Calls to `log.Printf` are not recorded.
-/

namespace Ssbs

/-- One byte of file content. -/
abbrev Byte := Fin 256

/-- The struct `buildInput` (main.go, lines 45-60). -/
structure buildInput where
  Repo : String
  Commit : String
  Artifacts : String
  Build : List (List String)
  Publish : List (List String)
  Token : String
  Env : List (String × String)

/-- The struct `buildOutput` (main.go, lines 69-78). -/
structure buildOutput where
  Step : List String
  Error : Option String
  Stdout : String
  Stderr : String
deriving DecidableEq

/-- The struct `buildResponse` (main.go, lines 61-68). -/
structure buildResponse where
  Steps : List buildOutput
  Artifacts : Option (List (String × String))
deriving DecidableEq

/-- The observable effects of one run of the pipeline. -/
inductive Event where
  /-- `exec.Command(cmd, args...)` run in directory `dir` with overlay `env`. -/
  | exec (dir : String) (env : List (String × String)) (cmd : String) (args : List String)
  /-- `ioutil.ReadFile(path)`. -/
  | readFile (path : String)
  /-- `w.WriteHeader(code)` on the response recorder. -/
  | writeHeader (code : Nat)
  /-- `w.Write(body)` on the response recorder. -/
  | write (body : String)
  /-- `os.RemoveAll(path)`. -/
  | removeAll (path : String)
deriving DecidableEq

/-- The environment of the pipeline.  `run` is the outcome of a child process
(stdout, stderr, error), `readFile` the outcome of `ioutil.ReadFile`, `marshal`
the outcome of `json.Marshal` (`none` for an error) and `now` the value of
`time.Now().Unix()`.  `run` and `readFile` receive the trace of all earlier
events. -/
structure World where
  now : Int
  run : List Event → String → List (String × String) → String → List String →
    String × String × Option String
  readFile : List Event → String → Except String (List Byte)
  marshal : buildResponse → Option String

/-- The state in which the goroutine ends: the events performed, the response
value `r` it accumulated, and whether it ended in a run-time panic. -/
structure Run where
  trace : List Event
  r : buildResponse
  panicked : Bool
deriving DecidableEq

/-! ## Strings -/

/-- The verb `%d` of `fmt.Sprintf` on an integer. -/
def formatInt : Int → String
  | Int.ofNat n => Nat.repr n
  | Int.negSucc n => "-" ++ Nat.repr (n + 1)

/-- The call `strings.Replace(s, "/", "+", -1)`: every slash becomes a plus. -/
def replaceSlash (s : String) : String :=
  String.mk (s.data.map fun c => if c = '/' then '+' else c)

/-- The predicate `unicode.IsSpace`, which `strings.TrimSpace` uses. -/
def isSpace (c : Char) : Bool :=
  let n := c.toNat
  (9 ≤ n && n ≤ 13) || n = 32 || n = 0x85 || n = 0xA0 || n = 0x1680 ||
  (0x2000 ≤ n && n ≤ 0x200a) || n = 0x2028 || n = 0x2029 || n = 0x202f ||
  n = 0x205f || n = 0x3000

/-- The function `strings.TrimSpace`: leading and trailing white space removed. -/
def TrimSpace (s : String) : String :=
  String.mk ((s.data.dropWhile isSpace).reverse.dropWhile isSpace).reverse

/-- Splitting a character list at every line feed. -/
def splitLF : List Char → List (List Char)
  | [] => [[]]
  | c :: cs =>
    if c = '\n' then [] :: splitLF cs
    else
      match splitLF cs with
      | [] => [[c]]
      | l :: ls => (c :: l) :: ls

/-- The call `strings.Split(s, "\n")`. -/
def SplitLines (s : String) : List String :=
  (splitLF s.data).map String.mk

/-! ## Base64 (`base64.StdEncoding`) -/

/-- The alphabet `encodeStd` of `encoding/base64`. -/
def encodeStd : List Char :=
  "ABCDEFGHIJKLMNOPQRSTUVWXYZabcdefghijklmnopqrstuvwxyz0123456789+/".data

/-- The character of a six-bit value. -/
def encChar (n : Nat) : Char := encodeStd.getD n 'A'

/-- The six-bit value of a character of the alphabet (the table `decodeMap`),
`none` for every other character. -/
def decChar (c : Char) : Option Nat :=
  let k := encodeStd.indexOf c
  if k < 64 then some k else none

/-- The encoder of `base64.StdEncoding` on a list of bytes: three bytes give four
characters, and a final group of one or two bytes is padded with `=`.  Shifts and
masks of the Go code are written as divisions and remainders. -/
def encodeBytes : List Byte → List Char
  | [] => []
  | [a] =>
    let v := a.val * 65536
    [encChar (v / 262144 % 64), encChar (v / 4096 % 64), '=', '=']
  | [a, b] =>
    let v := a.val * 65536 + b.val * 256
    [encChar (v / 262144 % 64), encChar (v / 4096 % 64), encChar (v / 64 % 64), '=']
  | a :: b :: c :: rest =>
    let v := a.val * 65536 + b.val * 256 + c.val
    encChar (v / 262144 % 64) :: encChar (v / 4096 % 64) :: encChar (v / 64 % 64) ::
      encChar (v % 64) :: encodeBytes rest

/-- The method `base64.StdEncoding.EncodeToString`. -/
def EncodeToString (b : List Byte) : String := String.mk (encodeBytes b)

/-- A byte from a natural number, keeping the low eight bits. -/
def toByte (n : Nat) : Byte := ⟨n % 256, Nat.mod_lt _ (by decide)⟩

/-- Decoding of groups of four characters of padded standard base64.  Padding is
accepted in the last group only; any character outside the alphabet is an
error. -/
def decodeChars : List Char → Option (List Byte)
  | [] => some []
  | c0 :: c1 :: c2 :: c3 :: rest =>
    match decChar c0, decChar c1 with
    | some i0, some i1 =>
      if c2 = '=' then
        if c3 = '=' ∧ rest = [] then
          some [toByte ((i0 * 262144 + i1 * 4096) / 65536)]
        else none
      else
        match decChar c2 with
        | none => none
        | some i2 =>
          if c3 = '=' then
            if rest = [] then
              let v := i0 * 262144 + i1 * 4096 + i2 * 64
              some [toByte (v / 65536), toByte (v / 256)]
            else none
          else
            match decChar c3, decodeChars rest with
            | some i3, some bs =>
              let v := i0 * 262144 + i1 * 4096 + i2 * 64 + i3
              some (toByte (v / 65536) :: toByte (v / 256) :: toByte v :: bs)
            | _, _ => none
    | _, _ => none
  | _ => none

/-- The method `base64.StdEncoding.DecodeString`: carriage returns and line feeds
are skipped, the rest is decoded in groups of four. -/
def DecodeString (s : String) : Option (List Byte) :=
  decodeChars (s.data.filter fun c => !(c = '\r' || c = '\n'))

/-! ## The map of artifacts -/

/-- The value stored under a key of a Go map. -/
def mapGet (m : List (String × String)) (k : String) : Option String :=
  (m.find? fun p => p.1 = k).map Prod.snd

/-- The assignment `m[k] = v` on a Go map: an existing entry is replaced. -/
def mapSet (m : List (String × String)) (k v : String) : List (String × String) :=
  (m.filter fun p => p.1 ≠ k) ++ [(k, v)]

/-- The keys of a Go map. -/
def mapKeys (m : List (String × String)) : List String := m.map Prod.fst

/-! ## The process runner and the pipeline -/

/-- The function `runCommand` (main.go, lines 80-102) as the pipeline sees it:
the child process is run once in `workDir`, and its standard output, standard
error and error are returned on both branches.  The result is the outcome
together with the extended trace. -/
def runCommand (W : World) (tr : List Event) (workDir : String)
    (env : List (String × String)) (cmd : String) (args : List String) :
    (String × String × Option String) × List Event :=
  (W.run tr workDir env cmd args, tr ++ [Event.exec workDir env cmd args])

/-- The variable `workParent` (main.go, lines 127-129). -/
def workParent (W : World) (i : buildInput) : String :=
  "./workdir/" ++ replaceSlash i.Repo ++ "-" ++ formatInt W.now

/-- The variable `workDir` (main.go, line 130). -/
def workDir (W : World) (i : buildInput) : String :=
  workParent W i ++ "/" ++ i.Repo

/-- The arguments of the `git` call that clones the repository (main.go, lines
139-147): the three branches differ in the URL only. -/
def cloneArgs (W : World) (i : buildInput) : List String :=
  if i.Token.length > 0 then
    if i.Token = "-" then
      ["clone", "https://github.com/" ++ i.Repo ++ ".git", workDir W i]
    else
      ["clone", "https://" ++ i.Token ++ ":x-oauth-basic@github.com/" ++ i.Repo ++ ".git",
        workDir W i]
  else
    ["clone", "git@github.com:" ++ i.Repo ++ ".git", workDir W i]

/-- The block that every exit of the goroutine runs: `json.Marshal(&r)`, then
status 500 with a fixed text on an error, and status 200 with the serialised
response otherwise (main.go, lines 151-158 and its copies). -/
def respond (W : World) (tr : List Event) (r : buildResponse) : List Event :=
  match W.marshal r with
  | none => tr ++ [Event.writeHeader 500, Event.write "Failed to marshal output"]
  | some b => tr ++ [Event.writeHeader 200, Event.write b]

/-- How a loop over steps ended. -/
inductive Loop where
  /-- Every step ran without an error. -/
  | completed (tr : List Event) (steps : List buildOutput)
  /-- The last step that ran returned an error. -/
  | failed (tr : List Event) (steps : List buildOutput)
  /-- The expression `step[0]` was evaluated on a step without tokens. -/
  | panicked (tr : List Event) (steps : List buildOutput)
deriving DecidableEq

/-- The body shared by the loop over `i.Build` (main.go, lines 178-196) and the
loop over `i.Publish` (lines 233-251): run `step[0]` with arguments `step[1:]`,
append the result to `r.Steps`, and stop at the first error.  Indexing a step
that has no token is a run-time panic. -/
def runSteps (W : World) (wd : String) (env : List (String × String)) :
    List (List String) → List Event → List buildOutput → Loop
  | [], tr, steps => Loop.completed tr steps
  | [] :: _, tr, steps => Loop.panicked tr steps
  | (cmd :: args) :: rest, tr, steps =>
    let c := runCommand W tr wd env cmd args
    let o1 : buildOutput :=
      { Step := cmd :: args, Error := c.1.2.2, Stdout := c.1.1, Stderr := c.1.2.1 }
    let steps1 := steps ++ [o1]
    if o1.Error.isSome then Loop.failed c.2 steps1
    else runSteps W wd env rest c.2 steps1

/-- The loop over the lines of the search output (main.go, lines 217-230): every
non-empty trimmed line is read from the work directory and stored either as
base64 or as an error text. -/
def collectArtifacts (W : World) (wd : String) :
    List String → List Event → List (String × String) → List (String × String) × List Event
  | [], tr, m => (m, tr)
  | line :: rest, tr, m =>
    let art := TrimSpace line
    if art.length > 0 then
      match W.readFile tr (wd ++ "/" ++ art) with
      | Except.error err =>
        collectArtifacts W wd rest (tr ++ [Event.readFile (wd ++ "/" ++ art)])
          (mapSet m art ("Error reading artifact: " ++ err))
      | Except.ok b =>
        collectArtifacts W wd rest (tr ++ [Event.readFile (wd ++ "/" ++ art)])
          (mapSet m art (EncodeToString b))
    else collectArtifacts W wd rest tr m

/-- The publish loop and the final response (main.go, lines 233-261). -/
def publishPhase (W : World) (i : buildInput) (tr : List Event) (r : buildResponse) : Run :=
  match runSteps W (workDir W i) i.Env i.Publish tr r.Steps with
  | Loop.panicked tr1 steps => ⟨tr1, { r with Steps := steps }, true⟩
  | Loop.failed tr1 steps =>
    ⟨respond W tr1 { r with Steps := steps }, { r with Steps := steps }, false⟩
  | Loop.completed tr1 steps =>
    ⟨respond W tr1 { r with Steps := steps }, { r with Steps := steps }, false⟩

/-- The artifact search and collection (main.go, lines 198-231), followed by the
publish phase.  The variable `o` is the one the clone and the checkout wrote
to: its `Step` is still nil. -/
def artifactPhase (W : World) (i : buildInput) (tr : List Event) (r : buildResponse) : Run :=
  if i.Artifacts.length > 0 then
    let c := runCommand W tr (workDir W i) i.Env "find" [".", "-name", i.Artifacts]
    let o : buildOutput := { Step := [], Error := c.1.2.2, Stdout := c.1.1, Stderr := c.1.2.1 }
    if o.Error.isSome then
      let r1 := { r with Steps := r.Steps ++ [o] }
      ⟨respond W c.2 r1, r1, false⟩
    else
      let a := collectArtifacts W (workDir W i) (SplitLines o.Stdout) c.2 []
      publishPhase W i a.2 { r with Artifacts := some a.1 }
  else publishPhase W i tr r

/-- The build loop (main.go, lines 178-196), followed by the later phases. -/
def buildPhase (W : World) (i : buildInput) (tr : List Event) (r : buildResponse) : Run :=
  match runSteps W (workDir W i) i.Env i.Build tr r.Steps with
  | Loop.panicked tr1 steps => ⟨tr1, { r with Steps := steps }, true⟩
  | Loop.failed tr1 steps =>
    ⟨respond W tr1 { r with Steps := steps }, { r with Steps := steps }, false⟩
  | Loop.completed tr1 steps => artifactPhase W i tr1 { r with Steps := steps }

/-- The body of the goroutine from the clone on (main.go, lines 134-261). -/
def pipelineBody (W : World) (i : buildInput) : Run :=
  let r : buildResponse := { Steps := [], Artifacts := none }
  let c := runCommand W [] "." i.Env "git" (cloneArgs W i)
  let o : buildOutput := { Step := [], Error := c.1.2.2, Stdout := c.1.1, Stderr := c.1.2.1 }
  if o.Error.isSome then
    let r1 := { r with Steps := r.Steps ++ [o] }
    ⟨respond W c.2 r1, r1, false⟩
  else
    let c2 := runCommand W c.2 (workDir W i) i.Env "git" ["checkout", i.Commit]
    if c2.1.2.2.isSome then
      ⟨respond W c2.2 r, r, false⟩
    else buildPhase W i c2.2 r

/-- The function `cleanup` (main.go, lines 275-280): one `os.RemoveAll`; its
error is only logged. -/
def cleanup (tr : List Event) (path : String) : List Event :=
  tr ++ [Event.removeAll path]

/-- The goroutine of `build` (main.go, lines 123-262): the body, then the deferred
`cleanup(workParent)`, which Go also runs when the body panics. -/
def pipeline (W : World) (i : buildInput) : Run :=
  let b := pipelineBody W i
  { b with trace := cleanup b.trace (workParent W i) }

/-- The events of a trace that start a child process. -/
def execsOf (tr : List Event) : List Event :=
  tr.filter fun e => match e with
    | Event.exec _ _ _ _ => true
    | _ => false

/-- The paths of the file reads of a trace, in order. -/
def readsOf (tr : List Event) : List String :=
  tr.filterMap fun e => match e with
    | Event.readFile p => some p
    | _ => none

/-- The paths of the recursive removals of a trace, in order. -/
def removalsOf (tr : List Event) : List String :=
  tr.filterMap fun e => match e with
    | Event.removeAll p => some p
    | _ => none

/-- The event of running one user step: `step[0]` with arguments `step[1:]`. -/
def stepEvent (W : World) (i : buildInput) (step : List String) : Event :=
  Event.exec (workDir W i) i.Env (step.headD "") step.tail

/-- The event of the clone. -/
def cloneEvent (W : World) (i : buildInput) : Event :=
  Event.exec "." i.Env "git" (cloneArgs W i)

/-- The event of the checkout. -/
def checkoutEvent (W : World) (i : buildInput) : Event :=
  Event.exec (workDir W i) i.Env "git" ["checkout", i.Commit]

/-- The event of the artifact search. -/
def findEvent (W : World) (i : buildInput) : Event :=
  Event.exec (workDir W i) i.Env "find" [".", "-name", i.Artifacts]

/-! ## Quantities the theorems speak about -/

/-- The trace at the end of a loop. -/
def Loop.trace : Loop → List Event
  | Loop.completed tr _ => tr
  | Loop.failed tr _ => tr
  | Loop.panicked tr _ => tr

/-- The step results at the end of a loop. -/
def Loop.steps : Loop → List buildOutput
  | Loop.completed _ s => s
  | Loop.failed _ s => s
  | Loop.panicked _ s => s

/-- What the runner returns for step `j` of the list `steps`, when the loop over
`steps` started after the trace `tr` and the steps before `j` ran. -/
def stepRun (W : World) (i : buildInput) (tr : List Event) (steps : List (List String))
    (j : Nat) : String × String × Option String :=
  W.run (tr ++ (steps.take j).map (stepEvent W i)) (workDir W i) i.Env
    ((steps.getD j []).headD "") (steps.getD j []).tail

/-- The entry of `r.Steps` for step `j` of the list `steps`. -/
def stepOutput (W : World) (i : buildInput) (tr : List Event) (steps : List (List String))
    (j : Nat) : buildOutput :=
  { Step := steps.getD j [],
    Error := (stepRun W i tr steps j).2.2,
    Stdout := (stepRun W i tr steps j).1,
    Stderr := (stepRun W i tr steps j).2.1 }

/-- The non-empty trimmed lines of a list of lines, in order. -/
def trimmedKeys (lines : List String) : List String :=
  (lines.map TrimSpace).filter fun a => a.length > 0

/-- The value stored in the artifact map for the outcome of a file read
(main.go, lines 221-227). -/
def artifactValue : Except String (List Byte) → String
  | Except.ok b => EncodeToString b
  | Except.error err => "Error reading artifact: " ++ err

/-- The read event of the artifact `k` in the work directory `wd`. -/
def readEvent (wd : String) (k : String) : Event := Event.readFile (wd ++ "/" ++ k)

/-- What the file system returns for read `n` of the list `keys`, when the reads
started after the trace `tr` and the reads before `n` took place. -/
def readAt (W : World) (wd : String) (tr : List Event) (keys : List String) (n : Nat) :
    Except String (List Byte) :=
  W.readFile (tr ++ (keys.take n).map (readEvent wd)) (wd ++ "/" ++ keys.getD n "")

/-- The collection loop on a list of keys that are already trimmed and non-empty. -/
def collectKeys (W : World) (wd : String) :
    List String → List Event → List (String × String) → List (String × String) × List Event
  | [], tr, m => (m, tr)
  | k :: rest, tr, m =>
    collectKeys W wd rest (tr ++ [readEvent wd k])
      (mapSet m k (artifactValue (W.readFile tr (wd ++ "/" ++ k))))

/-- What the runner returns for the clone. -/
def cloneRun (W : World) (i : buildInput) : String × String × Option String :=
  W.run [] "." i.Env "git" (cloneArgs W i)

/-- What the runner returns for the checkout, which runs after the clone. -/
def checkoutRun (W : World) (i : buildInput) : String × String × Option String :=
  W.run [cloneEvent W i] (workDir W i) i.Env "git" ["checkout", i.Commit]

/-- The trace when the build loop starts. -/
def buildStart (W : World) (i : buildInput) : List Event :=
  [cloneEvent W i, checkoutEvent W i]

/-- What the runner returns for build step `j`, when the steps before it ran. -/
def buildRun (W : World) (i : buildInput) (j : Nat) : String × String × Option String :=
  stepRun W i (buildStart W i) i.Build j

/-- The trace when every build step has run. -/
def buildEnd (W : World) (i : buildInput) : List Event :=
  buildStart W i ++ i.Build.map (stepEvent W i)

/-- What the runner returns for the artifact search, which runs after the last
build step. -/
def findRun (W : World) (i : buildInput) : String × String × Option String :=
  W.run (buildEnd W i) (workDir W i) i.Env "find" [".", "-name", i.Artifacts]

/-- The non-empty trimmed lines of the standard output of the artifact search. -/
def artifactKeys (W : World) (i : buildInput) : List String :=
  trimmedKeys (SplitLines (findRun W i).1)

/-- What the file system returns for read `n` of the collection, when the reads
before it took place. -/
def artifactRead (W : World) (i : buildInput) (n : Nat) : Except String (List Byte) :=
  readAt W (workDir W i) (buildEnd W i ++ [findEvent W i]) (artifactKeys W i) n

/-- The trace when the publish loop starts after a collection of artifacts. -/
def publishStart (W : World) (i : buildInput) : List Event :=
  buildEnd W i ++ [findEvent W i] ++ (artifactKeys W i).map (readEvent (workDir W i))

/-- A run ended by the response block: no panic, and the trace ends with the
status and the body written for the response `r`. -/
def Responded (W : World) (x : Run) : Prop :=
  x.panicked = false ∧ ∃ before, x.trace = respond W before x.r

/-! ## Sample worlds and requests -/

/-- A sample world.  A command fails when its name or its first argument is
`bad`; the artifact search prints one file that cannot be read and one that can,
and a blank line; every other command succeeds. -/
def sampleWorld (bad : String) : World where
  now := 1700000000
  run := fun _ _ _ cmd args =>
    if cmd = bad ∨ args.head? = some bad then ("", "failed\n", some "exit status 1")
    else if cmd = "find" then (" ./missing.zip \n./out.zip\n\n", "", none)
    else ("ok\n", "", none)
  readFile := fun _ p =>
    if p = "./workdir/acme+widget-1700000000/acme/widget/./out.zip" then
      Except.ok [toByte 77, toByte 97]
    else Except.error "open: no such file or directory"
  marshal := fun _ => some "json"

/-- A request whose second build step is the command `false`. -/
def sampleInput : buildInput :=
  { Repo := "acme/widget", Commit := "main", Artifacts := "*.zip",
    Build := [["echo", "hi"], ["false"], ["echo", "never"]],
    Publish := [["make", "publish"]], Token := "", Env := [("OUT", "$WORKDIR/out")] }

/-- A request whose second build step has no token. -/
def emptyStepInput : buildInput :=
  { sampleInput with Build := [["echo", "hi"], []] }

/-- A request whose steps all succeed in the sample world. -/
def passingInput : buildInput :=
  { sampleInput with Build := [["echo", "hi"], ["make"]] }

/-- A request without artifact pattern. -/
def noPatternInput : buildInput :=
  { sampleInput with Artifacts := "", Build := [["make"]] }

/-- The number written by a list of decimal digits. -/
def digitsValue (l : List Char) : Nat :=
  l.foldl (fun a c => a * 10 + (c.toNat - 48)) 0

/-- The path component that `workParent` adds below `./workdir/`. -/
def workComponent (W : World) (i : buildInput) : String :=
  replaceSlash i.Repo ++ "-" ++ formatInt W.now

/-- A world that differs from the sample world in nothing but the clock. -/
def clockWorld (t : Int) : World := { sampleWorld "" with now := t }

/-- A request for the repository `repo`. -/
def repoInput (repo : String) : buildInput := { sampleInput with Repo := repo }

/-- The trace when the publish loop starts: after the collection of artifacts
when a pattern is given, right after the build steps otherwise. -/
def publishBegin (W : World) (i : buildInput) : List Event :=
  if i.Artifacts.length > 0 then publishStart W i else buildEnd W i

/-- What the runner returns for publish step `j`, when the steps before it ran. -/
def publishRun (W : World) (i : buildInput) (j : Nat) : String × String × Option String :=
  stepRun W i (publishBegin W i) i.Publish j

/-- The results of all build steps, in order. -/
def buildOutputs (W : World) (i : buildInput) : List buildOutput :=
  (List.range i.Build.length).map (stepOutput W i (buildStart W i) i.Build)

/-- The artifact map when the publish loop starts: the map filled by the
collection loop when a pattern is given, nil otherwise. -/
def collectedMap (W : World) (i : buildInput) : Option (List (String × String)) :=
  if i.Artifacts.length > 0 then
    some (collectArtifacts W (workDir W i) (SplitLines (findRun W i).1)
      (buildEnd W i ++ [findEvent W i]) []).1
  else none

/-- A request whose steps all succeed in the sample world, with three publish
steps. -/
def publishInput : buildInput :=
  { sampleInput with
    Build := [["make"]], Publish := [["make", "dist"], ["upload"], ["notify"]] }

/-! ## Lexical resolution of paths -/

/-- Splitting a character list at every slash. -/
def splitSlash : List Char → List (List Char)
  | [] => [[]]
  | c :: cs =>
    if c = '/' then [] :: splitSlash cs
    else
      match splitSlash cs with
      | [] => [[c]]
      | l :: ls => (c :: l) :: ls

/-- The elements of a path: the strings between its slashes. -/
def pathElements (p : String) : List String :=
  (splitSlash p.data).map String.mk

/-- One step of the lexical resolution of a path that does not start at the
root, as `filepath.Clean` does it: the stack holds the elements kept so far,
last one first.  Empty elements and `.` are dropped; `..` removes the element
before it, and is kept when there is none to remove. -/
def resolveStep (stack : List String) (e : String) : List String :=
  if e = "" ∨ e = "." then stack
  else if e = ".." then
    match stack with
    | [] => [".."]
    | top :: below => if top = ".." then ".." :: top :: below else below
  else e :: stack

/-- The elements of a relative path after lexical resolution of its `.` and
`..` elements. -/
def resolve (p : String) : List String :=
  ((pathElements p).foldl resolveStep []).reverse

/-! ## The environment of a child process -/

/-- The host process as `runCommand` sees it: `os.Environ()`, `os.Getenv` and
`filepath.Abs` (whose error the source ignores). -/
structure Host where
  Environ : List String
  Getenv : String → String
  Abs : String → String

/-- Replacing every occurrence of `old` (not empty) by `new`, from left to right
and without overlap, as `strings.Replace` with count `-1` does.  The number is
the count of characters of the current occurrence that are still to be
skipped. -/
def replaceFrom (old new : List Char) : Nat → List Char → List Char
  | _, [] => []
  | skip + 1, _ :: cs => replaceFrom old new skip cs
  | 0, c :: cs =>
    if (c :: cs).take old.length = old then new ++ replaceFrom old new (old.length - 1) cs
    else c :: replaceFrom old new 0 cs

/-- The call `strings.Replace(v, "$WORKDIR", absWd, -1)` (main.go, line 90). -/
def replaceWorkdir (absWd v : String) : String :=
  String.mk (replaceFrom "$WORKDIR".data absWd.data 0 v.data)

/-- The function `isShellSpecialVar` of package `os`. -/
def isShellSpecialVar (c : Char) : Bool :=
  c = '*' || c = '#' || c = '$' || c = '@' || c = '!' || c = '?' || c = '-' || c.isDigit

/-- The function `isAlphaNum` of package `os`. -/
def isAlphaNum (c : Char) : Bool :=
  c = '_' || c.isDigit || c.isLower || c.isUpper

/-- The function `getShellName` of package `os`, on the text after a dollar
sign: the name of the variable and the number of characters consumed. -/
def getShellName : List Char → List Char × Nat
  | [] => ([], 0)
  | c :: cs =>
    if c = '{' then
      if 2 ≤ cs.length ∧ isShellSpecialVar (cs.headD ' ') = true ∧ cs.getD 1 ' ' = '}' then
        ([cs.headD ' '], 3)
      else
        let name := cs.takeWhile fun x => !(x = '}')
        if name.length < cs.length then
          if name = [] then ([], 2) else (name, name.length + 2)
        else ([], 1)
    else if isShellSpecialVar c then ([c], 1)
    else
      let name := (c :: cs).takeWhile isAlphaNum
      (name, name.length)

/-- The loop of `os.Expand`: a dollar sign that is not the last character is
replaced, together with the name after it, by the value of the name; bad
syntax is eaten and a dollar sign without a name is kept.  The first argument
bounds the number of steps. -/
def expandFuel (mapping : String → String) : Nat → List Char → List Char
  | 0, s => s
  | _ + 1, [] => []
  | fuel + 1, c :: cs =>
    if c = '$' ∧ cs ≠ [] then
      let nw := getShellName cs
      let out :=
        if nw.1 = [] then (if nw.2 > 0 then [] else ['$'])
        else (mapping (String.mk nw.1)).data
      out ++ expandFuel mapping fuel (cs.drop nw.2)
    else c :: expandFuel mapping fuel cs

/-- The function `os.ExpandEnv`. -/
def ExpandEnv (H : Host) (s : String) : String :=
  String.mk (expandFuel H.Getenv s.length s.data)

/-- The entry that `runCommand` appends for the overlay entry `kv` (main.go,
lines 90-91): the key, `=`, and `os.ExpandEnv` of the value with every
`$WORKDIR` replaced by the absolute path of the working directory. -/
def overlayEntry (H : Host) (workDir : String) (kv : String × String) : String :=
  kv.1 ++ "=" ++ ExpandEnv H (replaceWorkdir (H.Abs workDir) kv.2)

/-- The value of `c.Env` when `runCommand` starts the child process (main.go,
lines 87-92): the environment of the host, then one entry for every entry of
the overlay, in the order in which the `range` loop visits the map. -/
def cmdEnv (H : Host) (workDir : String) (env : List (String × String)) : List String :=
  env.foldl
    (fun cEnv kv => cEnv ++ [kv.1 ++ "=" ++ ExpandEnv H (replaceWorkdir (H.Abs workDir) kv.2)])
    H.Environ

/-- The key of an entry of an environment list as `dedupEnvCase` of `os/exec`
finds it: the text before the first `=`; for an entry that starts with `=`, the
text before the next `=` (the empty key when there is none); no key for an
entry without `=`. -/
def envKey (kv : List Char) : Option (List Char) :=
  match kv with
  | [] => none
  | c :: rest =>
    if c = '=' then
      if '=' ∈ rest then some (c :: rest.takeWhile fun x => !(x = '=')) else some []
    else if '=' ∈ rest then some ((c :: rest).takeWhile fun x => !(x = '=')) else none

/-- The scan of `dedupEnvCase` of `os/exec` (Go 1.20 and later, outside Windows
and Plan 9), which runs from the last entry to the first: an entry with a NUL
is skipped, an entry without key is kept unless it is empty, and an entry with
a key is kept when no later entry has the same key. -/
def dedupScan : List String → List String → List String
  | [], _ => []
  | kv :: rest, saw =>
    if Char.ofNat 0 ∈ kv.data then dedupScan rest saw
    else
      match envKey kv.data with
      | none => if kv = "" then dedupScan rest saw else kv :: dedupScan rest saw
      | some k =>
        if String.mk k ∈ saw then dedupScan rest saw
        else kv :: dedupScan rest (String.mk k :: saw)

/-- The function `dedupEnv` of `os/exec`: of the entries with the same key only
the last is kept, and the order is kept. -/
def dedupEnv (env : List String) : List String :=
  (dedupScan env.reverse []).reverse

/-- The environment of the child process that `c.Run()` starts: `os/exec` passes
`dedupEnv(c.Env)` to the process, and does not start it at all (`none`) when an
entry contains a NUL. -/
def childEnv (H : Host) (workDir : String) (env : List (String × String)) :
    Option (List String) :=
  if ∃ e ∈ cmdEnv H workDir env, Char.ofNat 0 ∈ e.data then none
  else some (dedupEnv (cmdEnv H workDir env))

/-- A sample host whose current directory is `cwd`.  `Abs` is right for `.` and
for relative paths without `.` and `..` elements. -/
def hostAt (cwd : String) : Host where
  Environ := ["HOME=/root", "PATH=/usr/bin"]
  Getenv := fun k => if k = "HOME" then "/root" else if k = "PATH" then "/usr/bin" else ""
  Abs := fun p => if p = "." then cwd else cwd ++ "/" ++ p

/-! ## The HTTP handler -/

/-- The struct `httptest.ResponseRecorder`, as far as the source uses it: the
status code, the body buffer (`none` for a nil pointer, which is its zero
value) and the flag `wroteHeader`.  The header map is left out: the pipeline
sets no header. -/
structure ResponseRecorder where
  Code : Nat
  Body : Option String
  wroteHeader : Bool
deriving DecidableEq

/-- The method `WriteHeader` of the recorder: the first status code is kept. -/
def ResponseRecorder.WriteHeader (rw : ResponseRecorder) (code : Nat) : ResponseRecorder :=
  if rw.wroteHeader then rw else { rw with Code := code, wroteHeader := true }

/-- The method `Write` of the recorder: status 200 if none was written, and the
bytes are appended to the body buffer only when there is one. -/
def ResponseRecorder.Write (rw : ResponseRecorder) (buf : String) : ResponseRecorder :=
  let rw1 := if rw.wroteHeader then rw else rw.WriteHeader 200
  match rw1.Body with
  | none => rw1
  | some b => { rw1 with Body := some (b ++ buf) }

/-- The effect of one event of the pipeline on its recorder `w`. -/
def recordEvent (rw : ResponseRecorder) : Event → ResponseRecorder
  | Event.writeHeader code => rw.WriteHeader code
  | Event.write body => rw.Write body
  | _ => rw

/-- The recorder `w` of the goroutine when the goroutine ends.  `w` is the
parameter of `go func(w httptest.ResponseRecorder)` (main.go, line 123), a copy
of the zero value `rr` declared on line 120. -/
def goroutineRecorder (W : World) (i : buildInput) : ResponseRecorder :=
  (pipeline W i).trace.foldl recordEvent ⟨0, none, false⟩

/-- What the caller of the handler gets. -/
inductive Delivery where
  /-- A response with a status code and a body. -/
  | response (status : Nat) (body : String)
  /-- The handler panicked: the server closes the connection without a response. -/
  | aborted
  /-- The goroutine panicked: the process ends. -/
  | crashed
deriving DecidableEq

/-- The handler `build` (main.go, lines 104-273) on a request body that is
unreadable or does not parse (`none`) or parses to `i`.  After `wg.Wait()` the
handler reads `rr`, which the goroutine never changed because it worked on its
copy `w`: `rr.Header()` is empty, and `rr.Body.Bytes()` dereferences the nil
buffer of the zero value, which is a run-time panic. -/
def build (W : World) (req : Option buildInput) : Delivery :=
  match req with
  | none => Delivery.response 400 ""
  | some i =>
    let rr : ResponseRecorder := ⟨0, none, false⟩
    if (pipeline W i).panicked then Delivery.crashed
    else
      match rr.Body with
      | none => Delivery.aborted
      | some b => Delivery.response 200 b

/-- The events of a trace that write to the response recorder. -/
def writesOf (tr : List Event) : List Event :=
  tr.filter fun e => match e with
    | Event.writeHeader _ => true
    | Event.write _ => true
    | _ => false

/-- The two writes of the response block for the response `r`. -/
def responseEvents (W : World) (r : buildResponse) : List Event :=
  match W.marshal r with
  | none => [Event.writeHeader 500, Event.write "Failed to marshal output"]
  | some b => [Event.writeHeader 200, Event.write b]

/-- The writes of a run that started after the trace `start`: none after a
panic, the response block otherwise. -/
def Answered (W : World) (start : List Event) (x : Run) : Prop :=
  writesOf x.trace =
    writesOf start ++ (if x.panicked = true then [] else responseEvents W x.r)

/-- A world like the sample world in which `json.Marshal` fails. -/
def marshalFailWorld : World := { sampleWorld "" with marshal := fun _ => none }

/-! ## What lines and trimming mean -/

/-- The code points that `unicode.IsSpace` reports as white space: tab, line feed,
vertical tab, form feed, carriage return, space, U+0085, U+00A0, U+1680,
U+2000 to U+200A, U+2028, U+2029, U+202F, U+205F and U+3000. -/
def whiteSpace : List Nat :=
  [0x09, 0x0A, 0x0B, 0x0C, 0x0D, 0x20, 0x85, 0xA0, 0x1680, 0x2000, 0x2001, 0x2002, 0x2003,
    0x2004, 0x2005, 0x2006, 0x2007, 0x2008, 0x2009, 0x200A, 0x2028, 0x2029, 0x202F, 0x205F,
    0x3000]

/-- The text made of the given lines with one line feed between neighbours, as
`strings.Join(lines, "\n")` builds it. -/
def joinLines : List (List Char) → List Char
  | [] => []
  | [l] => l
  | l :: m :: rest => l ++ '\n' :: joinLines (m :: rest)

/-- The list `lines` is the list of lines of the text `s`: there is at least one
line, no line contains a line feed, and the lines joined by line feeds are
`s`. -/
def IsLinesOf (lines : List String) (s : String) : Prop :=
  lines ≠ [] ∧ (∀ l ∈ lines, '\n' ∉ l.data) ∧ joinLines (lines.map String.data) = s.data

/-- The string `k` is the line `l` without its leading and trailing white space:
`l` is white space, then `k`, then white space, and `k` neither starts nor ends
with white space. -/
def IsTrimOf (k l : String) : Prop :=
  ∃ pre post, l.data = pre ++ k.data ++ post ∧
    (∀ c ∈ pre, c.toNat ∈ whiteSpace) ∧ (∀ c ∈ post, c.toNat ∈ whiteSpace) ∧
    (∀ c, k.data.head? = some c → c.toNat ∉ whiteSpace) ∧
    (∀ c, k.data.getLast? = some c → c.toNat ∉ whiteSpace)

/-! ## Theorems -/

theorem stepRun_succ (W : World) (i : buildInput) (tr : List Event) (s : List String)
    (rest : List (List String)) (j : Nat) :
    stepRun W i tr (s :: rest) (j + 1) = stepRun W i (tr ++ [stepEvent W i s]) rest j := by
  simp [stepRun, List.append_assoc]

theorem stepOutput_succ (W : World) (i : buildInput) (tr : List Event) (s : List String)
    (rest : List (List String)) (j : Nat) :
    stepOutput W i tr (s :: rest) (j + 1) = stepOutput W i (tr ++ [stepEvent W i s]) rest j := by
  simp [stepOutput, stepRun_succ]

theorem range_succ_map_stepOutput (W : World) (i : buildInput) (tr : List Event)
    (s : List String) (rest : List (List String)) (n : Nat) :
    (List.range (n + 1)).map (stepOutput W i tr (s :: rest)) =
      stepOutput W i tr (s :: rest) 0 ::
        (List.range n).map (stepOutput W i (tr ++ [stepEvent W i s]) rest) := by
  rw [List.range_succ_eq_map, List.map_cons, List.map_map]
  congr 1
  apply List.map_congr_left
  intro j _
  exact stepOutput_succ W i tr s rest j

/-- The loop stops with a failure at the first step whose run returns an error. -/
theorem runSteps_failed (W : World) (i : buildInput) :
    ∀ (steps : List (List String)) (tr : List Event) (acc : List buildOutput) (k : Nat),
      k < steps.length →
      (∀ j, j ≤ k → steps.getD j [] ≠ []) →
      (∀ j, j < k → (stepRun W i tr steps j).2.2 = none) →
      (stepRun W i tr steps k).2.2 ≠ none →
      runSteps W (workDir W i) i.Env steps tr acc =
        Loop.failed (tr ++ (steps.take (k + 1)).map (stepEvent W i))
          (acc ++ (List.range (k + 1)).map (stepOutput W i tr steps)) := by
  intro steps
  induction steps with
  | nil => intro tr acc k hk; simp at hk
  | cons s rest ih =>
    intro tr acc k hk hne hok hfail
    have hs : s ≠ [] := by simpa using hne 0 (Nat.zero_le _)
    obtain ⟨cmd, args, rfl⟩ := List.exists_cons_of_ne_nil hs
    cases k with
    | zero =>
      have h0 : (W.run tr (workDir W i) i.Env cmd args).2.2 ≠ none := by
        simpa [stepRun] using hfail
      have h0' : (W.run tr (workDir W i) i.Env cmd args).2.2.isSome = true :=
        Option.isSome_iff_ne_none.mpr h0
      simp [runSteps, runCommand, h0', stepEvent, stepOutput, stepRun, List.range_succ]
    | succ k =>
      have h0 : (W.run tr (workDir W i) i.Env cmd args).2.2 = none := by
        simpa [stepRun] using hok 0 (Nat.succ_pos _)
      have key := ih (tr ++ [stepEvent W i (cmd :: args)])
        (acc ++ [stepOutput W i tr ((cmd :: args) :: rest) 0]) k
        (by simpa using hk)
        (fun j hj => by simpa using hne (j + 1) (Nat.succ_le_succ hj))
        (fun j hj => by rw [← stepRun_succ]; exact hok (j + 1) (Nat.succ_lt_succ hj))
        (by rw [← stepRun_succ]; exact hfail)
      rw [range_succ_map_stepOutput]
      simp only [runSteps, runCommand, h0, Option.isSome_none, Bool.false_eq_true, if_false]
      simp only [stepEvent, stepOutput, stepRun, List.take_zero, List.map_nil, List.append_nil,
        List.getD_cons_zero, List.headD_cons, List.tail_cons, h0] at key
      rw [key]
      simp [stepEvent, stepOutput, stepRun, h0, List.append_assoc]

/-- The loop completes when every step has a token and runs without an error. -/
theorem runSteps_completed (W : World) (i : buildInput) :
    ∀ (steps : List (List String)) (tr : List Event) (acc : List buildOutput),
      (∀ j, j < steps.length → steps.getD j [] ≠ []) →
      (∀ j, j < steps.length → (stepRun W i tr steps j).2.2 = none) →
      runSteps W (workDir W i) i.Env steps tr acc =
        Loop.completed (tr ++ steps.map (stepEvent W i))
          (acc ++ (List.range steps.length).map (stepOutput W i tr steps)) := by
  intro steps
  induction steps with
  | nil => intro tr acc _ _; simp [runSteps]
  | cons s rest ih =>
    intro tr acc hne hok
    have hs : s ≠ [] := by simpa using hne 0 (by simp)
    obtain ⟨cmd, args, rfl⟩ := List.exists_cons_of_ne_nil hs
    have h0 : (W.run tr (workDir W i) i.Env cmd args).2.2 = none := by
      simpa [stepRun] using hok 0 (by simp)
    have key := ih (tr ++ [stepEvent W i (cmd :: args)])
      (acc ++ [stepOutput W i tr ((cmd :: args) :: rest) 0])
      (fun j hj => by simpa using hne (j + 1) (by simpa using hj))
      (fun j hj => by rw [← stepRun_succ]; exact hok (j + 1) (by simpa using hj))
    rw [List.length_cons, range_succ_map_stepOutput]
    simp only [runSteps, runCommand, h0, Option.isSome_none, Bool.false_eq_true, if_false]
    simp only [stepEvent, stepOutput, stepRun, List.take_zero, List.map_nil, List.append_nil,
      List.getD_cons_zero, List.headD_cons, List.tail_cons, h0] at key
    rw [key]
    simp [stepEvent, stepOutput, stepRun, h0, List.append_assoc]

/-- The loop panics at the first step without a token, when the steps before it
ran without an error. -/
theorem runSteps_panicked (W : World) (i : buildInput) :
    ∀ (steps : List (List String)) (tr : List Event) (acc : List buildOutput) (k : Nat),
      k < steps.length →
      (∀ j, j < k → steps.getD j [] ≠ []) →
      (∀ j, j < k → (stepRun W i tr steps j).2.2 = none) →
      steps.getD k [] = [] →
      runSteps W (workDir W i) i.Env steps tr acc =
        Loop.panicked (tr ++ (steps.take k).map (stepEvent W i))
          (acc ++ (List.range k).map (stepOutput W i tr steps)) := by
  intro steps
  induction steps with
  | nil => intro tr acc k hk; simp at hk
  | cons s rest ih =>
    intro tr acc k hk hne hok hemp
    cases k with
    | zero =>
      have hs : s = [] := by simpa using hemp
      subst hs
      simp [runSteps]
    | succ k =>
      have hs : s ≠ [] := by simpa using hne 0 (Nat.succ_pos _)
      obtain ⟨cmd, args, rfl⟩ := List.exists_cons_of_ne_nil hs
      have h0 : (W.run tr (workDir W i) i.Env cmd args).2.2 = none := by
        simpa [stepRun] using hok 0 (Nat.succ_pos _)
      have key := ih (tr ++ [stepEvent W i (cmd :: args)])
        (acc ++ [stepOutput W i tr ((cmd :: args) :: rest) 0]) k
        (by simpa using hk)
        (fun j hj => by simpa using hne (j + 1) (Nat.succ_lt_succ hj))
        (fun j hj => by rw [← stepRun_succ]; exact hok (j + 1) (Nat.succ_lt_succ hj))
        (by simpa using hemp)
      rw [range_succ_map_stepOutput]
      simp only [runSteps, runCommand, h0, Option.isSome_none, Bool.false_eq_true, if_false]
      simp only [stepEvent, stepOutput, stepRun, List.take_zero, List.map_nil, List.append_nil,
        List.getD_cons_zero, List.headD_cons, List.tail_cons, h0] at key
      rw [key]
      simp [stepEvent, stepOutput, stepRun, h0, List.append_assoc]

/-- Whatever the runner does, a loop over steps runs an initial segment of its
steps, one after the other, and adds one result for each step it ran; when it
completes it ran all of them. -/
theorem runSteps_shape (W : World) (i : buildInput) :
    ∀ (steps : List (List String)) (tr : List Event) (acc : List buildOutput),
      ∃ n, n ≤ steps.length ∧
        (runSteps W (workDir W i) i.Env steps tr acc).trace =
          tr ++ (steps.take n).map (stepEvent W i) ∧
        (runSteps W (workDir W i) i.Env steps tr acc).steps =
          acc ++ (List.range n).map (stepOutput W i tr steps) ∧
        (∀ t s, runSteps W (workDir W i) i.Env steps tr acc = Loop.completed t s →
          n = steps.length) ∧
        (n = 0 → steps = [] ∨ steps.head? = some []) := by
  intro steps
  induction steps with
  | nil => intro tr acc; exact ⟨0, by simp [runSteps, Loop.trace, Loop.steps]⟩
  | cons s rest ih =>
    intro tr acc
    cases s with
    | nil => exact ⟨0, by simp [runSteps, Loop.trace, Loop.steps]⟩
    | cons cmd args =>
      cases h0 : (W.run tr (workDir W i) i.Env cmd args).2.2 with
      | some e =>
        refine ⟨1, by simp, ?_⟩
        simp [runSteps, runCommand, h0, Loop.trace, Loop.steps, stepEvent, stepOutput,
          stepRun, List.range_succ]
      | none =>
        obtain ⟨n, hn, htr, hst, hc, _⟩ := ih (tr ++ [stepEvent W i (cmd :: args)])
          (acc ++ [stepOutput W i tr ((cmd :: args) :: rest) 0])
        refine ⟨n + 1, by simpa using hn, ?_⟩
        rw [range_succ_map_stepOutput]
        simp only [runSteps, runCommand, h0, Option.isSome_none, Bool.false_eq_true, if_false]
        simp only [stepEvent, stepOutput, stepRun, List.take_zero, List.map_nil,
          List.append_nil, List.getD_cons_zero, List.headD_cons, List.tail_cons, h0]
          at htr hst hc
        refine ⟨?_, ?_, ?_, ?_⟩
        · rw [htr]; simp [stepEvent, List.append_assoc]
        · rw [hst]; simp [stepEvent, stepOutput, stepRun, h0, List.append_assoc]
        · intro t s h
          have := hc t s h
          simp [this]
        · intro h; simp at h

theorem mapGet_cons (p : String × String) (m : List (String × String)) (k : String) :
    mapGet (p :: m) k = if p.1 = k then some p.2 else mapGet m k := by
  by_cases h : p.1 = k <;> simp [mapGet, List.find?_cons, h]

theorem mapSet_cons (p : String × String) (m : List (String × String)) (k v : String) :
    mapSet (p :: m) k v = if p.1 = k then mapSet m k v else p :: mapSet m k v := by
  by_cases h : p.1 = k <;> simp [mapSet, List.filter_cons, h]

theorem mapGet_mapSet_self (m : List (String × String)) (k v : String) :
    mapGet (mapSet m k v) k = some v := by
  induction m with
  | nil => simp [mapGet, mapSet]
  | cons p m ih =>
    rw [mapSet_cons]
    by_cases h : p.1 = k
    · rw [if_pos h]; exact ih
    · rw [if_neg h, mapGet_cons, if_neg h]; exact ih

theorem mapGet_mapSet_other (m : List (String × String)) (k v k2 : String) (h : k2 ≠ k) :
    mapGet (mapSet m k v) k2 = mapGet m k2 := by
  induction m with
  | nil => simp [mapGet, mapSet, Ne.symm h]
  | cons p m ih =>
    rw [mapSet_cons]
    by_cases hp : p.1 = k
    · have hp2 : ¬ p.1 = k2 := fun e => h (e.symm.trans hp)
      rw [if_pos hp, mapGet_cons, if_neg hp2]; exact ih
    · rw [if_neg hp, mapGet_cons, mapGet_cons, ih]

theorem mem_mapKeys_mapSet (m : List (String × String)) (k v k2 : String) :
    k2 ∈ mapKeys (mapSet m k v) ↔ k2 = k ∨ k2 ∈ mapKeys m := by
  simp only [mapKeys, mapSet, List.map_append, List.mem_append, List.mem_map, List.mem_filter,
    List.map_cons, List.map_nil, List.mem_singleton]
  constructor
  · rintro (⟨p, ⟨hp, _⟩, rfl⟩ | h)
    · exact Or.inr ⟨p, hp, rfl⟩
    · exact Or.inl h
  · rintro (h | ⟨p, hp, rfl⟩)
    · exact Or.inr h
    · by_cases e : p.1 = k
      · exact Or.inr e
      · exact Or.inl ⟨p, ⟨hp, by simpa using e⟩, rfl⟩

theorem nodup_mapKeys_mapSet (m : List (String × String)) (k v : String)
    (h : (mapKeys m).Nodup) : (mapKeys (mapSet m k v)).Nodup := by
  simp only [mapKeys, mapSet, List.map_append, List.map_cons, List.map_nil]
  rw [List.nodup_append]
  refine ⟨?_, List.nodup_singleton _, ?_⟩
  · exact List.Nodup.sublist (List.Sublist.map _ (List.filter_sublist _)) h
  · intro a ha hb
    simp only [List.mem_singleton] at hb
    subst hb
    simp only [List.mem_map, List.mem_filter] at ha
    obtain ⟨p, ⟨_, hp⟩, e⟩ := ha
    simp [e] at hp

theorem collectArtifacts_eq_collectKeys (W : World) (wd : String) :
    ∀ (lines : List String) (tr : List Event) (m : List (String × String)),
      collectArtifacts W wd lines tr m = collectKeys W wd (trimmedKeys lines) tr m := by
  intro lines
  induction lines with
  | nil => intro tr m; simp [collectArtifacts, trimmedKeys, collectKeys]
  | cons l rest ih =>
    intro tr m
    by_cases h : (TrimSpace l).length > 0
    · have e : trimmedKeys (l :: rest) = TrimSpace l :: trimmedKeys rest := by
        simp [trimmedKeys, List.filter_cons, h]
      rw [e]
      cases hr : W.readFile tr (wd ++ "/" ++ TrimSpace l) with
      | error err => simp [collectArtifacts, collectKeys, h, hr, ih, artifactValue, readEvent]
      | ok b => simp [collectArtifacts, collectKeys, h, hr, ih, artifactValue, readEvent]
    · have e : trimmedKeys (l :: rest) = trimmedKeys rest := by
        simp [trimmedKeys, List.filter_cons, h]
      rw [e]
      simp [collectArtifacts, h, ih]

theorem collectKeys_trace (W : World) (wd : String) :
    ∀ (keys : List String) (tr : List Event) (m : List (String × String)),
      (collectKeys W wd keys tr m).2 = tr ++ keys.map (readEvent wd) := by
  intro keys
  induction keys with
  | nil => intro tr m; simp [collectKeys]
  | cons k rest ih => intro tr m; simp [collectKeys, ih, List.append_assoc]

theorem collectKeys_mem (W : World) (wd : String) :
    ∀ (keys : List String) (tr : List Event) (m : List (String × String)) (k : String),
      k ∈ mapKeys (collectKeys W wd keys tr m).1 ↔ k ∈ mapKeys m ∨ k ∈ keys := by
  intro keys
  induction keys with
  | nil => intro tr m k; simp [collectKeys]
  | cons a rest ih =>
    intro tr m k
    simp only [collectKeys, ih, mem_mapKeys_mapSet, List.mem_cons]
    tauto

theorem collectKeys_nodup (W : World) (wd : String) :
    ∀ (keys : List String) (tr : List Event) (m : List (String × String)),
      (mapKeys m).Nodup → (mapKeys (collectKeys W wd keys tr m).1).Nodup := by
  intro keys
  induction keys with
  | nil => intro tr m h; simpa [collectKeys] using h
  | cons a rest ih =>
    intro tr m h
    simp only [collectKeys]
    exact ih _ _ (nodup_mapKeys_mapSet m a _ h)

theorem collectKeys_get_other (W : World) (wd : String) :
    ∀ (keys : List String) (tr : List Event) (m : List (String × String)) (k : String),
      k ∉ keys → mapGet (collectKeys W wd keys tr m).1 k = mapGet m k := by
  intro keys
  induction keys with
  | nil => intro tr m k _; simp [collectKeys]
  | cons a rest ih =>
    intro tr m k hk
    simp only [List.mem_cons, not_or] at hk
    simp only [collectKeys]
    rw [ih _ _ _ hk.2, mapGet_mapSet_other _ _ _ _ hk.1]

theorem readAt_succ (W : World) (wd : String) (tr : List Event) (k : String)
    (rest : List String) (n : Nat) :
    readAt W wd tr (k :: rest) (n + 1) = readAt W wd (tr ++ [readEvent wd k]) rest n := by
  simp [readAt, List.append_assoc]

/-- The value of a key is the value of the last read of that key. -/
theorem collectKeys_get (W : World) (wd : String) :
    ∀ (keys : List String) (tr : List Event) (m : List (String × String)) (n : Nat),
      n < keys.length →
      (∀ n2, n < n2 → n2 < keys.length → keys.getD n2 "" ≠ keys.getD n "") →
      mapGet (collectKeys W wd keys tr m).1 (keys.getD n "") =
        some (artifactValue (readAt W wd tr keys n)) := by
  intro keys
  induction keys with
  | nil => intro tr m n hn; simp at hn
  | cons a rest ih =>
    intro tr m n hn hlast
    cases n with
    | zero =>
      have hnot : a ∉ rest := by
        intro hmem
        obtain ⟨j, hj, e⟩ := List.getElem_of_mem hmem
        have := hlast (j + 1) (Nat.succ_pos _) (by simpa using hj)
        apply this
        simp [List.getD_eq_getElem?_getD, List.getElem?_eq_getElem hj, e]
      simp only [collectKeys, List.getD_cons_zero]
      rw [collectKeys_get_other _ _ _ _ _ _ hnot, mapGet_mapSet_self]
      simp [readAt]
    | succ n =>
      simp only [collectKeys, List.getD_cons_succ, readAt_succ]
      apply ih
      · simpa using hn
      · intro n2 h1 h2
        have := hlast (n2 + 1) (Nat.succ_lt_succ h1) (by simpa using h2)
        simpa using this

theorem decChar_encChar : ∀ n, n < 64 → decChar (encChar n) = some n := by
  decide

theorem encChar_ne_pad : ∀ n, n < 64 → encChar n ≠ '=' := by
  decide

theorem encChar_ne_newline : ∀ n, n < 64 → (encChar n = '\r' ∨ encChar n = '\n') = False := by
  decide

theorem toByte_val (a : Byte) : toByte a.val = a := by
  apply Fin.ext
  simp [toByte, Nat.mod_eq_of_lt a.isLt]

theorem decodeChars_encodeBytes : ∀ bs : List Byte, decodeChars (encodeBytes bs) = some bs
  | [] => by simp [encodeBytes, decodeChars]
  | [a] => by
    have ha := a.isLt
    have h0 : a.val * 65536 / 262144 % 64 < 64 := Nat.mod_lt _ (by decide)
    have h1 : a.val * 65536 / 4096 % 64 < 64 := Nat.mod_lt _ (by decide)
    simp only [encodeBytes, decodeChars, decChar_encChar _ h0, decChar_encChar _ h1]
    simp only [and_self, if_true, Option.some.injEq, List.cons.injEq, and_true]
    apply Fin.ext
    simp only [toByte]
    omega
  | [a, b] => by
    have ha := a.isLt
    have hb := b.isLt
    have h0 : (a.val * 65536 + b.val * 256) / 262144 % 64 < 64 := Nat.mod_lt _ (by decide)
    have h1 : (a.val * 65536 + b.val * 256) / 4096 % 64 < 64 := Nat.mod_lt _ (by decide)
    have h2 : (a.val * 65536 + b.val * 256) / 64 % 64 < 64 := Nat.mod_lt _ (by decide)
    simp only [encodeBytes, decodeChars, decChar_encChar _ h0, decChar_encChar _ h1,
      decChar_encChar _ h2, encChar_ne_pad _ h2, if_false, if_true, Option.some.injEq,
      List.cons.injEq, and_true]
    constructor <;> apply Fin.ext <;> simp only [toByte] <;> omega
  | a :: b :: c :: rest => by
    have ha := a.isLt
    have hb := b.isLt
    have hc := c.isLt
    have h0 : (a.val * 65536 + b.val * 256 + c.val) / 262144 % 64 < 64 :=
      Nat.mod_lt _ (by decide)
    have h1 : (a.val * 65536 + b.val * 256 + c.val) / 4096 % 64 < 64 :=
      Nat.mod_lt _ (by decide)
    have h2 : (a.val * 65536 + b.val * 256 + c.val) / 64 % 64 < 64 := Nat.mod_lt _ (by decide)
    have h3 : (a.val * 65536 + b.val * 256 + c.val) % 64 < 64 := Nat.mod_lt _ (by decide)
    simp only [encodeBytes, decodeChars, decChar_encChar _ h0, decChar_encChar _ h1,
      decChar_encChar _ h2, decChar_encChar _ h3, encChar_ne_pad _ h2, encChar_ne_pad _ h3,
      if_false, decodeChars_encodeBytes rest, Option.some.injEq, List.cons.injEq, and_true]
    refine ⟨?_, ?_, ?_⟩ <;> apply Fin.ext <;> simp only [toByte] <;> omega

theorem encodeBytes_no_newline : ∀ (bs : List Byte) (c : Char), c ∈ encodeBytes bs →
    (c = '\r' ∨ c = '\n') = False
  | [], c, h => by simp [encodeBytes] at h
  | [a], c, h => by
    simp only [encodeBytes, List.mem_cons, List.mem_singleton, List.not_mem_nil, or_false] at h
    rcases h with rfl | rfl | rfl | rfl
    · exact encChar_ne_newline _ (Nat.mod_lt _ (by decide))
    · exact encChar_ne_newline _ (Nat.mod_lt _ (by decide))
    · decide
    · decide
  | [a, b], c, h => by
    simp only [encodeBytes, List.mem_cons, List.mem_singleton, List.not_mem_nil, or_false] at h
    rcases h with rfl | rfl | rfl | rfl
    · exact encChar_ne_newline _ (Nat.mod_lt _ (by decide))
    · exact encChar_ne_newline _ (Nat.mod_lt _ (by decide))
    · exact encChar_ne_newline _ (Nat.mod_lt _ (by decide))
    · decide
  | a :: b :: d :: rest, c, h => by
    simp only [encodeBytes, List.mem_cons] at h
    rcases h with rfl | rfl | rfl | rfl | h
    · exact encChar_ne_newline _ (Nat.mod_lt _ (by decide))
    · exact encChar_ne_newline _ (Nat.mod_lt _ (by decide))
    · exact encChar_ne_newline _ (Nat.mod_lt _ (by decide))
    · exact encChar_ne_newline _ (Nat.mod_lt _ (by decide))
    · exact encodeBytes_no_newline rest c h

/-- Decoding an encoded byte sequence gives the sequence back. -/
theorem DecodeString_EncodeToString (bs : List Byte) :
    DecodeString (EncodeToString bs) = some bs := by
  have hf : (encodeBytes bs).filter (fun c => !(c = '\r' || c = '\n')) = encodeBytes bs := by
    apply List.filter_eq_self.mpr
    intro c hc
    have := encodeBytes_no_newline bs c hc
    simp only [eq_iff_iff, iff_false, not_or] at this
    simp [this.1, this.2]
  simp only [DecodeString, EncodeToString, hf]
  exact decodeChars_encodeBytes bs

theorem execsOf_append (a b : List Event) : execsOf (a ++ b) = execsOf a ++ execsOf b := by
  simp [execsOf]

theorem readsOf_append (a b : List Event) : readsOf (a ++ b) = readsOf a ++ readsOf b := by
  simp [readsOf]

theorem removalsOf_append (a b : List Event) :
    removalsOf (a ++ b) = removalsOf a ++ removalsOf b := by
  simp [removalsOf]

theorem execsOf_respond (W : World) (tr : List Event) (r : buildResponse) :
    execsOf (respond W tr r) = execsOf tr := by
  unfold respond
  cases W.marshal r <;> simp [execsOf]

theorem readsOf_respond (W : World) (tr : List Event) (r : buildResponse) :
    readsOf (respond W tr r) = readsOf tr := by
  unfold respond
  cases W.marshal r <;> simp [readsOf]

theorem removalsOf_respond (W : World) (tr : List Event) (r : buildResponse) :
    removalsOf (respond W tr r) = removalsOf tr := by
  unfold respond
  cases W.marshal r <;> simp [removalsOf]

theorem execsOf_steps (W : World) (i : buildInput) (l : List (List String)) :
    execsOf (l.map (stepEvent W i)) = l.map (stepEvent W i) := by
  induction l with
  | nil => rfl
  | cons s l ih => simp [execsOf, stepEvent] at ih ⊢

theorem readsOf_steps (W : World) (i : buildInput) (l : List (List String)) :
    readsOf (l.map (stepEvent W i)) = [] := by
  induction l with
  | nil => rfl
  | cons s l ih => simp [readsOf, stepEvent] at ih ⊢

theorem removalsOf_steps (W : World) (i : buildInput) (l : List (List String)) :
    removalsOf (l.map (stepEvent W i)) = [] := by
  induction l with
  | nil => rfl
  | cons s l ih => simp [removalsOf, stepEvent] at ih ⊢

theorem execsOf_reads (wd : String) (l : List String) :
    execsOf (l.map (readEvent wd)) = [] := by
  induction l with
  | nil => rfl
  | cons s l ih => simp [execsOf, readEvent] at ih ⊢

theorem readsOf_reads (wd : String) (l : List String) :
    readsOf (l.map (readEvent wd)) = l.map fun k => wd ++ "/" ++ k := by
  induction l with
  | nil => rfl
  | cons s l ih => simpa [readsOf, readEvent] using ih

theorem removalsOf_reads (wd : String) (l : List String) :
    removalsOf (l.map (readEvent wd)) = [] := by
  induction l with
  | nil => rfl
  | cons s l ih => simp [removalsOf, readEvent] at ih ⊢

theorem execsOf_buildStart (W : World) (i : buildInput) :
    execsOf (buildStart W i) = buildStart W i := by
  simp [execsOf, buildStart, cloneEvent, checkoutEvent]

theorem readsOf_buildStart (W : World) (i : buildInput) : readsOf (buildStart W i) = [] := by
  simp [readsOf, buildStart, cloneEvent, checkoutEvent]

theorem removalsOf_buildStart (W : World) (i : buildInput) :
    removalsOf (buildStart W i) = [] := by
  simp [removalsOf, buildStart, cloneEvent, checkoutEvent]

/-- The run when the clone fails. -/
theorem pipelineBody_clone_failed (W : World) (i : buildInput)
    (h : (cloneRun W i).2.2 ≠ none) :
    pipelineBody W i =
      ⟨respond W [cloneEvent W i]
          ⟨[⟨[], (cloneRun W i).2.2, (cloneRun W i).1, (cloneRun W i).2.1⟩], none⟩,
        ⟨[⟨[], (cloneRun W i).2.2, (cloneRun W i).1, (cloneRun W i).2.1⟩], none⟩, false⟩ := by
  have h1 : (W.run [] "." i.Env "git" (cloneArgs W i)).2.2.isSome = true :=
    Option.isSome_iff_ne_none.mpr h
  simp [pipelineBody, runCommand, h1, cloneRun, cloneEvent]

/-- The run when the clone succeeds and the checkout fails. -/
theorem pipelineBody_checkout_failed (W : World) (i : buildInput)
    (hclone : (cloneRun W i).2.2 = none) (h : (checkoutRun W i).2.2 ≠ none) :
    pipelineBody W i =
      ⟨respond W [cloneEvent W i, checkoutEvent W i] ⟨[], none⟩, ⟨[], none⟩, false⟩ := by
  have h1 : (W.run [] "." i.Env "git" (cloneArgs W i)).2.2 = none := hclone
  have h2 : (W.run [cloneEvent W i] (workDir W i) i.Env "git"
      ["checkout", i.Commit]).2.2.isSome = true := Option.isSome_iff_ne_none.mpr h
  simp only [cloneEvent] at h2
  simp [pipelineBody, runCommand, h1, h2, cloneEvent, checkoutEvent]

/-- The run when the clone and the checkout succeed. -/
theorem pipelineBody_checked_out (W : World) (i : buildInput)
    (hclone : (cloneRun W i).2.2 = none) (hcheckout : (checkoutRun W i).2.2 = none) :
    pipelineBody W i = buildPhase W i (buildStart W i) ⟨[], none⟩ := by
  have h1 : (W.run [] "." i.Env "git" (cloneArgs W i)).2.2 = none := hclone
  have h2 : (W.run [cloneEvent W i] (workDir W i) i.Env "git"
      ["checkout", i.Commit]).2.2 = none := hcheckout
  simp only [cloneEvent] at h2
  simp [pipelineBody, runCommand, h1, h2, cloneEvent, checkoutEvent, buildStart]

/-- The run when a build step fails. -/
theorem buildPhase_failed (W : World) (i : buildInput) (k : Nat)
    (hk : k < i.Build.length)
    (htok : ∀ j, j ≤ k → i.Build.getD j [] ≠ [])
    (hok : ∀ j, j < k → (buildRun W i j).2.2 = none)
    (hfail : (buildRun W i k).2.2 ≠ none) :
    buildPhase W i (buildStart W i) ⟨[], none⟩ =
      ⟨respond W (buildStart W i ++ (i.Build.take (k + 1)).map (stepEvent W i))
          ⟨(List.range (k + 1)).map (stepOutput W i (buildStart W i) i.Build), none⟩,
        ⟨(List.range (k + 1)).map (stepOutput W i (buildStart W i) i.Build), none⟩, false⟩ := by
  have h := runSteps_failed W i i.Build (buildStart W i) [] k hk htok hok hfail
  simp [buildPhase, h]

/-- The run when a build step has no token. -/
theorem buildPhase_panicked (W : World) (i : buildInput) (k : Nat)
    (hk : k < i.Build.length)
    (htok : ∀ j, j < k → i.Build.getD j [] ≠ [])
    (hok : ∀ j, j < k → (buildRun W i j).2.2 = none)
    (hemp : i.Build.getD k [] = []) :
    buildPhase W i (buildStart W i) ⟨[], none⟩ =
      ⟨buildStart W i ++ (i.Build.take k).map (stepEvent W i),
        ⟨(List.range k).map (stepOutput W i (buildStart W i) i.Build), none⟩, true⟩ := by
  have h := runSteps_panicked W i i.Build (buildStart W i) [] k hk htok hok hemp
  simp [buildPhase, h]

/-- The run when every build step succeeds. -/
theorem buildPhase_completed (W : World) (i : buildInput)
    (htok : ∀ j, j < i.Build.length → i.Build.getD j [] ≠ [])
    (hok : ∀ j, j < i.Build.length → (buildRun W i j).2.2 = none) :
    buildPhase W i (buildStart W i) ⟨[], none⟩ =
      artifactPhase W i (buildEnd W i)
        ⟨(List.range i.Build.length).map (stepOutput W i (buildStart W i) i.Build), none⟩ := by
  have h := runSteps_completed W i i.Build (buildStart W i) [] htok hok
  simp [buildPhase, h, buildEnd]

/-- The artifact phase when no pattern is given. -/
theorem artifactPhase_no_pattern (W : World) (i : buildInput) (tr : List Event)
    (r : buildResponse) (h : i.Artifacts = "") :
    artifactPhase W i tr r = publishPhase W i tr r := by
  simp [artifactPhase, h]

/-- The artifact phase when the search fails. -/
theorem artifactPhase_find_failed (W : World) (i : buildInput) (r : buildResponse)
    (hpat : i.Artifacts.length > 0) (h : (findRun W i).2.2 ≠ none) :
    artifactPhase W i (buildEnd W i) r =
      ⟨respond W (buildEnd W i ++ [findEvent W i])
          ⟨r.Steps ++ [⟨[], (findRun W i).2.2, (findRun W i).1, (findRun W i).2.1⟩],
            r.Artifacts⟩,
        ⟨r.Steps ++ [⟨[], (findRun W i).2.2, (findRun W i).1, (findRun W i).2.1⟩],
          r.Artifacts⟩, false⟩ := by
  have h1 : (W.run (buildEnd W i) (workDir W i) i.Env "find"
      [".", "-name", i.Artifacts]).2.2.isSome = true := Option.isSome_iff_ne_none.mpr h
  simp [artifactPhase, runCommand, hpat, h1, findRun, findEvent]

/-- The artifact phase when the search succeeds. -/
theorem artifactPhase_collected (W : World) (i : buildInput) (r : buildResponse)
    (hpat : i.Artifacts.length > 0) (h : (findRun W i).2.2 = none) :
    artifactPhase W i (buildEnd W i) r =
      publishPhase W i (publishStart W i)
        ⟨r.Steps, some (collectKeys W (workDir W i) (artifactKeys W i)
          (buildEnd W i ++ [findEvent W i]) []).1⟩ := by
  have h1 : (W.run (buildEnd W i) (workDir W i) i.Env "find"
      [".", "-name", i.Artifacts]).2.2 = none := h
  simp only [artifactPhase, runCommand, hpat, if_true, h1, Option.isSome_none,
    Bool.false_eq_true, if_false]
  rw [collectArtifacts_eq_collectKeys, collectKeys_trace]
  rfl

/-- The publish phase runs an initial segment of the publish steps and changes
nothing else of the response. -/
theorem publishPhase_shape (W : World) (i : buildInput) (tr : List Event) (r : buildResponse) :
    ∃ n, n ≤ i.Publish.length ∧
      (publishPhase W i tr r).r =
        ⟨r.Steps ++ (List.range n).map (stepOutput W i tr i.Publish), r.Artifacts⟩ ∧
      ((publishPhase W i tr r).trace = tr ++ (i.Publish.take n).map (stepEvent W i) ∨
        (publishPhase W i tr r).trace =
          respond W (tr ++ (i.Publish.take n).map (stepEvent W i)) (publishPhase W i tr r).r) ∧
      (n = 0 → i.Publish = [] ∨ i.Publish.head? = some []) := by
  obtain ⟨n, hn, htr, hst, _, h0⟩ := runSteps_shape W i i.Publish tr r.Steps
  refine ⟨n, hn, ?_⟩
  unfold publishPhase
  cases hl : runSteps W (workDir W i) i.Env i.Publish tr r.Steps with
  | completed t s =>
    rw [hl] at htr hst
    simp only [Loop.trace, Loop.steps] at htr hst
    subst htr hst
    exact ⟨rfl, Or.inr rfl, h0⟩
  | failed t s =>
    rw [hl] at htr hst
    simp only [Loop.trace, Loop.steps] at htr hst
    subst htr hst
    exact ⟨rfl, Or.inr rfl, h0⟩
  | panicked t s =>
    rw [hl] at htr hst
    simp only [Loop.trace, Loop.steps] at htr hst
    subst htr hst
    exact ⟨rfl, Or.inl rfl, h0⟩

theorem pipeline_r (W : World) (i : buildInput) : (pipeline W i).r = (pipelineBody W i).r := rfl

theorem pipeline_panicked (W : World) (i : buildInput) :
    (pipeline W i).panicked = (pipelineBody W i).panicked := rfl

theorem pipeline_trace (W : World) (i : buildInput) :
    (pipeline W i).trace = (pipelineBody W i).trace ++ [Event.removeAll (workParent W i)] := rfl

theorem execsOf_pipeline (W : World) (i : buildInput) :
    execsOf (pipeline W i).trace = execsOf (pipelineBody W i).trace := by
  rw [pipeline_trace, execsOf_append]
  simp [execsOf]

theorem readsOf_pipeline (W : World) (i : buildInput) :
    readsOf (pipeline W i).trace = readsOf (pipelineBody W i).trace := by
  rw [pipeline_trace, readsOf_append]
  simp [readsOf]

theorem getD_ne_nil_of_forall_mem (l : List (List String)) (h : ∀ s ∈ l, s ≠ []) (j : Nat)
    (hj : j < l.length) : l.getD j [] ≠ [] := by
  rw [List.getD_eq_getElem _ _ hj]
  exact h _ (List.getElem_mem hj)

/-- C1. Build phase early exit: when the clone and the checkout succeed, every
build step has a token and step `k` is the first build step whose run reports a
failure, the returned list of steps has exactly `k + 1` entries; entry `j` holds
the command `Build[j]` with the standard output, standard error and error the
runner returned for it; the entries before `k` carry no error and entry `k`
carries one; and the commands run are the clone, the checkout and the build
steps `0..k`, so no later build step is run. -/
theorem build_stops_at_first_failure (W : World) (i : buildInput) (k : Nat)
    (hclone : (cloneRun W i).2.2 = none)
    (hcheckout : (checkoutRun W i).2.2 = none)
    (htok : ∀ s ∈ i.Build, s ≠ [])
    (hk : k < i.Build.length)
    (hok : ∀ j, j < k → (buildRun W i j).2.2 = none)
    (hfail : (buildRun W i k).2.2 ≠ none) :
    (pipeline W i).r.Steps.length = k + 1 ∧
    (∀ j, j ≤ k → (pipeline W i).r.Steps[j]? =
      some ⟨i.Build.getD j [], (buildRun W i j).2.2, (buildRun W i j).1,
        (buildRun W i j).2.1⟩) ∧
    (∀ j, j < k → ((pipeline W i).r.Steps[j]?).map buildOutput.Error = some none) ∧
    (∃ e, ((pipeline W i).r.Steps[k]?).map buildOutput.Error = some (some e)) ∧
    execsOf (pipeline W i).trace =
      cloneEvent W i :: checkoutEvent W i :: (i.Build.take (k + 1)).map (stepEvent W i) := by
  have htok2 : ∀ j, j ≤ k → i.Build.getD j [] ≠ [] := fun j hj =>
    getD_ne_nil_of_forall_mem i.Build htok j (Nat.lt_of_le_of_lt hj hk)
  have hb : pipelineBody W i = _ :=
    (pipelineBody_checked_out W i hclone hcheckout).trans
      (buildPhase_failed W i k hk htok2 hok hfail)
  have hget : ∀ j, j ≤ k → (pipeline W i).r.Steps[j]? =
      some ⟨i.Build.getD j [], (buildRun W i j).2.2, (buildRun W i j).1,
        (buildRun W i j).2.1⟩ := by
    intro j hj
    rw [pipeline_r, hb]
    simp [List.getElem?_range, Nat.lt_succ_of_le hj, stepOutput, buildRun]
  refine ⟨?_, hget, ?_, ?_, ?_⟩
  · rw [pipeline_r, hb]; simp
  · intro j hj
    rw [hget j (Nat.le_of_lt hj)]
    simp [hok j hj]
  · obtain ⟨e, he⟩ := Option.ne_none_iff_exists'.mp hfail
    exact ⟨e, by rw [hget k (Nat.le_refl _)]; simp [he]⟩
  · rw [execsOf_pipeline, hb]
    simp only
    rw [execsOf_respond, execsOf_append, execsOf_buildStart, execsOf_steps]
    rfl

/-- The early exit on the sample request, whose second build step fails. -/
theorem build_stops_at_first_failure_witness :
    (pipeline (sampleWorld "false") sampleInput).r.Steps.length = 1 + 1 ∧
    execsOf (pipeline (sampleWorld "false") sampleInput).trace =
      cloneEvent (sampleWorld "false") sampleInput ::
        checkoutEvent (sampleWorld "false") sampleInput ::
          (sampleInput.Build.take (1 + 1)).map (stepEvent (sampleWorld "false") sampleInput) :=
  have h := build_stops_at_first_failure (sampleWorld "false") sampleInput 1
    (by decide) (by decide) (by decide) (by decide) (by decide) (by decide)
  ⟨h.1, h.2.2.2.2⟩

/-- C2. When some build step fails (step `k` is run and reports a failure, which
means that the clone, the checkout and the build steps before it succeeded), the
commands run are exactly the clone, the checkout and the build steps `0..k`:
neither the artifact search nor any publish step is run; no artifact file is
read; and the artifact map of the response is nil.  The artifact pattern and the
publish list are arbitrary. -/
theorem build_failure_skips_artifacts_and_publish (W : World) (i : buildInput) (k : Nat)
    (hclone : (cloneRun W i).2.2 = none)
    (hcheckout : (checkoutRun W i).2.2 = none)
    (hk : k < i.Build.length)
    (htok : ∀ j, j ≤ k → i.Build.getD j [] ≠ [])
    (hok : ∀ j, j < k → (buildRun W i j).2.2 = none)
    (hfail : (buildRun W i k).2.2 ≠ none) :
    execsOf (pipeline W i).trace =
      cloneEvent W i :: checkoutEvent W i :: (i.Build.take (k + 1)).map (stepEvent W i) ∧
    readsOf (pipeline W i).trace = [] ∧
    (pipeline W i).r.Artifacts = none := by
  have hb : pipelineBody W i = _ :=
    (pipelineBody_checked_out W i hclone hcheckout).trans
      (buildPhase_failed W i k hk htok hok hfail)
  refine ⟨?_, ?_, ?_⟩
  · rw [execsOf_pipeline, hb]
    simp only
    rw [execsOf_respond, execsOf_append, execsOf_buildStart, execsOf_steps]
    rfl
  · rw [readsOf_pipeline, hb]
    simp only
    rw [readsOf_respond, readsOf_append, readsOf_buildStart, readsOf_steps]
    rfl
  · rw [pipeline_r, hb]

/-- No read and no artifact map on the sample request, whose second build step fails. -/
theorem build_failure_skips_artifacts_and_publish_witness :
    readsOf (pipeline (sampleWorld "false") sampleInput).trace = [] ∧
    (pipeline (sampleWorld "false") sampleInput).r.Artifacts = none :=
  (build_failure_skips_artifacts_and_publish (sampleWorld "false") sampleInput 1
    (by decide) (by decide) (by decide) (by decide) (by decide) (by decide)).2

/-- The three ways the build phase can end, for every behaviour of the runner. -/
theorem buildPhase_cases (W : World) (i : buildInput) (tr : List Event) (r : buildResponse) :
    ∃ n, n ≤ i.Build.length ∧
      (buildPhase W i tr r =
          ⟨tr ++ (i.Build.take n).map (stepEvent W i),
            ⟨r.Steps ++ (List.range n).map (stepOutput W i tr i.Build), r.Artifacts⟩, true⟩ ∨
        buildPhase W i tr r =
          ⟨respond W (tr ++ (i.Build.take n).map (stepEvent W i))
              ⟨r.Steps ++ (List.range n).map (stepOutput W i tr i.Build), r.Artifacts⟩,
            ⟨r.Steps ++ (List.range n).map (stepOutput W i tr i.Build), r.Artifacts⟩, false⟩ ∨
        buildPhase W i tr r =
          artifactPhase W i (tr ++ i.Build.map (stepEvent W i))
            ⟨r.Steps ++ (List.range n).map (stepOutput W i tr i.Build), r.Artifacts⟩) := by
  obtain ⟨n, hn, htr, hst, hc, _⟩ := runSteps_shape W i i.Build tr r.Steps
  refine ⟨n, hn, ?_⟩
  unfold buildPhase
  cases hl : runSteps W (workDir W i) i.Env i.Build tr r.Steps with
  | completed t s =>
    have hlen := hc t s hl
    rw [hl] at htr hst
    simp only [Loop.trace, Loop.steps] at htr hst
    subst htr hst
    right; right
    rw [hlen, List.take_length]
  | failed t s =>
    rw [hl] at htr hst
    simp only [Loop.trace, Loop.steps] at htr hst
    subst htr hst
    right; left; rfl
  | panicked t s =>
    rw [hl] at htr hst
    simp only [Loop.trace, Loop.steps] at htr hst
    subst htr hst
    left; rfl

theorem removalsOf_publishPhase (W : World) (i : buildInput) (tr : List Event)
    (r : buildResponse) : removalsOf (publishPhase W i tr r).trace = removalsOf tr := by
  obtain ⟨n, _, _, h | h, _⟩ := publishPhase_shape W i tr r
  · rw [h, removalsOf_append, removalsOf_steps, List.append_nil]
  · rw [h, removalsOf_respond, removalsOf_append, removalsOf_steps, List.append_nil]

theorem removalsOf_collectArtifacts (W : World) (wd : String) (lines : List String)
    (tr : List Event) (m : List (String × String)) :
    removalsOf (collectArtifacts W wd lines tr m).2 = removalsOf tr := by
  rw [collectArtifacts_eq_collectKeys, collectKeys_trace, removalsOf_append, removalsOf_reads,
    List.append_nil]

theorem removalsOf_artifactPhase (W : World) (i : buildInput) (tr : List Event)
    (r : buildResponse) : removalsOf (artifactPhase W i tr r).trace = removalsOf tr := by
  unfold artifactPhase
  by_cases hp : i.Artifacts.length > 0
  · simp only [hp, if_true]
    cases hf : (runCommand W tr (workDir W i) i.Env "find" [".", "-name", i.Artifacts]).1.2.2 with
    | some e =>
      simp only [Option.isSome_some, if_true]
      rw [removalsOf_respond]
      simp [runCommand, removalsOf]
    | none =>
      simp only [Option.isSome_none, Bool.false_eq_true, if_false]
      rw [removalsOf_publishPhase, removalsOf_collectArtifacts]
      simp [runCommand, removalsOf]
  · simp only [hp, if_false]
    exact removalsOf_publishPhase W i tr r

theorem removalsOf_buildPhase (W : World) (i : buildInput) (tr : List Event)
    (r : buildResponse) : removalsOf (buildPhase W i tr r).trace = removalsOf tr := by
  obtain ⟨n, _, h | h | h⟩ := buildPhase_cases W i tr r
  · rw [h]; simp only; rw [removalsOf_append, removalsOf_steps, List.append_nil]
  · rw [h]; simp only
    rw [removalsOf_respond, removalsOf_append, removalsOf_steps, List.append_nil]
  · rw [h, removalsOf_artifactPhase, removalsOf_append, removalsOf_steps, List.append_nil]

/-- The three ways the body can pass the clone and the checkout. -/
theorem pipelineBody_cases (W : World) (i : buildInput) :
    pipelineBody W i =
        ⟨respond W [cloneEvent W i]
            ⟨[⟨[], (cloneRun W i).2.2, (cloneRun W i).1, (cloneRun W i).2.1⟩], none⟩,
          ⟨[⟨[], (cloneRun W i).2.2, (cloneRun W i).1, (cloneRun W i).2.1⟩], none⟩, false⟩ ∨
      pipelineBody W i =
        ⟨respond W [cloneEvent W i, checkoutEvent W i] ⟨[], none⟩, ⟨[], none⟩, false⟩ ∨
      pipelineBody W i = buildPhase W i (buildStart W i) ⟨[], none⟩ := by
  by_cases h1 : (cloneRun W i).2.2 = none
  · by_cases h2 : (checkoutRun W i).2.2 = none
    · exact Or.inr (Or.inr (pipelineBody_checked_out W i h1 h2))
    · exact Or.inr (Or.inl (pipelineBody_checkout_failed W i h1 h2))
  · exact Or.inl (pipelineBody_clone_failed W i h1)

theorem removalsOf_pipelineBody (W : World) (i : buildInput) :
    removalsOf (pipelineBody W i).trace = [] := by
  rcases pipelineBody_cases W i with h | h | h
  · rw [h]; simp only; rw [removalsOf_respond]; rfl
  · rw [h]; simp only; rw [removalsOf_respond]; rfl
  · rw [h, removalsOf_buildPhase, removalsOf_buildStart]

/-- C3. For every request and every behaviour of the runner, of file reads and
of serialisation, the trace of one run of the pipeline consists of a part
without any recursive removal, followed by exactly one recursive removal, that
of `workParent`: the removal is the last effect of the run, after every command
and every artifact read, on success, on every early exit, on a marshalling
error and on a panic. -/
theorem cleanup_once_and_last (W : World) (i : buildInput) :
    ∃ before, (pipeline W i).trace = before ++ [Event.removeAll (workParent W i)] ∧
      removalsOf before = [] ∧
      removalsOf (pipeline W i).trace = [workParent W i] :=
  ⟨(pipelineBody W i).trace, pipeline_trace W i, removalsOf_pipelineBody W i, by
    rw [pipeline_trace, removalsOf_append, removalsOf_pipelineBody]; rfl⟩

/-- C4 (what the code does). When the clone succeeds and the checkout fails, the
returned list of steps is empty: the failing checkout is not appended, so its
standard output, standard error and error do not reach the response. -/
theorem checkout_failure_leaves_no_step (W : World) (i : buildInput)
    (hclone : (cloneRun W i).2.2 = none)
    (hcheckout : (checkoutRun W i).2.2 ≠ none) :
    (pipeline W i).r.Steps = [] ∧
    (pipeline W i).trace =
      respond W [cloneEvent W i, checkoutEvent W i] ⟨[], none⟩ ++
        [Event.removeAll (workParent W i)] := by
  rw [pipeline_trace, pipeline_r, pipelineBody_checkout_failed W i hclone hcheckout]
  exact ⟨rfl, rfl⟩

/-- A failing checkout in the sample world leaves the list of steps empty. -/
theorem checkout_failure_leaves_no_step_witness :
    (checkoutRun (sampleWorld "checkout") sampleInput).2.2 = some "exit status 1" ∧
    (pipeline (sampleWorld "checkout") sampleInput).r.Steps = [] :=
  ⟨by decide, (checkout_failure_leaves_no_step (sampleWorld "checkout") sampleInput
    (by decide) (by decide)).1⟩

/-- C5. When the clone fails, the returned list of steps has exactly one entry:
no command, the standard output and standard error the runner captured, and the
error; the only command run is the clone (no checkout, build step, artifact
search or publish step); no file is read; and the artifact map is nil. -/
theorem clone_failure_stops_pipeline (W : World) (i : buildInput) (e : String)
    (hclone : (cloneRun W i).2.2 = some e) :
    (pipeline W i).r.Steps = [⟨[], some e, (cloneRun W i).1, (cloneRun W i).2.1⟩] ∧
    execsOf (pipeline W i).trace = [cloneEvent W i] ∧
    readsOf (pipeline W i).trace = [] ∧
    (pipeline W i).r.Artifacts = none := by
  have hne : (cloneRun W i).2.2 ≠ none := by rw [hclone]; simp
  have hb := pipelineBody_clone_failed W i hne
  refine ⟨?_, ?_, ?_, ?_⟩
  · rw [pipeline_r, hb, hclone]
  · rw [execsOf_pipeline, hb]; simp only; rw [execsOf_respond]; rfl
  · rw [readsOf_pipeline, hb]; simp only; rw [readsOf_respond]; rfl
  · rw [pipeline_r, hb]

/-- A failing clone in the sample world gives a single step without command. -/
theorem clone_failure_stops_pipeline_witness :
    (pipeline (sampleWorld "clone") sampleInput).r.Steps =
      [⟨[], some "exit status 1", (cloneRun (sampleWorld "clone") sampleInput).1,
        (cloneRun (sampleWorld "clone") sampleInput).2.1⟩] :=
  (clone_failure_stops_pipeline (sampleWorld "clone") sampleInput "exit status 1"
    (by decide)).1

/-- C6 (what the code does). When the clone and the checkout succeed and build
step `k` is the first one without a token while the steps before it succeed, the
goroutine panics at `step[0]`: it writes neither a status nor a body, and the
trace is the clone, the checkout, the build steps before `k` and the deferred
removal. -/
theorem empty_build_step_panics (W : World) (i : buildInput) (k : Nat)
    (hclone : (cloneRun W i).2.2 = none)
    (hcheckout : (checkoutRun W i).2.2 = none)
    (hk : k < i.Build.length)
    (htok : ∀ j, j < k → i.Build.getD j [] ≠ [])
    (hok : ∀ j, j < k → (buildRun W i j).2.2 = none)
    (hemp : i.Build.getD k [] = []) :
    (pipeline W i).panicked = true ∧
    (pipeline W i).trace =
      cloneEvent W i :: checkoutEvent W i :: (i.Build.take k).map (stepEvent W i) ++
        [Event.removeAll (workParent W i)] ∧
    (∀ code, Event.writeHeader code ∉ (pipeline W i).trace) ∧
    (∀ body, Event.write body ∉ (pipeline W i).trace) := by
  have hb : pipelineBody W i = _ :=
    (pipelineBody_checked_out W i hclone hcheckout).trans
      (buildPhase_panicked W i k hk htok hok hemp)
  have ht : (pipeline W i).trace =
      cloneEvent W i :: checkoutEvent W i :: (i.Build.take k).map (stepEvent W i) ++
        [Event.removeAll (workParent W i)] := by
    rw [pipeline_trace, hb]; rfl
  refine ⟨?_, ht, ?_, ?_⟩
  · rw [pipeline_panicked, hb]
  · intro code h
    rw [ht] at h
    simp only [List.cons_append, List.mem_cons, List.mem_append, List.mem_map,
      List.mem_singleton, cloneEvent, checkoutEvent, stepEvent, List.not_mem_nil] at h
    rcases h with h | h | ⟨s, _, h⟩ | h | h <;> cases h
  · intro body h
    rw [ht] at h
    simp only [List.cons_append, List.mem_cons, List.mem_append, List.mem_map,
      List.mem_singleton, cloneEvent, checkoutEvent, stepEvent, List.not_mem_nil] at h
    rcases h with h | h | ⟨s, _, h⟩ | h | h <;> cases h

/-- The request whose second build step has no token panics and writes no status. -/
theorem empty_build_step_panics_witness :
    emptyStepInput.Build = [["echo", "hi"], []] ∧
    (pipeline (sampleWorld "") emptyStepInput).panicked = true ∧
    ∀ code, Event.writeHeader code ∉ (pipeline (sampleWorld "") emptyStepInput).trace :=
  have h := empty_build_step_panics (sampleWorld "") emptyStepInput 1
    (by decide) (by decide) (by decide) (by decide) (by decide) (by decide)
  ⟨rfl, h.1, h.2.2.1⟩

theorem length_pos_of_ne_empty (s : String) (h : s ≠ "") : s.length > 0 := by
  cases s with
  | mk d =>
    cases d with
    | nil => exact absurd rfl h
    | cons c cs => simp [String.length]

theorem ne_empty_iff_length_pos (s : String) : s ≠ "" ↔ s.length > 0 := by
  constructor
  · exact length_pos_of_ne_empty s
  · intro h e
    subst e
    simp at h

/-- The run when the clone, the checkout, every build step and the artifact
search succeed. -/
theorem pipelineBody_collected (W : World) (i : buildInput)
    (hclone : (cloneRun W i).2.2 = none)
    (hcheckout : (checkoutRun W i).2.2 = none)
    (htok : ∀ j, j < i.Build.length → i.Build.getD j [] ≠ [])
    (hok : ∀ j, j < i.Build.length → (buildRun W i j).2.2 = none)
    (hpat : i.Artifacts ≠ "")
    (hfind : (findRun W i).2.2 = none) :
    pipelineBody W i =
      publishPhase W i (publishStart W i)
        ⟨(List.range i.Build.length).map (stepOutput W i (buildStart W i) i.Build),
          some (collectKeys W (workDir W i) (artifactKeys W i)
            (buildEnd W i ++ [findEvent W i]) []).1⟩ := by
  rw [pipelineBody_checked_out W i hclone hcheckout, buildPhase_completed W i htok hok,
    artifactPhase_collected W i _ (length_pos_of_ne_empty _ hpat) hfind]

theorem mem_trimmedKeys (lines : List String) (k : String) :
    k ∈ trimmedKeys lines ↔ k ≠ "" ∧ k ∈ lines.map TrimSpace := by
  simp only [trimmedKeys, List.mem_filter, decide_eq_true_eq, ne_empty_iff_length_pos]
  tauto

theorem isSpace_iff (c : Char) : isSpace c = true ↔ c.toNat ∈ whiteSpace := by
  simp only [isSpace, whiteSpace, Bool.or_eq_true, Bool.and_eq_true, decide_eq_true_eq,
    List.mem_cons, List.mem_singleton, List.not_mem_nil, or_false]
  omega

theorem splitLF_ne_nil (s : List Char) : splitLF s ≠ [] := by
  cases s with
  | nil => simp [splitLF]
  | cons c cs =>
    unfold splitLF
    by_cases h : c = '\n'
    · simp [h]
    · simp only [h, if_false]
      cases splitLF cs <;> simp

theorem splitLF_no_lf (s : List Char) : ∀ l ∈ splitLF s, '\n' ∉ l := by
  induction s with
  | nil => intro l hl; simp [splitLF] at hl; simp [hl]
  | cons c cs ih =>
    intro l hl
    unfold splitLF at hl
    by_cases h : c = '\n'
    · simp only [h, if_true, List.mem_cons] at hl
      rcases hl with rfl | hl
      · simp
      · exact ih l hl
    · simp only [h, if_false] at hl
      obtain ⟨x, xs, e⟩ := List.exists_cons_of_ne_nil (splitLF_ne_nil cs)
      rw [e] at hl ih
      simp only [List.mem_cons] at hl
      rcases hl with rfl | hl
      · intro hm
        rcases List.mem_cons.mp hm with hm | hm
        · exact h hm.symm
        · exact ih x (List.mem_cons_self _ _) hm
      · exact ih l (List.mem_cons_of_mem _ hl)

theorem joinLines_cons_cons (c : Char) (l : List Char) (ls : List (List Char)) :
    joinLines ((c :: l) :: ls) = c :: joinLines (l :: ls) := by
  cases ls <;> rfl

theorem joinLines_splitLF (s : List Char) : joinLines (splitLF s) = s := by
  induction s with
  | nil => rfl
  | cons c cs ih =>
    obtain ⟨x, xs, e⟩ := List.exists_cons_of_ne_nil (splitLF_ne_nil cs)
    unfold splitLF
    by_cases h : c = '\n'
    · simp only [h, if_true, e]
      rw [e] at ih
      simp only [joinLines, List.nil_append, ih]
    · simp only [h, if_false, e]
      rw [e] at ih
      rw [joinLines_cons_cons, ih]

/-- The list `SplitLines s` is the list of lines of `s`. -/
theorem SplitLines_isLinesOf (s : String) : IsLinesOf (SplitLines s) s := by
  refine ⟨?_, ?_, ?_⟩
  · simp [SplitLines, splitLF_ne_nil]
  · intro l hl
    simp only [SplitLines, List.mem_map] at hl
    obtain ⟨x, hx, rfl⟩ := hl
    exact splitLF_no_lf _ x hx
  · have : (SplitLines s).map String.data = splitLF s.data := by
      simp only [SplitLines, List.map_map]
      exact List.map_id' _
    rw [this, joinLines_splitLF]

theorem dropWhile_append_of_all (p : Char → Bool) (pre rest : List Char)
    (h : ∀ c ∈ pre, p c = true) : (pre ++ rest).dropWhile p = rest.dropWhile p := by
  induction pre with
  | nil => rfl
  | cons c cs ih =>
    simp only [List.cons_append, List.dropWhile_cons, h c (List.mem_cons_self _ _), if_true]
    exact ih (fun x hx => h x (List.mem_cons_of_mem _ hx))

theorem dropWhile_of_head (p : Char → Bool) (l : List Char)
    (h : ∀ c, l.head? = some c → p c = false) : l.dropWhile p = l := by
  cases l with
  | nil => rfl
  | cons c cs => simp [List.dropWhile_cons, h c rfl]

theorem dropWhile_all (p : Char → Bool) (l : List Char) (h : ∀ c ∈ l, p c = true) :
    l.dropWhile p = [] := by
  have := dropWhile_append_of_all p l [] h
  simpa using this

theorem isSpace_false_of (c : Char) (h : c.toNat ∉ whiteSpace) : isSpace c = false := by
  cases hs : isSpace c
  · rfl
  · exact absurd ((isSpace_iff c).mp hs) h

/-- A line has one trimmed form only, the one `strings.TrimSpace` returns. -/
theorem eq_TrimSpace_of_isTrimOf (k l : String) (h : IsTrimOf k l) : k = TrimSpace l := by
  obtain ⟨pre, post, hl, hpre, hpost, hhead, hlast⟩ := h
  have hpre2 : ∀ c ∈ pre, isSpace c = true := fun c hc => (isSpace_iff c).mpr (hpre c hc)
  have hpost2 : ∀ c ∈ post.reverse, isSpace c = true := fun c hc =>
    (isSpace_iff c).mpr (hpost c (List.mem_reverse.mp hc))
  apply String.ext
  show k.data = ((l.data.dropWhile isSpace).reverse.dropWhile isSpace).reverse
  rw [hl, List.append_assoc, dropWhile_append_of_all _ _ _ hpre2]
  by_cases hk : k.data = []
  · rw [hk, List.nil_append,
      dropWhile_all _ _ (fun c hc => (isSpace_iff c).mpr (hpost c hc))]
    rfl
  · have h1 : (k.data ++ post).dropWhile isSpace = k.data ++ post := by
      apply dropWhile_of_head
      intro c hc
      rw [List.head?_append_of_ne_nil _ hk] at hc
      exact isSpace_false_of c (hhead c hc)
    rw [h1, List.reverse_append, dropWhile_append_of_all _ _ _ hpost2]
    have h2 : k.data.reverse.dropWhile isSpace = k.data.reverse := by
      apply dropWhile_of_head
      intro c hc
      rw [List.head?_reverse] at hc
      exact isSpace_false_of c (hlast c hc)
    rw [h2, List.reverse_reverse]

/-- What `strings.TrimSpace` returns is the trimmed form of the line. -/
theorem TrimSpace_isTrimOf (l : String) : IsTrimOf (TrimSpace l) l := by
  have hd : l.data = l.data.takeWhile isSpace ++ l.data.dropWhile isSpace :=
    (List.takeWhile_append_dropWhile _ _).symm
  have hr : (l.data.dropWhile isSpace).reverse =
      (l.data.dropWhile isSpace).reverse.takeWhile isSpace ++
        (l.data.dropWhile isSpace).reverse.dropWhile isSpace :=
    (List.takeWhile_append_dropWhile _ _).symm
  have hr2 : l.data.dropWhile isSpace =
      ((l.data.dropWhile isSpace).reverse.dropWhile isSpace).reverse ++
        ((l.data.dropWhile isSpace).reverse.takeWhile isSpace).reverse := by
    rw [← List.reverse_append, ← hr, List.reverse_reverse]
  refine ⟨l.data.takeWhile isSpace,
    ((l.data.dropWhile isSpace).reverse.takeWhile isSpace).reverse, ?_, ?_, ?_, ?_, ?_⟩
  · show l.data = _ ++ ((l.data.dropWhile isSpace).reverse.dropWhile isSpace).reverse ++ _
    rw [List.append_assoc, ← hr2]
    exact hd
  · intro c hc
    exact (isSpace_iff c).mp (List.mem_takeWhile_imp hc)
  · intro c hc
    exact (isSpace_iff c).mp (List.mem_takeWhile_imp (List.mem_reverse.mp hc))
  · intro c hc hw
    have hs : isSpace c = true := (isSpace_iff c).mpr hw
    change (((l.data.dropWhile isSpace).reverse.dropWhile isSpace).reverse).head? = some c at hc
    by_cases he : ((l.data.dropWhile isSpace).reverse.dropWhile isSpace).reverse = []
    · rw [he] at hc; cases hc
    · have hh : (l.data.dropWhile isSpace).head? = some c := by
        rw [hr2, List.head?_append_of_ne_nil _ he]; exact hc
      have := List.head?_dropWhile_not isSpace l.data
      rw [hh] at this
      simp [hs] at this
  · intro c hc hw
    have hs : isSpace c = true := (isSpace_iff c).mpr hw
    change (((l.data.dropWhile isSpace).reverse.dropWhile isSpace).reverse).getLast? = some c
      at hc
    rw [List.getLast?_reverse] at hc
    have := List.head?_dropWhile_not isSpace (l.data.dropWhile isSpace).reverse
    rw [hc] at this
    simp [hs] at this

/-- The non-empty trimmed lines of a text, said without the functions of the
pipeline. -/
theorem mem_trimmed_lines_iff (s k : String) :
    (k ≠ "" ∧ k ∈ (SplitLines s).map TrimSpace) ↔
      k ≠ "" ∧ ∃ l ∈ SplitLines s, IsTrimOf k l := by
  constructor
  · rintro ⟨h1, h2⟩
    obtain ⟨l, hl, rfl⟩ := List.mem_map.mp h2
    exact ⟨h1, l, hl, TrimSpace_isTrimOf l⟩
  · rintro ⟨h1, l, hl, ht⟩
    exact ⟨h1, List.mem_map.mpr ⟨l, hl, (eq_TrimSpace_of_isTrimOf k l ht).symm⟩⟩

theorem splitLF_append (a b : List Char) :
    splitLF (a ++ '\n' :: b) = splitLF a ++ splitLF b := by
  induction a with
  | nil => simp [splitLF]
  | cons c cs ih =>
    by_cases h : c = '\n'
    · simp [splitLF, h, ih]
    · obtain ⟨l, ls, e⟩ := List.exists_cons_of_ne_nil (splitLF_ne_nil cs)
      rw [e] at ih
      simp only [List.cons_append, splitLF, h, if_false, e]
      rw [show cs.append ('\n' :: b) = cs ++ '\n' :: b from rfl, ih]
      rfl

theorem splitLF_no_lf_eq (l : List Char) (h : '\n' ∉ l) : splitLF l = [l] := by
  induction l with
  | nil => rfl
  | cons c cs ih =>
    simp only [List.mem_cons, not_or] at h
    have hc : ¬ c = '\n' := fun e => h.1 e.symm
    simp only [splitLF, hc, if_false, ih h.2]

theorem splitLF_joinLines : ∀ L : List (List Char), L ≠ [] → (∀ l ∈ L, '\n' ∉ l) →
    splitLF (joinLines L) = L
  | [], h, _ => absurd rfl h
  | [l], _, h => by
    simpa [joinLines] using splitLF_no_lf_eq l (h l (List.mem_cons_self _ _))
  | l :: m :: rest, _, h => by
    have ih := splitLF_joinLines (m :: rest) (by simp)
      (fun x hx => h x (List.mem_cons_of_mem _ hx))
    simp only [joinLines, splitLF_append, ih,
      splitLF_no_lf_eq l (h l (List.mem_cons_self _ _))]
    rfl

/-- A text has one list of lines only, the one `strings.Split` returns. -/
theorem eq_SplitLines_of_isLinesOf (lines : List String) (s : String)
    (h : IsLinesOf lines s) : lines = SplitLines s := by
  obtain ⟨h1, h2, h3⟩ := h
  have hs := splitLF_joinLines (lines.map String.data) (by simpa using h1)
    (by
      intro l hl
      obtain ⟨x, hx, rfl⟩ := List.mem_map.mp hl
      exact h2 x hx)
  rw [h3] at hs
  simp only [SplitLines, hs, List.map_map]
  exact (List.map_id' _).symm

/-- C7. When the clone, the checkout and all build steps succeed, the artifact
pattern is non-empty and the artifact search succeeds, the response has an
artifact map whose keys are exactly the non-empty trimmed lines of the standard
output of the search.  Lines and trimming are said without the functions of
the pipeline: the lines are the one list of strings without line feed that,
joined by line feeds, give the output; and a key is the trimmed form of a line
when the line is white space, the key, white space, and the key neither starts
nor ends with white space.  The value of a key is the standard base64 encoding of the
bytes read from `workDir + "/" + key` when the (last) read of that key
succeeds, and `"Error reading artifact: "` followed by the read error
otherwise.  Every key is read, in order, whether or not earlier reads failed;
the list of steps holds the results of the build steps followed by results of
publish steps only, so a failed read adds no step result; and the publish loop
runs after the reads: its first step is run whenever it has a token. -/
theorem artifact_map_contents (W : World) (i : buildInput)
    (hclone : (cloneRun W i).2.2 = none)
    (hcheckout : (checkoutRun W i).2.2 = none)
    (htok : ∀ j, j < i.Build.length → i.Build.getD j [] ≠ [])
    (hok : ∀ j, j < i.Build.length → (buildRun W i j).2.2 = none)
    (hpat : i.Artifacts ≠ "")
    (hfind : (findRun W i).2.2 = none) :
    ∃ m, (pipeline W i).r.Artifacts = some m ∧
      (mapKeys m).Nodup ∧
      (∀ k, k ∈ mapKeys m ↔ k ≠ "" ∧ k ∈ (SplitLines (findRun W i).1).map TrimSpace) ∧
      (∃ lines, IsLinesOf lines (findRun W i).1) ∧
      (∀ lines, IsLinesOf lines (findRun W i).1 →
        ∀ k, k ∈ mapKeys m ↔ k ≠ "" ∧ ∃ l ∈ lines, IsTrimOf k l) ∧
      (∀ k, k ∈ artifactKeys W i ↔ k ∈ mapKeys m) ∧
      (∀ n, n < (artifactKeys W i).length →
        (∀ n2, n < n2 → n2 < (artifactKeys W i).length →
          (artifactKeys W i).getD n2 "" ≠ (artifactKeys W i).getD n "") →
        (∀ b, artifactRead W i n = Except.ok b →
          mapGet m ((artifactKeys W i).getD n "") = some (EncodeToString b)) ∧
        (∀ err, artifactRead W i n = Except.error err →
          mapGet m ((artifactKeys W i).getD n "") = some ("Error reading artifact: " ++ err))) ∧
      readsOf (pipeline W i).trace =
        (artifactKeys W i).map (fun k => workDir W i ++ "/" ++ k) ∧
      ∃ p, p ≤ i.Publish.length ∧
        (pipeline W i).r.Steps =
          (List.range i.Build.length).map (stepOutput W i (buildStart W i) i.Build) ++
            (List.range p).map (stepOutput W i (publishStart W i) i.Publish) ∧
        execsOf (pipeline W i).trace =
          buildEnd W i ++ [findEvent W i] ++ (i.Publish.take p).map (stepEvent W i) ∧
        (p = 0 → i.Publish = [] ∨ i.Publish.head? = some []) := by
  have hb := pipelineBody_collected W i hclone hcheckout htok hok hpat hfind
  obtain ⟨p, hp, hr, htr, h0⟩ := publishPhase_shape W i (publishStart W i)
    ⟨(List.range i.Build.length).map (stepOutput W i (buildStart W i) i.Build),
      some (collectKeys W (workDir W i) (artifactKeys W i)
        (buildEnd W i ++ [findEvent W i]) []).1⟩
  rw [← hb] at hr htr
  have hexec : execsOf (publishStart W i) = buildEnd W i ++ [findEvent W i] := by
    unfold publishStart buildEnd
    rw [execsOf_append, execsOf_append, execsOf_append, execsOf_buildStart, execsOf_steps,
      execsOf_reads, List.append_nil]
    rfl
  have hreads : readsOf (publishStart W i) =
      (artifactKeys W i).map (fun k => workDir W i ++ "/" ++ k) := by
    unfold publishStart buildEnd
    rw [readsOf_append, readsOf_append, readsOf_append, readsOf_buildStart, readsOf_steps,
      readsOf_reads]
    rfl
  have hkeys : ∀ k, k ∈ mapKeys (collectKeys W (workDir W i) (artifactKeys W i)
      (buildEnd W i ++ [findEvent W i]) []).1 ↔
      k ≠ "" ∧ k ∈ (SplitLines (findRun W i).1).map TrimSpace := by
    intro k
    rw [collectKeys_mem, artifactKeys, mem_trimmedKeys]
    simp [mapKeys]
  refine ⟨_, by rw [pipeline_r, hr], ?_, hkeys, ⟨_, SplitLines_isLinesOf _⟩, ?_, ?_, ?_, ?_,
    p, hp, by rw [pipeline_r, hr], ?_, h0⟩
  · exact collectKeys_nodup W _ _ _ _ (by simp [mapKeys])
  · intro lines hlines k
    rw [eq_SplitLines_of_isLinesOf lines _ hlines, hkeys k]
    exact mem_trimmed_lines_iff _ k
  · intro k
    rw [hkeys k, artifactKeys, mem_trimmedKeys]
  · intro n hn hlast
    have hv := collectKeys_get W (workDir W i) (artifactKeys W i)
      (buildEnd W i ++ [findEvent W i]) [] n hn hlast
    refine ⟨fun b hb2 => ?_, fun err he => ?_⟩
    · rw [hv]; unfold artifactRead at hb2; rw [hb2]; rfl
    · rw [hv]; unfold artifactRead at he; rw [he]; rfl
  · rw [readsOf_pipeline]
    rcases htr with h | h
    · rw [h, readsOf_append, readsOf_steps, List.append_nil, hreads]
    · rw [h, readsOf_respond, readsOf_append, readsOf_steps, List.append_nil, hreads]
  · rw [execsOf_pipeline]
    rcases htr with h | h
    · rw [h, execsOf_append, execsOf_steps, hexec]
    · rw [h, execsOf_respond, execsOf_append, execsOf_steps, hexec]

/-- The artifact map of the sample request whose steps all succeed: the search
prints ` ./missing.zip `, `./out.zip` and two empty lines, and the keys are
`./missing.zip` and `./out.zip`. -/
theorem artifact_map_contents_witness :
    (findRun (sampleWorld "") passingInput).1 = " ./missing.zip \n./out.zip\n\n" ∧
    (pipeline (sampleWorld "") passingInput).r.Artifacts =
      some [("./missing.zip", "Error reading artifact: open: no such file or directory"),
        ("./out.zip", "TWE=")] ∧
    ∃ m, (pipeline (sampleWorld "") passingInput).r.Artifacts = some m ∧
      ∀ lines, IsLinesOf lines (findRun (sampleWorld "") passingInput).1 →
        ∀ k, k ∈ mapKeys m ↔ k ≠ "" ∧ ∃ l ∈ lines, IsTrimOf k l :=
  ⟨by decide, by decide,
    (artifact_map_contents (sampleWorld "") passingInput
      (by decide) (by decide) (by decide) (by decide) (by decide) (by decide)).imp
      fun _ h => ⟨h.1, h.2.2.2.2.1⟩⟩

/-- C8. Round trip: decoding the standard base64 encoding of any byte sequence
(the empty one included) gives the sequence back; and in a run that collects
artifacts, for every key whose (last) read succeeded with bytes `b`, the value
of the key in the artifact map decodes to exactly `b`. -/
theorem artifact_value_round_trip (W : World) (i : buildInput)
    (hclone : (cloneRun W i).2.2 = none)
    (hcheckout : (checkoutRun W i).2.2 = none)
    (htok : ∀ j, j < i.Build.length → i.Build.getD j [] ≠ [])
    (hok : ∀ j, j < i.Build.length → (buildRun W i j).2.2 = none)
    (hpat : i.Artifacts ≠ "")
    (hfind : (findRun W i).2.2 = none) :
    (∀ bs : List Byte, DecodeString (EncodeToString bs) = some bs) ∧
    ∀ n b, n < (artifactKeys W i).length →
      (∀ n2, n < n2 → n2 < (artifactKeys W i).length →
        (artifactKeys W i).getD n2 "" ≠ (artifactKeys W i).getD n "") →
      artifactRead W i n = Except.ok b →
      ∃ m v, (pipeline W i).r.Artifacts = some m ∧
        mapGet m ((artifactKeys W i).getD n "") = some v ∧
        DecodeString v = some b := by
  refine ⟨DecodeString_EncodeToString, ?_⟩
  intro n b hn hlast hread
  have hb := pipelineBody_collected W i hclone hcheckout htok hok hpat hfind
  obtain ⟨p, _, hr, _, _⟩ := publishPhase_shape W i (publishStart W i)
    ⟨(List.range i.Build.length).map (stepOutput W i (buildStart W i) i.Build),
      some (collectKeys W (workDir W i) (artifactKeys W i)
        (buildEnd W i ++ [findEvent W i]) []).1⟩
  rw [← hb] at hr
  have hv := collectKeys_get W (workDir W i) (artifactKeys W i)
    (buildEnd W i ++ [findEvent W i]) [] n hn hlast
  refine ⟨_, EncodeToString b, by rw [pipeline_r, hr], ?_, DecodeString_EncodeToString b⟩
  rw [hv]; unfold artifactRead at hread; rw [hread]; rfl

/-- The second artifact of the sample world is read and decodes to its two bytes. -/
theorem artifact_value_round_trip_witness :
    artifactRead (sampleWorld "") passingInput 1 = Except.ok [toByte 77, toByte 97] ∧
    ∃ m v, (pipeline (sampleWorld "") passingInput).r.Artifacts = some m ∧
      mapGet m ((artifactKeys (sampleWorld "") passingInput).getD 1 "") = some v ∧
      DecodeString v = some [toByte 77, toByte 97] :=
  ⟨rfl, (artifact_value_round_trip (sampleWorld "") passingInput
    (by decide) (by decide) (by decide) (by decide) (by decide) (by decide)).2 1
    [toByte 77, toByte 97] (by decide)
    (fun n2 h1 h2 => absurd h2 (by
      have e : (artifactKeys (sampleWorld "") passingInput).length = 2 := by decide
      rw [e]; omega))
    rfl⟩

theorem take_map_append_drop (W : World) (i : buildInput) (l : List (List String)) (n : Nat) :
    (l.take n).map (stepEvent W i) ++ (l.drop n).map (stepEvent W i) = l.map (stepEvent W i) := by
  rw [← List.map_append, List.take_append_drop]

/-- The publish phase on a response without artifact map. -/
theorem publishPhase_facts (W : World) (i : buildInput) (tr : List Event) (r : buildResponse) :
    (publishPhase W i tr r).r.Artifacts = r.Artifacts ∧
    readsOf (publishPhase W i tr r).trace = readsOf tr ∧
    ∃ rest, execsOf (publishPhase W i tr r).trace ++ rest =
      execsOf tr ++ i.Publish.map (stepEvent W i) := by
  obtain ⟨n, _, hr, htr, _⟩ := publishPhase_shape W i tr r
  refine ⟨by rw [hr], ?_, (i.Publish.drop n).map (stepEvent W i), ?_⟩
  · rcases htr with h | h
    · rw [h, readsOf_append, readsOf_steps, List.append_nil]
    · rw [h, readsOf_respond, readsOf_append, readsOf_steps, List.append_nil]
  · rcases htr with h | h
    · rw [h, execsOf_append, execsOf_steps, List.append_assoc, take_map_append_drop]
    · rw [h, execsOf_respond, execsOf_append, execsOf_steps, List.append_assoc,
        take_map_append_drop]

/-- C9. For every request whose artifact pattern is the empty string and every
behaviour of the world, the artifact map of the response is nil, no file is
read, and the commands run are an initial segment of the sequence: clone,
checkout, build steps, publish steps.  The artifact search, which the source
places between the build steps and the publish steps, is therefore never
invoked. -/
theorem no_pattern_no_artifacts (W : World) (i : buildInput) (hpat : i.Artifacts = "") :
    (pipeline W i).r.Artifacts = none ∧
    readsOf (pipeline W i).trace = [] ∧
    ∃ rest, execsOf (pipeline W i).trace ++ rest =
      cloneEvent W i :: checkoutEvent W i ::
        (i.Build.map (stepEvent W i) ++ i.Publish.map (stepEvent W i)) := by
  rw [pipeline_r, readsOf_pipeline, execsOf_pipeline]
  rcases pipelineBody_cases W i with h | h | h
  · rw [h]; simp only
    rw [readsOf_respond, execsOf_respond]
    exact ⟨trivial, rfl, _, rfl⟩
  · rw [h]; simp only
    rw [readsOf_respond, execsOf_respond]
    exact ⟨trivial, rfl, _, rfl⟩
  · rw [h]
    obtain ⟨n, _, hn | hn | hn⟩ := buildPhase_cases W i (buildStart W i) ⟨[], none⟩
    · rw [hn]; simp only
      rw [readsOf_append, readsOf_buildStart, readsOf_steps, execsOf_append,
        execsOf_buildStart, execsOf_steps]
      refine ⟨trivial, rfl, (i.Build.drop n).map (stepEvent W i) ++ i.Publish.map (stepEvent W i), ?_⟩
      rw [List.append_assoc, ← List.append_assoc ((i.Build.take n).map (stepEvent W i)),
        take_map_append_drop]
      rfl
    · rw [hn]; simp only
      rw [readsOf_respond, execsOf_respond, readsOf_append, readsOf_buildStart, readsOf_steps,
        execsOf_append, execsOf_buildStart, execsOf_steps]
      refine ⟨trivial, rfl, (i.Build.drop n).map (stepEvent W i) ++ i.Publish.map (stepEvent W i), ?_⟩
      rw [List.append_assoc, ← List.append_assoc ((i.Build.take n).map (stepEvent W i)),
        take_map_append_drop]
      rfl
    · rw [hn, artifactPhase_no_pattern W i _ _ hpat]
      obtain ⟨ha, hrd, rest, hex⟩ := publishPhase_facts W i
        (buildStart W i ++ i.Build.map (stepEvent W i))
        ⟨[] ++ (List.range n).map (stepOutput W i (buildStart W i) i.Build), none⟩
      refine ⟨ha, ?_, rest, ?_⟩
      · rw [hrd, readsOf_append, readsOf_buildStart, readsOf_steps]; rfl
      · rw [hex, execsOf_append, execsOf_buildStart, execsOf_steps, List.append_assoc]
        rfl

/-- The sample request without pattern has no artifact map and reads no file. -/
theorem no_pattern_no_artifacts_witness :
    (pipeline (sampleWorld "") noPatternInput).r.Artifacts = none ∧
    readsOf (pipeline (sampleWorld "") noPatternInput).trace = [] :=
  have h := no_pattern_no_artifacts (sampleWorld "") noPatternInput rfl
  ⟨h.1, h.2.1⟩

theorem data_append_ne (a b c d : String) (x y : Char) (xs ys : List Char)
    (ha : a.data = x :: xs) (hc : c.data = y :: ys) (hxy : x ≠ y) : a ++ b ≠ c ++ d := by
  intro h
  have h2 := congrArg String.data h
  rw [String.data_append, String.data_append, ha, hc] at h2
  simp only [List.cons_append, List.cons.injEq] at h2
  exact hxy h2.1

/-- The three forms of the clone URL are different strings, for every repository
and every token. -/
theorem clone_urls_distinct (repo token : String) :
    "https://github.com/" ++ repo ++ ".git" ≠
        "https://" ++ token ++ ":x-oauth-basic@github.com/" ++ repo ++ ".git" ∧
      "https://github.com/" ++ repo ++ ".git" ≠ "git@github.com:" ++ repo ++ ".git" ∧
      "https://" ++ token ++ ":x-oauth-basic@github.com/" ++ repo ++ ".git" ≠
        "git@github.com:" ++ repo ++ ".git" := by
  refine ⟨?_, ?_, ?_⟩
  · intro h
    have h2 := congrArg String.length h
    simp only [String.length_append] at h2
    have e1 : ("https://github.com/" : String).length = 19 := by decide
    have e2 : ("https://" : String).length = 8 := by decide
    have e3 : (":x-oauth-basic@github.com/" : String).length = 26 := by decide
    rw [e1, e2, e3] at h2
    omega
  · rw [String.append_assoc, String.append_assoc]
    exact data_append_ne _ _ _ _ 'h' 'g' _ _ rfl rfl (by decide)
  · rw [String.append_assoc, String.append_assoc, String.append_assoc,
      String.append_assoc "git@github.com:"]
    exact data_append_ne _ _ _ _ 'h' 'g' _ _ rfl rfl (by decide)

theorem respond_extends (W : World) (tr : List Event) (r : buildResponse) :
    ∃ rest, respond W tr r = tr ++ rest := by
  unfold respond
  cases W.marshal r
  · exact ⟨_, rfl⟩
  · exact ⟨_, rfl⟩

theorem publishPhase_extends (W : World) (i : buildInput) (tr : List Event)
    (r : buildResponse) : ∃ rest, (publishPhase W i tr r).trace = tr ++ rest := by
  obtain ⟨n, _, _, h | h, _⟩ := publishPhase_shape W i tr r
  · exact ⟨_, h⟩
  · obtain ⟨rest, e⟩ := respond_extends W (tr ++ (i.Publish.take n).map (stepEvent W i))
      (publishPhase W i tr r).r
    exact ⟨_, by rw [h, e, List.append_assoc]⟩

theorem artifactPhase_extends (W : World) (i : buildInput) (tr : List Event)
    (r : buildResponse) : ∃ rest, (artifactPhase W i tr r).trace = tr ++ rest := by
  unfold artifactPhase
  by_cases hp : i.Artifacts.length > 0
  · simp only [hp, if_true]
    cases hf : (runCommand W tr (workDir W i) i.Env "find" [".", "-name", i.Artifacts]).1.2.2 with
    | some e =>
      simp only [Option.isSome_some, if_true]
      obtain ⟨rest, e⟩ := respond_extends W
        (runCommand W tr (workDir W i) i.Env "find" [".", "-name", i.Artifacts]).2
        ⟨r.Steps ++ [⟨[], some e,
          (runCommand W tr (workDir W i) i.Env "find" [".", "-name", i.Artifacts]).1.1,
          (runCommand W tr (workDir W i) i.Env "find" [".", "-name", i.Artifacts]).1.2.1⟩],
          r.Artifacts⟩
      refine ⟨[Event.exec (workDir W i) i.Env "find" [".", "-name", i.Artifacts]] ++ rest, ?_⟩
      rw [e]
      simp only [runCommand, List.append_assoc]
    | none =>
      simp only [Option.isSome_none, Bool.false_eq_true, if_false]
      obtain ⟨rest, e⟩ := publishPhase_extends W i
        (collectArtifacts W (workDir W i)
          (SplitLines (runCommand W tr (workDir W i) i.Env "find"
            [".", "-name", i.Artifacts]).1.1)
          (runCommand W tr (workDir W i) i.Env "find" [".", "-name", i.Artifacts]).2 []).2
        ⟨r.Steps, some (collectArtifacts W (workDir W i)
          (SplitLines (runCommand W tr (workDir W i) i.Env "find"
            [".", "-name", i.Artifacts]).1.1)
          (runCommand W tr (workDir W i) i.Env "find" [".", "-name", i.Artifacts]).2 []).1⟩
      rw [e, collectArtifacts_eq_collectKeys, collectKeys_trace]
      simp only [runCommand, List.append_assoc]
      exact ⟨_, rfl⟩
  · simp only [hp, if_false]
    exact publishPhase_extends W i tr r

theorem buildPhase_extends (W : World) (i : buildInput) (tr : List Event)
    (r : buildResponse) : ∃ rest, (buildPhase W i tr r).trace = tr ++ rest := by
  obtain ⟨n, _, h | h | h⟩ := buildPhase_cases W i tr r
  · exact ⟨_, by rw [h]⟩
  · obtain ⟨rest, e⟩ := respond_extends W (tr ++ (i.Build.take n).map (stepEvent W i))
      ⟨r.Steps ++ (List.range n).map (stepOutput W i tr i.Build), r.Artifacts⟩
    exact ⟨_, by rw [h]; simp only; rw [e, List.append_assoc]⟩
  · obtain ⟨rest, e⟩ := artifactPhase_extends W i (tr ++ i.Build.map (stepEvent W i))
      ⟨r.Steps ++ (List.range n).map (stepOutput W i tr i.Build), r.Artifacts⟩
    exact ⟨_, by rw [h, e, List.append_assoc]⟩

/-- The first event of every run is the clone. -/
theorem head_pipeline_trace (W : World) (i : buildInput) :
    (pipeline W i).trace.head? = some (Event.exec "." i.Env "git" (cloneArgs W i)) := by
  rw [pipeline_trace]
  rcases pipelineBody_cases W i with h | h | h
  · rw [h]; simp only [respond]
    cases W.marshal _ <;> rfl
  · rw [h]; simp only [respond]
    cases W.marshal _ <;> rfl
  · obtain ⟨rest, e⟩ := buildPhase_extends W i (buildStart W i) ⟨[], none⟩
    rw [h, e]
    rfl

theorem cloneArgs_anonymous (W : World) (i : buildInput) (h : i.Token = "-") :
    cloneArgs W i = ["clone", "https://github.com/" ++ i.Repo ++ ".git", workDir W i] := by
  have hl : i.Token.length > 0 := by rw [h]; decide
  unfold cloneArgs
  rw [if_pos hl, if_pos h]

theorem cloneArgs_token (W : World) (i : buildInput) (h0 : i.Token ≠ "") (h : i.Token ≠ "-") :
    cloneArgs W i =
      ["clone", "https://" ++ i.Token ++ ":x-oauth-basic@github.com/" ++ i.Repo ++ ".git",
        workDir W i] := by
  unfold cloneArgs
  rw [if_pos (length_pos_of_ne_empty _ h0), if_neg h]

theorem cloneArgs_ssh (W : World) (i : buildInput) (h : i.Token = "") :
    cloneArgs W i = ["clone", "git@github.com:" ++ i.Repo ++ ".git", workDir W i] := by
  have hl : ¬ i.Token.length > 0 := by rw [h]; decide
  unfold cloneArgs
  rw [if_neg hl]

/-- C10. Clone source selection: the first command of every run is
`git clone <url> <workDir>`, run in the current directory, and the URL is
`https://github.com/<repo>.git` exactly when the token is `-`,
`https://<token>:x-oauth-basic@github.com/<repo>.git` exactly when the token is
neither empty nor `-`, and `git@github.com:<repo>.git` exactly when the token is
empty.  The three conditions exclude one another and cover every token, so
exactly one form is used. -/
theorem clone_source_selection (W : World) (i : buildInput) :
    ((pipeline W i).trace.head? = some (Event.exec "." i.Env "git"
        ["clone", "https://github.com/" ++ i.Repo ++ ".git", workDir W i]) ↔
      i.Token = "-") ∧
    ((pipeline W i).trace.head? = some (Event.exec "." i.Env "git"
        ["clone", "https://" ++ i.Token ++ ":x-oauth-basic@github.com/" ++ i.Repo ++ ".git",
          workDir W i]) ↔
      (i.Token ≠ "" ∧ i.Token ≠ "-")) ∧
    ((pipeline W i).trace.head? = some (Event.exec "." i.Env "git"
        ["clone", "git@github.com:" ++ i.Repo ++ ".git", workDir W i]) ↔
      i.Token = "") := by
  obtain ⟨d1, d2, d3⟩ := clone_urls_distinct i.Repo i.Token
  have hdash : ("-" : String) ≠ "" := by decide
  rw [head_pipeline_trace]
  simp only [Option.some.injEq, Event.exec.injEq, List.cons.injEq, true_and, and_true]
  by_cases h0 : i.Token = ""
  · have hd : i.Token ≠ "-" := fun e => hdash (e.symm.trans h0)
    rw [cloneArgs_ssh W i h0]
    simp only [List.cons.injEq, true_and, and_true]
    exact ⟨⟨fun e => absurd e.symm d2, fun e => absurd e hd⟩,
      ⟨fun e => absurd e.symm d3, fun e => absurd h0 e.1⟩, ⟨fun _ => h0, fun _ => trivial⟩⟩
  · by_cases h1 : i.Token = "-"
    · rw [cloneArgs_anonymous W i h1]
      simp only [List.cons.injEq, true_and, and_true]
      exact ⟨⟨fun _ => h1, fun _ => trivial⟩, ⟨fun e => absurd e d1, fun e => absurd h1 e.2⟩,
        ⟨fun e => absurd e d2, fun e => absurd e h0⟩⟩
    · rw [cloneArgs_token W i h0 h1]
      simp only [List.cons.injEq, true_and, and_true]
      exact ⟨⟨fun e => absurd e.symm d1, fun e => absurd e h1⟩,
        ⟨fun _ => ⟨h0, h1⟩, fun _ => trivial⟩, ⟨fun e => absurd e d3, fun e => absurd e h0⟩⟩

/-- A loop over steps that all have a token does not panic. -/
theorem runSteps_not_panicked (W : World) (i : buildInput) :
    ∀ (steps : List (List String)) (tr : List Event) (acc : List buildOutput),
      (∀ s ∈ steps, s ≠ []) →
      ∀ t s, runSteps W (workDir W i) i.Env steps tr acc ≠ Loop.panicked t s := by
  intro steps
  induction steps with
  | nil => intro tr acc _ t s h; simp [runSteps] at h
  | cons a rest ih =>
    intro tr acc htok t s
    have ha : a ≠ [] := htok a (List.mem_cons_self _ _)
    obtain ⟨cmd, args, rfl⟩ := List.exists_cons_of_ne_nil ha
    cases h0 : (W.run tr (workDir W i) i.Env cmd args).2.2 with
    | some e => simp [runSteps, runCommand, h0]
    | none =>
      simp only [runSteps, runCommand, h0, Option.isSome_none, Bool.false_eq_true, if_false]
      exact ih _ _ (fun x hx => htok x (List.mem_cons_of_mem _ hx)) t s

theorem publishPhase_responded (W : World) (i : buildInput) (tr : List Event)
    (r : buildResponse) (htok : ∀ s ∈ i.Publish, s ≠ []) :
    Responded W (publishPhase W i tr r) := by
  unfold publishPhase
  cases hl : runSteps W (workDir W i) i.Env i.Publish tr r.Steps with
  | completed t s => exact ⟨rfl, _, rfl⟩
  | failed t s => exact ⟨rfl, _, rfl⟩
  | panicked t s => exact absurd hl (runSteps_not_panicked W i _ _ _ htok t s)

theorem artifactPhase_responded (W : World) (i : buildInput) (tr : List Event)
    (r : buildResponse) (htok : ∀ s ∈ i.Publish, s ≠ []) :
    Responded W (artifactPhase W i tr r) := by
  unfold artifactPhase
  by_cases hp : i.Artifacts.length > 0
  · simp only [hp, if_true]
    cases hf : (runCommand W tr (workDir W i) i.Env "find" [".", "-name", i.Artifacts]).1.2.2 with
    | some e =>
      simp only [Option.isSome_some, if_true]
      exact ⟨rfl, _, rfl⟩
    | none =>
      simp only [Option.isSome_none, Bool.false_eq_true, if_false]
      exact publishPhase_responded W i _ _ htok
  · simp only [hp, if_false]
    exact publishPhase_responded W i tr r htok

theorem buildPhase_responded (W : World) (i : buildInput) (tr : List Event)
    (r : buildResponse) (hb : ∀ s ∈ i.Build, s ≠ []) (hp : ∀ s ∈ i.Publish, s ≠ []) :
    Responded W (buildPhase W i tr r) := by
  unfold buildPhase
  cases hl : runSteps W (workDir W i) i.Env i.Build tr r.Steps with
  | completed t s => exact artifactPhase_responded W i _ _ hp
  | failed t s => exact ⟨rfl, _, rfl⟩
  | panicked t s => exact absurd hl (runSteps_not_panicked W i _ _ _ hb t s)

/-- When every build step and every publish step has a token, the goroutine
does not panic: it ends by writing a status and a body for the response it
accumulated, and then removes `workParent`. -/
theorem pipeline_responds (W : World) (i : buildInput)
    (hb : ∀ s ∈ i.Build, s ≠ []) (hp : ∀ s ∈ i.Publish, s ≠ []) :
    (pipeline W i).panicked = false ∧
    ∃ before, (pipeline W i).trace =
      respond W before (pipeline W i).r ++ [Event.removeAll (workParent W i)] := by
  have h : Responded W (pipelineBody W i) := by
    rcases pipelineBody_cases W i with h | h | h
    · rw [h]; exact ⟨rfl, _, rfl⟩
    · rw [h]; exact ⟨rfl, _, rfl⟩
    · rw [h]; exact buildPhase_responded W i _ _ hb hp
  obtain ⟨h1, before, h2⟩ := h
  exact ⟨h1, before, by rw [pipeline_trace, pipeline_r, h2]⟩

theorem digitChar_isDigit : ∀ k, k < 10 →
    (Nat.digitChar k).isDigit = true ∧ (Nat.digitChar k).toNat - 48 = k := by
  decide

theorem toDigitsCore_isDigit : ∀ (fuel n : Nat) (ds : List Char),
    (∀ c ∈ ds, c.isDigit = true) → ∀ c ∈ Nat.toDigitsCore 10 fuel n ds, c.isDigit = true := by
  intro fuel
  induction fuel with
  | zero => intro n ds h c hc; exact h c (by simpa [Nat.toDigitsCore] using hc)
  | succ f ih =>
    intro n ds h c hc
    have hd : ∀ x ∈ Nat.digitChar (n % 10) :: ds, x.isDigit = true := by
      intro x hx
      rcases List.mem_cons.mp hx with rfl | hx
      · exact (digitChar_isDigit _ (Nat.mod_lt _ (by decide))).1
      · exact h x hx
    simp only [Nat.toDigitsCore] at hc
    split at hc
    · exact hd c hc
    · exact ih _ _ hd c hc

theorem toDigitsCore_value : ∀ (fuel n : Nat) (ds : List Char), n < fuel →
    (Nat.toDigitsCore 10 fuel n ds).foldl (fun a c => a * 10 + (c.toNat - 48)) 0 =
      ds.foldl (fun a c => a * 10 + (c.toNat - 48)) n := by
  intro fuel
  induction fuel with
  | zero => intro n ds h; omega
  | succ f ih =>
    intro n ds h
    have hd := (digitChar_isDigit (n % 10) (Nat.mod_lt _ (by decide))).2
    simp only [Nat.toDigitsCore]
    split
    · rename_i h0
      simp only [List.foldl_cons, hd]
      congr 1
      omega
    · rename_i h0
      rw [ih (n / 10) _ (by omega)]
      simp only [List.foldl_cons, hd]
      congr 1
      omega

theorem digitsValue_toDigits (n : Nat) : digitsValue (Nat.toDigits 10 n) = n := by
  unfold digitsValue Nat.toDigits
  rw [toDigitsCore_value _ _ _ (Nat.lt_succ_self n)]
  rfl

theorem repr_data (n : Nat) : (Nat.repr n).data = Nat.toDigits 10 n := rfl

theorem repr_injective (n m : Nat) (h : Nat.repr n = Nat.repr m) : n = m := by
  have h2 := congrArg String.data h
  rw [repr_data, repr_data] at h2
  rw [← digitsValue_toDigits n, ← digitsValue_toDigits m, h2]

theorem repr_isDigit (n : Nat) : ∀ c ∈ (Nat.repr n).data, c.isDigit = true := by
  rw [repr_data]
  exact toDigitsCore_isDigit _ _ _ (by simp)

theorem isDigit_ne (c : Char) (h : c.isDigit = true) : c ≠ '-' ∧ c ≠ '/' := by
  constructor <;> (intro e; subst e; revert h; decide)

/-- The characters of a formatted integer are digits and minus signs. -/
theorem formatInt_chars (t : Int) : ∀ c ∈ (formatInt t).data, c.isDigit = true ∨ c = '-' := by
  intro c hc
  cases t with
  | ofNat n => exact Or.inl (repr_isDigit n c hc)
  | negSucc n =>
    simp only [formatInt, String.data_append, List.mem_append] at hc
    rcases hc with hc | hc
    · right
      simpa using hc
    · exact Or.inl (repr_isDigit _ c hc)

theorem formatInt_nonneg (t : Int) (h : 0 ≤ t) : formatInt t = Nat.repr t.toNat := by
  cases t with
  | ofNat n => rfl
  | negSucc n => exact absurd h (by simp [Int.negSucc_lt_zero])

theorem append_sep_inj {α : Type} (a : α) :
    ∀ (xs xs2 ys ys2 : List α), a ∉ ys → a ∉ ys2 → xs ++ a :: ys = xs2 ++ a :: ys2 →
      xs = xs2 ∧ ys = ys2 := by
  intro xs
  induction xs with
  | nil =>
    intro xs2 ys ys2 h1 _ h
    cases xs2 with
    | nil => simpa using h
    | cons b t =>
      simp only [List.nil_append, List.cons_append, List.cons.injEq] at h
      exact absurd (by rw [h.2]; simp) h1
  | cons x t ih =>
    intro xs2 ys ys2 h1 h2 h
    cases xs2 with
    | nil =>
      simp only [List.nil_append, List.cons_append, List.cons.injEq] at h
      exact absurd (by rw [← h.2]; simp) h2
    | cons b t2 =>
      simp only [List.cons_append, List.cons.injEq] at h
      obtain ⟨e1, e2⟩ := ih t2 ys ys2 h1 h2 h.2
      exact ⟨by rw [h.1, e1], e2⟩

theorem workParent_data (W : World) (i : buildInput) :
    (workParent W i).data =
      "./workdir/".data ++ ((replaceSlash i.Repo).data ++ '-' :: (formatInt W.now).data) := by
  simp only [workParent, String.data_append, List.append_assoc]
  rfl

/-- Two requests with clocks that are not negative get the same `workParent`
exactly when their clocks agree and their repositories agree after every slash
is replaced by a plus. -/
theorem workParent_eq_iff (W1 W2 : World) (i1 i2 : buildInput)
    (h1 : 0 ≤ W1.now) (h2 : 0 ≤ W2.now) :
    workParent W1 i1 = workParent W2 i2 ↔
      replaceSlash i1.Repo = replaceSlash i2.Repo ∧ W1.now = W2.now := by
  constructor
  · intro h
    have hd := congrArg String.data h
    rw [workParent_data, workParent_data] at hd
    have hd2 := List.append_cancel_left hd
    have n1 : '-' ∉ (formatInt W1.now).data := by
      rw [formatInt_nonneg _ h1]
      exact fun hm => (isDigit_ne _ (repr_isDigit _ _ hm)).1 rfl
    have n2 : '-' ∉ (formatInt W2.now).data := by
      rw [formatInt_nonneg _ h2]
      exact fun hm => (isDigit_ne _ (repr_isDigit _ _ hm)).1 rfl
    obtain ⟨e1, e2⟩ := append_sep_inj '-' _ _ _ _ n1 n2 hd2
    refine ⟨String.ext e1, ?_⟩
    have e3 : formatInt W1.now = formatInt W2.now := String.ext e2
    rw [formatInt_nonneg _ h1, formatInt_nonneg _ h2] at e3
    have e4 := repr_injective _ _ e3
    rw [← Int.toNat_of_nonneg h1, ← Int.toNat_of_nonneg h2, e4]
  · rintro ⟨e1, e2⟩
    simp only [workParent, e1, e2]

theorem replaceSlash_no_plus (s : String) (h : '+' ∉ s.data) (t : String)
    (ht : '+' ∉ t.data) (e : replaceSlash s = replaceSlash t) : s = t := by
  have hd := congrArg String.data e
  simp only [replaceSlash] at hd
  apply String.ext
  revert hd
  generalize s.data = a at h
  generalize t.data = b at ht
  induction a generalizing b with
  | nil =>
    intro hd
    cases b with
    | nil => rfl
    | cons _ _ => simp at hd
  | cons x xs ih =>
    intro hd
    cases b with
    | nil => simp at hd
    | cons y ys =>
      simp only [List.map_cons, List.cons.injEq] at hd
      simp only [List.mem_cons, not_or] at h ht
      have := ih h.2 ys ht.2 hd.2
      rw [this]
      congr 1
      have hx := h.1
      have hy := ht.1
      have h3 := hd.1
      by_cases ex : x = '/' <;> by_cases ey : y = '/'
      · rw [ex, ey]
      · rw [if_pos ex, if_neg ey] at h3; exact absurd h3 hy
      · rw [if_neg ex, if_pos ey] at h3; exact absurd h3.symm hx
      · rw [if_neg ex, if_neg ey] at h3; exact h3

/-- C11 (as amended). For clocks that are not negative, two requests get the
same `workParent` exactly when their timestamps are equal and their repository
identifiers agree after every `/` is replaced by `+`.  Hence for repository
identifiers that contain no `+`, different pairs (repository, timestamp) give
different directories. -/
theorem workParent_unique_up_to_plus (W1 W2 : World) (i1 i2 : buildInput)
    (h1 : 0 ≤ W1.now) (h2 : 0 ≤ W2.now) :
    (workParent W1 i1 = workParent W2 i2 ↔
      replaceSlash i1.Repo = replaceSlash i2.Repo ∧ W1.now = W2.now) ∧
    ('+' ∉ i1.Repo.data → '+' ∉ i2.Repo.data →
      (i1.Repo, W1.now) ≠ (i2.Repo, W2.now) → workParent W1 i1 ≠ workParent W2 i2) := by
  refine ⟨workParent_eq_iff W1 W2 i1 i2 h1 h2, ?_⟩
  intro p1 p2 hne he
  obtain ⟨e1, e2⟩ := (workParent_eq_iff W1 W2 i1 i2 h1 h2).mp he
  exact hne (by rw [replaceSlash_no_plus _ p1 _ p2 e1, e2])

/-- Two requests with different timestamps in sample worlds get different
directories. -/
theorem workParent_unique_up_to_plus_witness :
    workParent (clockWorld 1700000000) (repoInput "acme/widget") ≠
      workParent (clockWorld 1700000001) (repoInput "acme/widget") :=
  (workParent_unique_up_to_plus (clockWorld 1700000000) (clockWorld 1700000001)
    (repoInput "acme/widget") (repoInput "acme/widget") (by decide) (by decide)).2
    (by decide) (by decide) (by decide)

/-- C11 (counterexample). The repositories `a/b` and `a+b` are different, and at
the same timestamp they get the same `workParent`. -/
theorem workParent_collision :
    ((repoInput "a/b").Repo, (clockWorld 1700000000).now) ≠
        ((repoInput "a+b").Repo, (clockWorld 1700000000).now) ∧
      0 ≤ (clockWorld 1700000000).now ∧
      workParent (clockWorld 1700000000) (repoInput "a/b") =
        workParent (clockWorld 1700000000) (repoInput "a+b") := by
  decide

/-- C12. For every repository identifier and every timestamp, `workParent` is
`./workdir/` followed by one path component: the component is not empty,
contains no `/`, and is neither `.` nor `..`; and the directory that the
cleanup removes is that direct child of `./workdir`. -/
theorem workParent_is_direct_child (W : World) (i : buildInput) :
    workParent W i = "./workdir/" ++ workComponent W i ∧
    workComponent W i ≠ "" ∧
    '/' ∉ (workComponent W i).data ∧
    workComponent W i ≠ "." ∧
    workComponent W i ≠ ".." ∧
    removalsOf (pipeline W i).trace = ["./workdir/" ++ workComponent W i] := by
  have hd : (workComponent W i).data =
      (replaceSlash i.Repo).data ++ '-' :: (formatInt W.now).data := by
    simp only [workComponent, String.data_append, List.append_assoc]
    rfl
  have hmem : '-' ∈ (workComponent W i).data := by rw [hd]; simp
  have hwp : workParent W i = "./workdir/" ++ workComponent W i := by
    simp only [workParent, workComponent, String.append_assoc]
  refine ⟨hwp, ?_, ?_, ?_, ?_, ?_⟩
  · intro e; rw [e] at hmem; revert hmem; decide
  · rw [hd]
    intro hm
    rcases List.mem_append.mp hm with hm | hm
    · simp only [replaceSlash, List.mem_map] at hm
      obtain ⟨c, _, hc⟩ := hm
      by_cases e : c = '/'
      · rw [if_pos e] at hc; revert hc; decide
      · rw [if_neg e] at hc; exact e hc
    · rcases List.mem_cons.mp hm with hm | hm
      · revert hm; decide
      · rcases formatInt_chars W.now _ hm with h | h
        · exact (isDigit_ne _ h).2 rfl
        · revert h; decide
  · intro e; rw [e] at hmem; revert hmem; decide
  · intro e; rw [e] at hmem; revert hmem; decide
  · rw [pipeline_trace, removalsOf_append, removalsOf_pipelineBody, hwp]
    rfl

/-- The publish phase when publish step `k` is the first that fails. -/
theorem publishPhase_failed (W : World) (i : buildInput) (tr : List Event) (r : buildResponse)
    (k : Nat) (hk : k < i.Publish.length)
    (htok : ∀ j, j ≤ k → i.Publish.getD j [] ≠ [])
    (hok : ∀ j, j < k → (stepRun W i tr i.Publish j).2.2 = none)
    (hfail : (stepRun W i tr i.Publish k).2.2 ≠ none) :
    publishPhase W i tr r =
      ⟨respond W (tr ++ (i.Publish.take (k + 1)).map (stepEvent W i))
          ⟨r.Steps ++ (List.range (k + 1)).map (stepOutput W i tr i.Publish), r.Artifacts⟩,
        ⟨r.Steps ++ (List.range (k + 1)).map (stepOutput W i tr i.Publish), r.Artifacts⟩,
        false⟩ := by
  have h := runSteps_failed W i i.Publish tr r.Steps k hk htok hok hfail
  simp [publishPhase, h]

/-- The publish phase when every publish step succeeds. -/
theorem publishPhase_completed (W : World) (i : buildInput) (tr : List Event)
    (r : buildResponse)
    (htok : ∀ j, j < i.Publish.length → i.Publish.getD j [] ≠ [])
    (hok : ∀ j, j < i.Publish.length → (stepRun W i tr i.Publish j).2.2 = none) :
    publishPhase W i tr r =
      ⟨respond W (tr ++ i.Publish.map (stepEvent W i))
          ⟨r.Steps ++ (List.range i.Publish.length).map (stepOutput W i tr i.Publish),
            r.Artifacts⟩,
        ⟨r.Steps ++ (List.range i.Publish.length).map (stepOutput W i tr i.Publish),
          r.Artifacts⟩, false⟩ := by
  have h := runSteps_completed W i i.Publish tr r.Steps htok hok
  simp [publishPhase, h]

/-- The run up to the start of the publish loop, when the clone, the checkout,
every build step and the artifact search (if there is one) succeed. -/
theorem pipelineBody_before_publish (W : World) (i : buildInput)
    (hclone : (cloneRun W i).2.2 = none)
    (hcheckout : (checkoutRun W i).2.2 = none)
    (htok : ∀ j, j < i.Build.length → i.Build.getD j [] ≠ [])
    (hok : ∀ j, j < i.Build.length → (buildRun W i j).2.2 = none)
    (hfind : i.Artifacts ≠ "" → (findRun W i).2.2 = none) :
    pipelineBody W i =
      publishPhase W i (publishBegin W i) ⟨buildOutputs W i, collectedMap W i⟩ := by
  rw [pipelineBody_checked_out W i hclone hcheckout, buildPhase_completed W i htok hok]
  by_cases hp : i.Artifacts = ""
  · have hl : ¬ i.Artifacts.length > 0 := by rw [hp]; decide
    rw [artifactPhase_no_pattern W i _ _ hp]
    simp only [publishBegin, collectedMap, hl, if_false, buildOutputs]
  · have hl : i.Artifacts.length > 0 := length_pos_of_ne_empty _ hp
    rw [artifactPhase_collected W i _ hl (hfind hp)]
    simp only [publishBegin, collectedMap, hl, if_true, buildOutputs,
      collectArtifacts_eq_collectKeys, artifactKeys]

theorem execsOf_publishBegin (W : World) (i : buildInput) :
    execsOf (publishBegin W i) =
      cloneEvent W i :: checkoutEvent W i :: i.Build.map (stepEvent W i) ++
        (if i.Artifacts.length > 0 then [findEvent W i] else []) := by
  unfold publishBegin
  by_cases hl : i.Artifacts.length > 0
  · simp only [hl, if_true]
    unfold publishStart buildEnd
    rw [execsOf_append, execsOf_append, execsOf_append, execsOf_buildStart, execsOf_steps,
      execsOf_reads, List.append_nil]
    rfl
  · simp only [hl, if_false]
    unfold buildEnd
    rw [execsOf_append, execsOf_buildStart, execsOf_steps, List.append_nil]
    rfl

theorem respond_written (W : World) (tr : List Event) (r : buildResponse) (b : String)
    (h : W.marshal r = some b) :
    respond W tr r = tr ++ [Event.writeHeader 200, Event.write b] := by
  simp only [respond, h]

theorem respond_failed (W : World) (tr : List Event) (r : buildResponse)
    (h : W.marshal r = none) :
    respond W tr r = tr ++ [Event.writeHeader 500, Event.write "Failed to marshal output"] := by
  simp only [respond, h]

/-- C13. Publish phase: when the clone, the checkout, every build step and (if a
pattern is given) the artifact search succeed and every step has a token, let
`k` be the index of the first failing publish step, or the number of publish
steps if none fails.  Then the returned steps are the results of all build
steps followed by the results of the publish steps `0..k` (all of them if none
fails), in order; the commands run end with exactly these publish steps, so no
publish step after the first failure is run; the artifact map of the response
is the map collected before the publish phase (nil without a pattern), also
when a publish step fails; and the run does not panic and ends by writing that
response: after the last publish step that ran come status 200 and the
serialisation of the response value with these steps and this artifact map
(status 500 and a fixed text when the serialisation fails), and then the
removal of `workParent`. -/
theorem publish_stops_at_first_failure (W : World) (i : buildInput) (k : Nat)
    (hclone : (cloneRun W i).2.2 = none)
    (hcheckout : (checkoutRun W i).2.2 = none)
    (hbtok : ∀ s ∈ i.Build, s ≠ [])
    (hptok : ∀ s ∈ i.Publish, s ≠ [])
    (hbok : ∀ j, j < i.Build.length → (buildRun W i j).2.2 = none)
    (hfind : i.Artifacts ≠ "" → (findRun W i).2.2 = none)
    (hk : k ≤ i.Publish.length)
    (hpok : ∀ j, j < k → (publishRun W i j).2.2 = none)
    (hstop : k < i.Publish.length → (publishRun W i k).2.2 ≠ none) :
    (pipeline W i).r.Steps =
      (List.range i.Build.length).map (stepOutput W i (buildStart W i) i.Build) ++
        (List.range (min (k + 1) i.Publish.length)).map
          (stepOutput W i (publishBegin W i) i.Publish) ∧
    (∀ j, j < min (k + 1) i.Publish.length →
      stepOutput W i (publishBegin W i) i.Publish j =
        ⟨i.Publish.getD j [], (publishRun W i j).2.2, (publishRun W i j).1,
          (publishRun W i j).2.1⟩) ∧
    execsOf (pipeline W i).trace =
      cloneEvent W i :: checkoutEvent W i :: i.Build.map (stepEvent W i) ++
        (if i.Artifacts.length > 0 then [findEvent W i] else []) ++
        (i.Publish.take (k + 1)).map (stepEvent W i) ∧
    (i.Artifacts ≠ "" → (pipeline W i).r.Artifacts =
      some (collectArtifacts W (workDir W i) (SplitLines (findRun W i).1)
        (buildEnd W i ++ [findEvent W i]) []).1) ∧
    (i.Artifacts = "" → (pipeline W i).r.Artifacts = none) ∧
    (pipeline W i).panicked = false ∧
    (∀ b, W.marshal (pipeline W i).r = some b →
      (pipeline W i).trace =
        publishBegin W i ++ (i.Publish.take (k + 1)).map (stepEvent W i) ++
          [Event.writeHeader 200, Event.write b, Event.removeAll (workParent W i)]) ∧
    (W.marshal (pipeline W i).r = none →
      (pipeline W i).trace =
        publishBegin W i ++ (i.Publish.take (k + 1)).map (stepEvent W i) ++
          [Event.writeHeader 500, Event.write "Failed to marshal output",
            Event.removeAll (workParent W i)]) := by
  have hbtok2 : ∀ j, j < i.Build.length → i.Build.getD j [] ≠ [] :=
    getD_ne_nil_of_forall_mem i.Build hbtok
  have hptok2 : ∀ j, j < i.Publish.length → i.Publish.getD j [] ≠ [] :=
    getD_ne_nil_of_forall_mem i.Publish hptok
  have hb := pipelineBody_before_publish W i hclone hcheckout hbtok2 hbok hfind
  have hart : (i.Artifacts ≠ "" → collectedMap W i =
      some (collectArtifacts W (workDir W i) (SplitLines (findRun W i).1)
        (buildEnd W i ++ [findEvent W i]) []).1) ∧
      (i.Artifacts = "" → collectedMap W i = none) := by
    constructor
    · intro hp
      simp only [collectedMap, length_pos_of_ne_empty _ hp, if_true]
    · intro hp
      have hl : ¬ i.Artifacts.length > 0 := by rw [hp]; decide
      simp only [collectedMap, hl, if_false]
  rcases Nat.lt_or_ge k i.Publish.length with hlt | hge
  · have hp := publishPhase_failed W i (publishBegin W i) ⟨buildOutputs W i, collectedMap W i⟩
      k hlt (fun j hj => hptok2 j (Nat.lt_of_le_of_lt hj hlt)) hpok (hstop hlt)
    have hmin : min (k + 1) i.Publish.length = k + 1 := Nat.min_eq_left hlt
    rw [hmin]
    refine ⟨by rw [pipeline_r, hb, hp]; rfl, fun j _ => rfl, ?_, ?_, ?_,
      by rw [pipeline_panicked, hb, hp], ?_, ?_⟩
    · rw [execsOf_pipeline, hb, hp]
      simp only
      rw [execsOf_respond, execsOf_append, execsOf_steps, execsOf_publishBegin]
    · intro h; rw [pipeline_r, hb, hp]; exact hart.1 h
    · intro h; rw [pipeline_r, hb, hp]; exact hart.2 h
    · intro b hm
      rw [pipeline_r, hb, hp] at hm
      rw [pipeline_trace, hb, hp]
      simp only
      rw [respond_written W _ _ b hm, List.append_assoc]
      rfl
    · intro hm
      rw [pipeline_r, hb, hp] at hm
      rw [pipeline_trace, hb, hp]
      simp only
      rw [respond_failed W _ _ hm, List.append_assoc]
      rfl
  · have hkl : k = i.Publish.length := Nat.le_antisymm hk hge
    have hp := publishPhase_completed W i (publishBegin W i)
      ⟨buildOutputs W i, collectedMap W i⟩ hptok2
      (fun j hj => hpok j (by rw [hkl]; exact hj))
    have hmin : min (k + 1) i.Publish.length = i.Publish.length :=
      Nat.min_eq_right (by omega)
    have htake : i.Publish.take (k + 1) = i.Publish := List.take_of_length_le (by omega)
    rw [hmin, htake]
    refine ⟨by rw [pipeline_r, hb, hp]; rfl, fun j _ => rfl, ?_, ?_, ?_,
      by rw [pipeline_panicked, hb, hp], ?_, ?_⟩
    · rw [execsOf_pipeline, hb, hp]
      simp only
      rw [execsOf_respond, execsOf_append, execsOf_steps, execsOf_publishBegin]
    · intro h; rw [pipeline_r, hb, hp]; exact hart.1 h
    · intro h; rw [pipeline_r, hb, hp]; exact hart.2 h
    · intro b hm
      rw [pipeline_r, hb, hp] at hm
      rw [pipeline_trace, hb, hp]
      simp only
      rw [respond_written W _ _ b hm, List.append_assoc]
      rfl
    · intro hm
      rw [pipeline_r, hb, hp] at hm
      rw [pipeline_trace, hb, hp]
      simp only
      rw [respond_failed W _ _ hm, List.append_assoc]
      rfl

/-- In the world where `upload` fails, the second of three publish steps is the
last one run, the artifact map is still in the response, and the run ends with
status 200, the serialised response and the removal. -/
theorem publish_stops_at_first_failure_witness :
    (pipeline (sampleWorld "upload") publishInput).r.Steps.length = 1 + 2 ∧
    (pipeline (sampleWorld "upload") publishInput).r.Artifacts =
      some [("./missing.zip", "Error reading artifact: open: no such file or directory"),
        ("./out.zip", "TWE=")] ∧
    writesOf (pipeline (sampleWorld "upload") publishInput).trace =
      [Event.writeHeader 200, Event.write "json"] ∧
    (pipeline (sampleWorld "upload") publishInput).trace =
      publishBegin (sampleWorld "upload") publishInput ++
        (publishInput.Publish.take (1 + 1)).map (stepEvent (sampleWorld "upload") publishInput) ++
        [Event.writeHeader 200, Event.write "json",
          Event.removeAll (workParent (sampleWorld "upload") publishInput)] :=
  have h := publish_stops_at_first_failure (sampleWorld "upload") publishInput 1
    (by decide) (by decide) (by decide) (by decide) (by decide) (fun _ => by decide)
    (by decide) (by decide) (fun _ => by decide)
  ⟨by rw [h.1]; decide, by rw [h.2.2.2.1 (by decide)]; decide, by decide,
    h.2.2.2.2.2.2.1 "json" (by decide)⟩

/-- C14. When the clone, the checkout and all build steps succeed, the artifact
pattern is not empty and the artifact search fails, the returned steps are the
results of all build steps followed by one entry for the search: no command,
the standard output, standard error and error of the search.  No file is read,
the artifact map is nil, and the search is the last command run, so no publish
step is run. -/
theorem find_failure_stops_pipeline (W : World) (i : buildInput) (e : String)
    (hclone : (cloneRun W i).2.2 = none)
    (hcheckout : (checkoutRun W i).2.2 = none)
    (htok : ∀ j, j < i.Build.length → i.Build.getD j [] ≠ [])
    (hok : ∀ j, j < i.Build.length → (buildRun W i j).2.2 = none)
    (hpat : i.Artifacts ≠ "")
    (hfind : (findRun W i).2.2 = some e) :
    (pipeline W i).r.Steps =
      (List.range i.Build.length).map (stepOutput W i (buildStart W i) i.Build) ++
        [⟨[], some e, (findRun W i).1, (findRun W i).2.1⟩] ∧
    readsOf (pipeline W i).trace = [] ∧
    (pipeline W i).r.Artifacts = none ∧
    execsOf (pipeline W i).trace =
      cloneEvent W i :: checkoutEvent W i :: i.Build.map (stepEvent W i) ++
        [findEvent W i] := by
  have hne : (findRun W i).2.2 ≠ none := by rw [hfind]; simp
  have hb : pipelineBody W i = _ :=
    (pipelineBody_checked_out W i hclone hcheckout).trans
      ((buildPhase_completed W i htok hok).trans
        (artifactPhase_find_failed W i _ (length_pos_of_ne_empty _ hpat) hne))
  refine ⟨?_, ?_, ?_, ?_⟩
  · rw [pipeline_r, hb, hfind]
  · rw [readsOf_pipeline, hb]
    simp only
    unfold buildEnd
    rw [readsOf_respond, readsOf_append, readsOf_append, readsOf_buildStart, readsOf_steps]
    rfl
  · rw [pipeline_r, hb]
  · rw [execsOf_pipeline, hb]
    simp only
    unfold buildEnd
    rw [execsOf_respond, execsOf_append, execsOf_append, execsOf_buildStart, execsOf_steps]
    rfl

/-- In the world where `find` fails, the steps are the two build results and
the failed search. -/
theorem find_failure_stops_pipeline_witness :
    (pipeline (sampleWorld "find") passingInput).r.Steps.length = 2 + 1 ∧
    (pipeline (sampleWorld "find") passingInput).r.Artifacts = none :=
  have h := find_failure_stops_pipeline (sampleWorld "find") passingInput "exit status 1"
    (by decide) (by decide) (by decide) (by decide) (by decide) (by decide)
  ⟨by rw [h.1]; decide, h.2.2.1⟩

theorem publishPhase_steps_length (W : World) (i : buildInput) (tr : List Event)
    (r : buildResponse) :
    (publishPhase W i tr r).r.Steps.length ≤ r.Steps.length + i.Publish.length := by
  obtain ⟨n, hn, hr, _, _⟩ := publishPhase_shape W i tr r
  rw [hr]
  simp only [List.length_append, List.length_map, List.length_range]
  omega

theorem artifactPhase_steps_length (W : World) (i : buildInput) (tr : List Event)
    (r : buildResponse) :
    (artifactPhase W i tr r).r.Steps.length ≤ r.Steps.length + 1 + i.Publish.length := by
  unfold artifactPhase
  by_cases hp : i.Artifacts.length > 0
  · simp only [hp, if_true]
    cases hf : (runCommand W tr (workDir W i) i.Env "find" [".", "-name", i.Artifacts]).1.2.2 with
    | some e =>
      simp only [Option.isSome_some, if_true, List.length_append, List.length_singleton]
      omega
    | none =>
      simp only [Option.isSome_none, Bool.false_eq_true, if_false]
      have := publishPhase_steps_length W i
        (collectArtifacts W (workDir W i)
          (SplitLines (runCommand W tr (workDir W i) i.Env "find"
            [".", "-name", i.Artifacts]).1.1)
          (runCommand W tr (workDir W i) i.Env "find" [".", "-name", i.Artifacts]).2 []).2
        ⟨r.Steps, some (collectArtifacts W (workDir W i)
          (SplitLines (runCommand W tr (workDir W i) i.Env "find"
            [".", "-name", i.Artifacts]).1.1)
          (runCommand W tr (workDir W i) i.Env "find" [".", "-name", i.Artifacts]).2 []).1⟩
      simp only at this
      omega
  · simp only [hp, if_false]
    have := publishPhase_steps_length W i tr r
    omega

/-- C15. For every request and every behaviour of the world (in particular for
every request whose steps all have a token), the number of entries of the
returned list of steps is at most `1 + len(Build) + len(Publish)`. -/
theorem steps_length_bound (W : World) (i : buildInput) :
    (pipeline W i).r.Steps.length ≤ 1 + i.Build.length + i.Publish.length := by
  rw [pipeline_r]
  rcases pipelineBody_cases W i with h | h | h
  · rw [h]; simp only [List.length_singleton]; omega
  · rw [h]; simp only [List.length_nil]; omega
  · rw [h]
    obtain ⟨n, hn, h2 | h2 | h2⟩ := buildPhase_cases W i (buildStart W i) ⟨[], none⟩
    · rw [h2]
      simp only [List.nil_append, List.length_map, List.length_range]
      omega
    · rw [h2]
      simp only [List.nil_append, List.length_map, List.length_range]
      omega
    · rw [h2]
      have := artifactPhase_steps_length W i (buildStart W i ++ i.Build.map (stepEvent W i))
        ⟨[] ++ (List.range n).map (stepOutput W i (buildStart W i) i.Build), none⟩
      simp only [List.nil_append, List.length_map, List.length_range] at this
      simp only [List.nil_append]
      omega

/-- C17. When the clone succeeds and the checkout fails, the pipeline stops
without appending the result of the checkout: the returned list of steps is
empty, the artifact map is nil, the only commands run are the clone and the
checkout (no build step, artifact search or publish step), and no file is
read. -/
theorem checkout_failure_stops_pipeline (W : World) (i : buildInput)
    (hclone : (cloneRun W i).2.2 = none)
    (hcheckout : (checkoutRun W i).2.2 ≠ none) :
    (pipeline W i).r.Steps = [] ∧
    (pipeline W i).r.Artifacts = none ∧
    execsOf (pipeline W i).trace = [cloneEvent W i, checkoutEvent W i] ∧
    readsOf (pipeline W i).trace = [] := by
  have hb := pipelineBody_checkout_failed W i hclone hcheckout
  refine ⟨by rw [pipeline_r, hb], by rw [pipeline_r, hb], ?_, ?_⟩
  · rw [execsOf_pipeline, hb]; simp only; rw [execsOf_respond]; rfl
  · rw [readsOf_pipeline, hb]; simp only; rw [readsOf_respond]; rfl

/-- In the world where the checkout fails, the commands run are the clone and
the checkout. -/
theorem checkout_failure_stops_pipeline_witness :
    (pipeline (sampleWorld "checkout") sampleInput).r.Artifacts = none ∧
    execsOf (pipeline (sampleWorld "checkout") sampleInput).trace =
      [cloneEvent (sampleWorld "checkout") sampleInput,
        checkoutEvent (sampleWorld "checkout") sampleInput] :=
  have h := checkout_failure_stops_pipeline (sampleWorld "checkout") sampleInput
    (by decide) (by decide)
  ⟨h.2.1, h.2.2.1⟩

theorem decodeChars_bad_second (d0 d1 d2 d3 : Char) (rest : List Char)
    (h : decChar d1 = none) : decodeChars (d0 :: d1 :: d2 :: d3 :: rest) = none := by
  rw [decodeChars]
  cases decChar d0 <;> simp [h]

theorem decodeChars_bad_sixth (c0 c1 c2 c3 d0 d1 d2 d3 : Char) (rest : List Char)
    (h : decChar d1 = none) :
    decodeChars (c0 :: c1 :: c2 :: c3 :: d0 :: d1 :: d2 :: d3 :: rest) = none := by
  have h2 := decodeChars_bad_second d0 d1 d2 d3 rest h
  rw [decodeChars]
  cases decChar c0 <;> cases decChar c1 <;> simp only []
  by_cases e2 : c2 = '='
  · simp [e2]
  · simp only [e2, if_false]
    cases decChar c2 <;> simp only []
    by_cases e3 : c3 = '='
    · simp [e3]
    · simp only [e3, if_false, h2]
      cases decChar c3 <;> rfl

/-- C20. For every read error text, the placeholder
`"Error reading artifact: " + error` is not valid standard base64: decoding it
fails (its sixth character is a space, which is outside the alphabet).  Hence
the placeholder is different from the encoding of every byte sequence, and the
value stored for a failed read is never the value stored for a successful
one. -/
theorem placeholder_is_not_base64 (err : String) :
    DecodeString ("Error reading artifact: " ++ err) = none ∧
    (∀ bs : List Byte, "Error reading artifact: " ++ err ≠ EncodeToString bs) ∧
    (∀ bs : List Byte,
      artifactValue (Except.error err) ≠ artifactValue (Except.ok bs)) := by
  have hd : DecodeString ("Error reading artifact: " ++ err) = none := by
    have hp : (("Error reading artifact: " : String).data.filter
        fun c => !(c = '\r' || c = '\n')) =
        'E' :: 'r' :: 'r' :: 'o' :: 'r' :: ' ' :: 'r' :: 'e' :: "ading artifact: ".data := by
      decide
    simp only [DecodeString, String.data_append, List.filter_append, hp, List.cons_append]
    exact decodeChars_bad_sixth _ _ _ _ _ _ _ _ _ (by decide)
  have hne : ∀ bs : List Byte, "Error reading artifact: " ++ err ≠ EncodeToString bs := by
    intro bs e
    have := DecodeString_EncodeToString bs
    rw [← e, hd] at this
    cases this
  exact ⟨hd, hne, fun bs => hne bs⟩

theorem splitSlash_ne_nil (l : List Char) : splitSlash l ≠ [] := by
  cases l with
  | nil => simp [splitSlash]
  | cons c cs =>
    unfold splitSlash
    by_cases h : c = '/'
    · simp [h]
    · simp only [h, if_false]
      cases splitSlash cs <;> simp

theorem splitSlash_append (a b : List Char) :
    splitSlash (a ++ '/' :: b) = splitSlash a ++ splitSlash b := by
  induction a with
  | nil => simp [splitSlash]
  | cons c cs ih =>
    by_cases h : c = '/'
    · simp [splitSlash, h, ih]
    · obtain ⟨l, ls, e⟩ := List.exists_cons_of_ne_nil (splitSlash_ne_nil cs)
      rw [e] at ih
      simp only [List.cons_append, splitSlash, h, if_false, e]
      rw [show cs.append ('/' :: b) = cs ++ '/' :: b from rfl, ih]
      rfl

theorem splitSlash_no_slash (l : List Char) (h : '/' ∉ l) : splitSlash l = [l] := by
  induction l with
  | nil => rfl
  | cons c cs ih =>
    simp only [List.mem_cons, not_or] at h
    have hc : ¬ c = '/' := fun e => h.1 e.symm
    simp only [splitSlash, hc, if_false, ih h.2]

theorem pathElements_join (a b : String) :
    pathElements (a ++ "/" ++ b) = pathElements a ++ pathElements b := by
  have h : (a ++ "/" ++ b).data = a.data ++ '/' :: b.data := by
    simp only [String.data_append, List.append_assoc]
    rfl
  simp only [pathElements, h, splitSlash_append, List.map_append]

/-- Elements other than `..` never remove anything from the stack. -/
theorem foldl_resolveStep_grows (es : List String) (h : ".." ∉ es) :
    ∀ stack, ∃ more, es.foldl resolveStep stack = more ++ stack := by
  induction es with
  | nil => intro stack; exact ⟨[], rfl⟩
  | cons e rest ih =>
    intro stack
    simp only [List.mem_cons, not_or] at h
    have he : ¬ e = ".." := fun x => h.1 x.symm
    simp only [List.foldl_cons]
    by_cases h0 : e = "" ∨ e = "."
    · simp only [resolveStep, h0, if_true]
      exact ih h.2 stack
    · obtain ⟨more, hm⟩ := ih h.2 (e :: stack)
      simp only [resolveStep, h0, if_false, he]
      exact ⟨more ++ [e], by rw [hm]; simp⟩

theorem workComponent_safe (W : World) (i : buildInput) :
    '/' ∉ (workComponent W i).data ∧ workComponent W i ≠ "" ∧
      workComponent W i ≠ "." ∧ workComponent W i ≠ ".." := by
  have hd : (workComponent W i).data =
      (replaceSlash i.Repo).data ++ '-' :: (formatInt W.now).data := by
    simp only [workComponent, String.data_append, List.append_assoc]
    rfl
  have hmem : '-' ∈ (workComponent W i).data := by rw [hd]; simp
  refine ⟨?_, ?_, ?_, ?_⟩
  · rw [hd]
    intro hm
    rcases List.mem_append.mp hm with hm | hm
    · simp only [replaceSlash, List.mem_map] at hm
      obtain ⟨c, _, hc⟩ := hm
      by_cases e : c = '/'
      · rw [if_pos e] at hc; revert hc; decide
      · rw [if_neg e] at hc; exact e hc
    · rcases List.mem_cons.mp hm with hm | hm
      · revert hm; decide
      · rcases formatInt_chars W.now _ hm with h | h
        · exact (isDigit_ne _ h).2 rfl
        · revert h; decide
  · intro e; rw [e] at hmem; revert hmem; decide
  · intro e; rw [e] at hmem; revert hmem; decide
  · intro e; rw [e] at hmem; revert hmem; decide

theorem workParent_elements (W : World) (i : buildInput) :
    pathElements (workParent W i) = [".", "workdir", workComponent W i] := by
  have hno : '/' ∉ (workComponent W i).data := (workComponent_safe W i).1
  have hd : (workParent W i).data =
      ['.'] ++ '/' :: ("workdir".data ++ '/' :: (workComponent W i).data) := by
    simp only [workParent, workComponent, String.data_append, List.append_assoc]
    rfl
  simp only [pathElements, hd, splitSlash_append, splitSlash_no_slash _ hno]
  rfl

theorem resolve_workParent (W : World) (i : buildInput) :
    resolve (workParent W i) = ["workdir", workComponent W i] := by
  obtain ⟨_, h1, h2, h3⟩ := workComponent_safe W i
  have hw : ¬ (("workdir" : String) = "" ∨ ("workdir" : String) = ".") := by decide
  have hw2 : ¬ ("workdir" : String) = ".." := by decide
  simp only [resolve, workParent_elements, List.foldl_cons, List.foldl_nil, resolveStep,
    true_or, or_true, if_true, hw, hw2, if_false, h1, h2, h3, or_self, List.reverse_cons,
    List.reverse_nil, List.nil_append, List.singleton_append]

theorem resolveStep_skip (S : List String) (e : String) (h : e = "" ∨ e = ".") :
    resolveStep S e = S := by
  simp only [resolveStep, h, if_true]

theorem resolveStep_name (S : List String) (e : String) (h0 : ¬ (e = "" ∨ e = "."))
    (h1 : ¬ e = "..") : resolveStep S e = e :: S := by
  simp only [resolveStep, h0, h1, if_false]

theorem resolveStep_up_nil : resolveStep [] ".." = [".."] := by decide

theorem resolveStep_up_cons (top : String) (below : List String) :
    resolveStep (top :: below) ".." =
      if top = ".." then ".." :: top :: below else below := by
  have h0 : ¬ ((".." : String) = "" ∨ (".." : String) = ".") := by decide
  simp only [resolveStep, h0, if_false, if_true]

/-- An element `..` that is kept is never removed again. -/
theorem foldl_resolveStep_keeps_up (es : List String) :
    ∀ S, ".." ∈ S → ".." ∈ es.foldl resolveStep S := by
  induction es with
  | nil => intro S h; exact h
  | cons e rest ih =>
    intro S h
    simp only [List.foldl_cons]
    apply ih
    by_cases h0 : e = "" ∨ e = "."
    · rw [resolveStep_skip S e h0]; exact h
    · by_cases h1 : e = ".."
      · subst h1
        cases S with
        | nil => simp at h
        | cons top below =>
          rw [resolveStep_up_cons]
          by_cases ht : top = ".."
          · rw [if_pos ht]; simp
          · rw [if_neg ht]
            rcases List.mem_cons.mp h with h | h
            · exact absurd h.symm ht
            · exact h
      · rw [resolveStep_name S e h0 h1]
        exact List.mem_cons_of_mem _ h

/-- When the resolution of a path never climbs above its start, resolving it
below a directory gives the same elements on top of those of the directory. -/
theorem foldl_resolveStep_below (S0 : List String) (es : List String) :
    ∀ S, ".." ∉ es.foldl resolveStep S →
      es.foldl resolveStep (S ++ S0) = es.foldl resolveStep S ++ S0 := by
  induction es with
  | nil => intro S _; rfl
  | cons e rest ih =>
    intro S h
    simp only [List.foldl_cons] at h ⊢
    by_cases h0 : e = "" ∨ e = "."
    · rw [resolveStep_skip S e h0] at h
      rw [resolveStep_skip (S ++ S0) e h0, resolveStep_skip S e h0]
      exact ih S h
    · by_cases h1 : e = ".."
      · subst h1
        cases S with
        | nil =>
          rw [resolveStep_up_nil] at h
          exact absurd (foldl_resolveStep_keeps_up rest _ (by simp)) h
        | cons top below =>
          rw [resolveStep_up_cons] at h
          rw [List.cons_append, resolveStep_up_cons, resolveStep_up_cons]
          by_cases ht : top = ".."
          · rw [if_pos ht] at h
            exact absurd (foldl_resolveStep_keeps_up rest _ (by simp)) h
          · rw [if_neg ht] at h
            rw [if_neg ht, if_neg ht]
            exact ih below h
      · rw [resolveStep_name S e h0 h1] at h
        rw [resolveStep_name (S ++ S0) e h0 h1, resolveStep_name S e h0 h1]
        exact ih (e :: S) h

/-- Resolution never creates an element that is neither on the stack nor in the
path, `..` apart. -/
theorem foldl_resolveStep_avoids (C : String) (hC : C ≠ "..") (es : List String)
    (hes : ∀ e ∈ es, e ≠ C) :
    ∀ T, (∀ x ∈ T, x ≠ C) → ∀ x ∈ es.foldl resolveStep T, x ≠ C := by
  induction es with
  | nil => intro T h; exact h
  | cons e rest ih =>
    intro T h
    simp only [List.foldl_cons]
    apply ih (fun x hx => hes x (List.mem_cons_of_mem _ hx))
    by_cases h0 : e = "" ∨ e = "."
    · rw [resolveStep_skip T e h0]; exact h
    · by_cases h1 : e = ".."
      · subst h1
        cases T with
        | nil =>
          rw [resolveStep_up_nil]
          intro x hx
          rw [List.mem_singleton.mp hx]
          exact fun e => hC e.symm
        | cons top below =>
          rw [resolveStep_up_cons]
          by_cases ht : top = ".."
          · rw [if_pos ht]
            intro x hx
            rcases List.mem_cons.mp hx with rfl | hx
            · exact fun e => hC e.symm
            · exact h x hx
          · rw [if_neg ht]
            exact fun x hx => h x (List.mem_cons_of_mem _ hx)
      · rw [resolveStep_name T e h0 h1]
        intro x hx
        rcases List.mem_cons.mp hx with rfl | hx
        · exact hes _ (List.mem_cons_self _ _)
        · exact h x hx

/-- When the resolution of a path climbs above its start, resolving it below
the directory `w/C` removes `C`, and `C` does not come back. -/
theorem foldl_resolveStep_escapes (C w : String) (hC : C ≠ "..") (hw : w ≠ C)
    (es : List String) (hes : ∀ e ∈ es, e ≠ C) :
    ∀ S, ".." ∉ S → (∀ x ∈ S, x ≠ C) → ".." ∈ es.foldl resolveStep S →
      C ∉ es.foldl resolveStep (S ++ [C, w]) := by
  induction es with
  | nil => intro S h1 _ h2; exact absurd h2 h1
  | cons e rest ih =>
    intro S hS hSC h
    have hrest : ∀ x ∈ rest, x ≠ C := fun x hx => hes x (List.mem_cons_of_mem _ hx)
    simp only [List.foldl_cons] at h ⊢
    by_cases h0 : e = "" ∨ e = "."
    · rw [resolveStep_skip _ e h0] at h ⊢
      exact ih hrest S hS hSC h
    · by_cases h1 : e = ".."
      · subst h1
        cases S with
        | nil =>
          rw [List.nil_append, resolveStep_up_cons, if_neg hC]
          intro hm
          exact foldl_resolveStep_avoids C hC rest hrest [w]
            (fun x hx => by rw [List.mem_singleton.mp hx]; exact hw) C hm rfl
        | cons top below =>
          have ht : ¬ top = ".." := fun e => hS (by rw [e]; simp)
          rw [resolveStep_up_cons, if_neg ht] at h
          rw [List.cons_append, resolveStep_up_cons, if_neg ht]
          exact ih hrest below (fun hm => hS (List.mem_cons_of_mem _ hm))
            (fun x hx => hSC x (List.mem_cons_of_mem _ hx)) h
      · rw [resolveStep_name _ e h0 h1] at h ⊢
        refine ih hrest (e :: S) ?_ ?_ h
        · intro hm
          rcases List.mem_cons.mp hm with hm | hm
          · exact h1 hm.symm
          · exact hS hm
        · intro x hx
          rcases List.mem_cons.mp hx with rfl | hx
          · exact hes _ (List.mem_cons_self _ _)
          · exact hSC x hx

theorem splitSlash_length (l : List Char) : ∀ x ∈ splitSlash l, x.length ≤ l.length := by
  induction l with
  | nil => intro x hx; simp [splitSlash] at hx; simp [hx]
  | cons c cs ih =>
    intro x hx
    unfold splitSlash at hx
    by_cases h : c = '/'
    · simp only [h, if_true, List.mem_cons] at hx
      rcases hx with rfl | hx
      · simp
      · have := ih x hx
        simp only [List.length_cons]
        omega
    · simp only [h, if_false] at hx
      obtain ⟨y, ys, e⟩ := List.exists_cons_of_ne_nil (splitSlash_ne_nil cs)
      rw [e] at hx ih
      simp only [List.mem_cons] at hx
      rcases hx with rfl | hx
      · have := ih y (List.mem_cons_self _ _)
        simp only [List.length_cons]
        omega
      · have := ih x (List.mem_cons_of_mem _ hx)
        simp only [List.length_cons]
        omega

/-- No element of the repository identifier is the component of `workParent`:
the component is longer than the identifier. -/
theorem workComponent_not_element (W : World) (i : buildInput) :
    ∀ e ∈ pathElements i.Repo, e ≠ workComponent W i := by
  intro e he hc
  simp only [pathElements, List.mem_map] at he
  obtain ⟨x, hx, rfl⟩ := he
  have h1 := splitSlash_length _ x hx
  have h2 : (workComponent W i).data.length =
      i.Repo.data.length + 1 + (formatInt W.now).data.length := by
    simp only [workComponent, replaceSlash, String.data_append, List.length_append,
      List.length_map]
    rfl
  have h3 := congrArg (fun s => s.data.length) hc
  simp only at h3
  omega

theorem workDir_fold (W : World) (i : buildInput) :
    resolve (workDir W i) =
      ((pathElements i.Repo).foldl resolveStep [workComponent W i, "workdir"]).reverse := by
  have h : (pathElements (workParent W i)).foldl resolveStep [] =
      [workComponent W i, "workdir"] := by
    have := resolve_workParent W i
    simp only [resolve] at this
    rw [← List.reverse_reverse ((pathElements (workParent W i)).foldl resolveStep []), this]
    rfl
  simp only [resolve, workDir, pathElements_join, List.foldl_append, h]

/-- When the identifier never climbs, the checkout directory is `workParent`
followed by the resolved identifier. -/
theorem workDir_below (W : World) (i : buildInput) (h : ".." ∉ resolve i.Repo) :
    resolve (workDir W i) = resolve (workParent W i) ++ resolve i.Repo := by
  have h2 : ".." ∉ (pathElements i.Repo).foldl resolveStep [] := by
    simpa [resolve] using h
  have := foldl_resolveStep_below [workComponent W i, "workdir"] (pathElements i.Repo) [] h2
  rw [List.nil_append] at this
  rw [workDir_fold, this, resolve_workParent, List.reverse_append]
  rfl

/-- When the identifier climbs, the checkout directory is not at or below
`workParent`. -/
theorem workDir_not_below (W : World) (i : buildInput) (h : ".." ∈ resolve i.Repo) :
    ¬ ∃ rest, resolve (workDir W i) = resolve (workParent W i) ++ rest := by
  obtain ⟨_, _, _, h3⟩ := workComponent_safe W i
  have h2 : ".." ∈ (pathElements i.Repo).foldl resolveStep [] := by
    simpa [resolve] using h
  have hw : ("workdir" : String) ≠ workComponent W i := by
    intro e
    have hm : '-' ∈ (workComponent W i).data := by
      simp only [workComponent, String.data_append, List.mem_append]
      left; right
      decide
    rw [← e] at hm
    revert hm
    decide
  have hesc := foldl_resolveStep_escapes (workComponent W i) "workdir" h3 hw
    (pathElements i.Repo) (workComponent_not_element W i) [] (by simp) (by simp) h2
  rw [List.nil_append] at hesc
  rintro ⟨rest, hr⟩
  rw [workDir_fold, resolve_workParent] at hr
  apply hesc
  rw [← List.mem_reverse, hr]
  simp

/-- C19 (as amended). `workParent` resolves to `workdir/<component>`.  The
checkout directory `workDir = workParent + "/" + repo` resolves, after lexical
resolution of its `.` and `..` elements, to a location inside `workParent`
exactly when the repository identifier itself resolves to a path that is not
empty and does not climb above its start (has no `..` left); it is then
`workParent` followed by the resolved identifier.  When the identifier climbs,
the checkout directory is not even `workParent` itself. -/
theorem workDir_inside_workParent (W : World) (i : buildInput) :
    resolve (workParent W i) = ["workdir", workComponent W i] ∧
    ((∃ rest, rest ≠ [] ∧ resolve (workDir W i) = resolve (workParent W i) ++ rest) ↔
      (resolve i.Repo ≠ [] ∧ ".." ∉ resolve i.Repo)) ∧
    (".." ∉ resolve i.Repo →
      resolve (workDir W i) = resolve (workParent W i) ++ resolve i.Repo) ∧
    (".." ∈ resolve i.Repo →
      ¬ ∃ rest, resolve (workDir W i) = resolve (workParent W i) ++ rest) := by
  refine ⟨resolve_workParent W i, ?_, workDir_below W i, workDir_not_below W i⟩
  constructor
  · rintro ⟨rest, hne, hr⟩
    by_cases h : ".." ∈ resolve i.Repo
    · exact absurd ⟨rest, hr⟩ (workDir_not_below W i h)
    · have := workDir_below W i h
      rw [hr] at this
      have e := List.append_cancel_left this
      exact ⟨by rw [← e]; exact hne, h⟩
  · rintro ⟨hne, h⟩
    exact ⟨resolve i.Repo, hne, workDir_below W i h⟩

/-- The identifier `acme/x/../widget` has a `..` element and still resolves
inside `workParent`, to `acme/widget` below it. -/
theorem workDir_inside_workParent_witness :
    ".." ∈ pathElements (repoInput "acme/x/../widget").Repo ∧
    resolve (workDir (sampleWorld "") (repoInput "acme/x/../widget")) =
      resolve (workParent (sampleWorld "") (repoInput "acme/x/../widget")) ++
        ["acme", "widget"] :=
  ⟨by decide,
    (workDir_inside_workParent (sampleWorld "") (repoInput "acme/x/../widget")).2.2.1
      (by decide)⟩

/-- C19 (counterexample). For the repository identifier `acme/../../victim` the
checkout directory resolves to `workdir/victim`, which is not at or below the
`workParent` of the request. -/
theorem workDir_escapes_workParent :
    resolve (workDir (sampleWorld "") (repoInput "acme/../../victim")) =
      ["workdir", "victim"] ∧
    resolve (workParent (sampleWorld "") (repoInput "acme/../../victim")) =
      ["workdir", "acme+..+..+victim-1700000000"] ∧
    ¬ ∃ rest, resolve (workDir (sampleWorld "") (repoInput "acme/../../victim")) =
      resolve (workParent (sampleWorld "") (repoInput "acme/../../victim")) ++ rest := by
  have h1 : resolve (workDir (sampleWorld "") (repoInput "acme/../../victim")) =
      ["workdir", "victim"] := by decide
  have h2 : resolve (workParent (sampleWorld "") (repoInput "acme/../../victim")) =
      ["workdir", "acme+..+..+victim-1700000000"] := by decide
  refine ⟨h1, h2, ?_⟩
  rintro ⟨rest, h⟩
  rw [h1, h2] at h
  simp only [List.cons_append, List.cons.injEq, true_and] at h
  exact absurd h.1 (by decide)

theorem cmdEnv_foldl (f : String × String → String) :
    ∀ (env : List (String × String)) (start : List String),
      env.foldl (fun cEnv kv => cEnv ++ [f kv]) start = start ++ env.map f := by
  intro env
  induction env with
  | nil => intro start; simp
  | cons kv rest ih => intro start; simp [ih, List.append_assoc]

/-- The list `c.Env` is the host environment followed by one entry per entry of
the overlay. -/
theorem cmdEnv_eq (H : Host) (workDir : String) (env : List (String × String)) :
    cmdEnv H workDir env = H.Environ ++ env.map (overlayEntry H workDir) :=
  cmdEnv_foldl _ env H.Environ

theorem takeWhile_append_stop (p : Char → Bool) (a : List Char) (b : Char) (r : List Char)
    (ha : ∀ x ∈ a, p x = true) (hb : p b = false) : (a ++ b :: r).takeWhile p = a := by
  induction a with
  | nil => simp [List.takeWhile_cons, hb]
  | cons c cs ih =>
    simp only [List.cons_append, List.takeWhile_cons, ha c (List.mem_cons_self _ _), if_true]
    rw [ih (fun x hx => ha x (List.mem_cons_of_mem _ hx))]

/-- The key of an entry `k=v` whose `k` is a name is `k`. -/
theorem envKey_entry (k v : String) (h0 : k ≠ "") (h1 : '=' ∉ k.data) :
    envKey (k ++ "=" ++ v).data = some k.data := by
  have hd : (k ++ "=" ++ v).data = k.data ++ '=' :: v.data := by
    simp only [String.data_append, List.append_assoc]
    rfl
  rw [hd]
  cases hk : k.data with
  | nil => exact absurd (String.ext hk) h0
  | cons c cs =>
    rw [hk] at h1
    simp only [List.mem_cons, not_or] at h1
    have hc : ¬ c = '=' := fun e => h1.1 e.symm
    have hmem : '=' ∈ cs ++ '=' :: v.data := by simp
    have htw : ((c :: cs) ++ '=' :: v.data).takeWhile (fun x => !(x = '=')) = c :: cs := by
      apply takeWhile_append_stop
      · intro x hx
        rcases List.mem_cons.mp hx with rfl | hx
        · simp [hc]
        · have : ¬ x = '=' := fun e => h1.2 (e ▸ hx)
          simp [this]
      · simp
    simp only [List.cons_append, envKey, hc, if_false, hmem, if_true]
    rw [← List.cons_append, htw]

theorem dedupScan_mem : ∀ (l saw : List String) (x : String), x ∈ dedupScan l saw → x ∈ l := by
  intro l
  induction l with
  | nil => intro saw x h; simp [dedupScan] at h
  | cons kv rest ih =>
    intro saw x h
    unfold dedupScan at h
    split at h
    · exact List.mem_cons_of_mem _ (ih _ _ h)
    · split at h
      · split at h
        · exact List.mem_cons_of_mem _ (ih _ _ h)
        · rcases List.mem_cons.mp h with rfl | h
          · exact List.mem_cons_self _ _
          · exact List.mem_cons_of_mem _ (ih _ _ h)
      · split at h
        · exact List.mem_cons_of_mem _ (ih _ _ h)
        · rcases List.mem_cons.mp h with rfl | h
          · exact List.mem_cons_self _ _
          · exact List.mem_cons_of_mem _ (ih _ _ h)

/-- An entry that is kept has a key that was not seen before. -/
theorem dedupScan_not_seen : ∀ (l saw : List String) (x : String) (k : List Char),
    x ∈ dedupScan l saw → envKey x.data = some k → String.mk k ∉ saw := by
  intro l
  induction l with
  | nil => intro saw x k h; simp [dedupScan] at h
  | cons kv rest ih =>
    intro saw x k h hk
    unfold dedupScan at h
    split at h
    · exact ih _ _ _ h hk
    · split at h
      · rename_i hnone
        split at h
        · exact ih _ _ _ h hk
        · rcases List.mem_cons.mp h with rfl | h
          · rw [hnone] at hk; cases hk
          · exact ih _ _ _ h hk
      · rename_i k2 hsome
        split at h
        · exact ih _ _ _ h hk
        · rename_i hns
          rcases List.mem_cons.mp h with rfl | h
          · rw [hsome] at hk
            cases hk
            exact hns
          · have := ih _ _ _ h hk
            exact fun hm => this (List.mem_cons_of_mem _ hm)

/-- An entry with a key is kept when no entry scanned before it (that is, no
later entry of the list) has the same key, and it is then the only entry kept
with that key. -/
theorem dedupScan_keeps (e : String) (k : List Char) (p : List String)
    (hnul : Char.ofNat 0 ∉ e.data) (hk : envKey e.data = some k) :
    ∀ (q saw : List String), String.mk k ∉ saw → (∀ y ∈ q, envKey y.data ≠ some k) →
      e ∈ dedupScan (q ++ e :: p) saw ∧
      ∀ x ∈ dedupScan (q ++ e :: p) saw, envKey x.data = some k → x = e := by
  intro q
  induction q with
  | nil =>
    intro saw hs _
    have h : dedupScan ([] ++ e :: p) saw = e :: dedupScan p (String.mk k :: saw) := by
      simp only [List.nil_append, dedupScan, hnul, if_false, hk, hs]
    rw [h]
    refine ⟨List.mem_cons_self _ _, ?_⟩
    intro x hx hxk
    rcases List.mem_cons.mp hx with rfl | hx
    · rfl
    · exact absurd (List.mem_cons_self _ _) (dedupScan_not_seen _ _ _ _ hx hxk)
  | cons y q ih =>
    intro saw hs hq
    have hy : envKey y.data ≠ some k := hq y (List.mem_cons_self _ _)
    have hq2 : ∀ z ∈ q, envKey z.data ≠ some k := fun z hz => hq z (List.mem_cons_of_mem _ hz)
    rw [List.cons_append]
    unfold dedupScan
    split
    · exact ih saw hs hq2
    · split
      · rename_i hnone
        split
        · exact ih saw hs hq2
        · obtain ⟨h1, h2⟩ := ih saw hs hq2
          refine ⟨List.mem_cons_of_mem _ h1, ?_⟩
          intro x hx hxk
          rcases List.mem_cons.mp hx with rfl | hx
          · rw [hnone] at hxk; cases hxk
          · exact h2 x hx hxk
      · rename_i k2 hsome
        split
        · exact ih saw hs hq2
        · have hne : String.mk k ≠ String.mk k2 := by
            intro e2
            apply hy
            rw [hsome]
            have : k = k2 := by injection e2
            rw [this]
          have hs2 : String.mk k ∉ String.mk k2 :: saw := by
            intro hm
            rcases List.mem_cons.mp hm with hm | hm
            · exact hne hm
            · exact hs hm
          obtain ⟨h1, h2⟩ := ih (String.mk k2 :: saw) hs2 hq2
          refine ⟨List.mem_cons_of_mem _ h1, ?_⟩
          intro x hx hxk
          rcases List.mem_cons.mp hx with rfl | hx
          · exact absurd (hsome.symm.trans hxk) (fun e3 => hy (hsome.trans e3))
          · exact h2 x hx hxk

/-- In `dedupEnv`, an entry with a key that no later entry has is kept, and it
is the only entry kept with that key. -/
theorem dedupEnv_keeps (pre post : List String) (e : String) (k : List Char)
    (hnul : Char.ofNat 0 ∉ e.data) (hk : envKey e.data = some k)
    (hpost : ∀ y ∈ post, envKey y.data ≠ some k) :
    e ∈ dedupEnv (pre ++ e :: post) ∧
    ∀ x ∈ dedupEnv (pre ++ e :: post), envKey x.data = some k → x = e := by
  have hr : (pre ++ e :: post).reverse = post.reverse ++ e :: pre.reverse := by simp
  obtain ⟨h1, h2⟩ := dedupScan_keeps e k pre.reverse hnul hk post.reverse [] (by simp)
    (fun y hy => hpost y (List.mem_reverse.mp hy))
  unfold dedupEnv
  rw [hr]
  exact ⟨List.mem_reverse.mpr h1, fun x hx => h2 x (List.mem_reverse.mp hx)⟩

theorem dedupEnv_mem (env : List String) (x : String) (h : x ∈ dedupEnv env) : x ∈ env := by
  unfold dedupEnv at h
  exact List.mem_reverse.mp (dedupScan_mem _ _ _ (List.mem_reverse.mp h))

theorem expandFuel_no_dollar (mapping : String → String) :
    ∀ (fuel : Nat) (s : List Char), '$' ∉ s → expandFuel mapping fuel s = s := by
  intro fuel
  induction fuel with
  | zero => intro s _; cases s <;> rfl
  | succ f ih =>
    intro s h
    cases s with
    | nil => rfl
    | cons c cs =>
      simp only [List.mem_cons, not_or] at h
      have hc : ¬ c = '$' := fun e => h.1 e.symm
      simp only [expandFuel, hc, false_and, if_false, ih cs h.2]

theorem ExpandEnv_no_dollar (H : Host) (s : String) (h : '$' ∉ s.data) :
    ExpandEnv H s = s := by
  unfold ExpandEnv
  rw [expandFuel_no_dollar _ _ _ h]

theorem replaceWorkdir_exact (absWd : String) : replaceWorkdir absWd "$WORKDIR" = absWd := by
  apply String.ext
  show replaceFrom "$WORKDIR".data absWd.data 0 "$WORKDIR".data = absWd.data
  have h : replaceFrom "$WORKDIR".data absWd.data 0 "$WORKDIR".data = absWd.data ++ [] := rfl
  rw [h, List.append_nil]

theorem respond_eq (W : World) (tr : List Event) (r : buildResponse) :
    respond W tr r = tr ++ responseEvents W r := by
  unfold respond responseEvents
  cases W.marshal r <;> rfl

theorem writesOf_append (a b : List Event) : writesOf (a ++ b) = writesOf a ++ writesOf b := by
  simp [writesOf]

theorem writesOf_responseEvents (W : World) (r : buildResponse) :
    writesOf (responseEvents W r) = responseEvents W r := by
  unfold responseEvents
  cases W.marshal r <;> rfl

theorem writesOf_steps (W : World) (i : buildInput) (l : List (List String)) :
    writesOf (l.map (stepEvent W i)) = [] := by
  induction l with
  | nil => rfl
  | cons s l ih => simp [writesOf, stepEvent] at ih ⊢

theorem writesOf_reads (wd : String) (l : List String) :
    writesOf (l.map (readEvent wd)) = [] := by
  induction l with
  | nil => rfl
  | cons s l ih => simp [writesOf, readEvent] at ih ⊢

theorem writesOf_runSteps (W : World) (i : buildInput) (steps : List (List String))
    (tr : List Event) (acc : List buildOutput) :
    writesOf (runSteps W (workDir W i) i.Env steps tr acc).trace = writesOf tr := by
  obtain ⟨n, _, h, _⟩ := runSteps_shape W i steps tr acc
  rw [h, writesOf_append, writesOf_steps, List.append_nil]

theorem answered_respond (W : World) (start tr : List Event) (r : buildResponse)
    (h : writesOf tr = writesOf start) : Answered W start ⟨respond W tr r, r, false⟩ := by
  unfold Answered
  simp only [Bool.false_eq_true, if_false]
  rw [respond_eq, writesOf_append, writesOf_responseEvents, h]

theorem answered_panicked (W : World) (start tr : List Event) (r : buildResponse)
    (h : writesOf tr = writesOf start) : Answered W start ⟨tr, r, true⟩ := by
  unfold Answered
  simp only [if_true, List.append_nil, h]

theorem publishPhase_answered (W : World) (i : buildInput) (tr : List Event)
    (r : buildResponse) : Answered W tr (publishPhase W i tr r) := by
  have hw := writesOf_runSteps W i i.Publish tr r.Steps
  unfold publishPhase
  cases hl : runSteps W (workDir W i) i.Env i.Publish tr r.Steps with
  | completed t s =>
    rw [hl] at hw
    exact answered_respond W tr t _ hw
  | failed t s =>
    rw [hl] at hw
    exact answered_respond W tr t _ hw
  | panicked t s =>
    rw [hl] at hw
    exact answered_panicked W tr t _ hw

theorem answered_of_start (W : World) (a b : List Event) (x : Run)
    (h : writesOf a = writesOf b) (hx : Answered W a x) : Answered W b x := by
  unfold Answered at hx ⊢
  rw [hx, h]

theorem artifactPhase_answered (W : World) (i : buildInput) (tr : List Event)
    (r : buildResponse) : Answered W tr (artifactPhase W i tr r) := by
  have hfind : writesOf (runCommand W tr (workDir W i) i.Env "find"
      [".", "-name", i.Artifacts]).2 = writesOf tr := by
    simp only [runCommand, writesOf_append]
    simp [writesOf]
  unfold artifactPhase
  by_cases hp : i.Artifacts.length > 0
  · simp only [hp, if_true]
    cases hf : (runCommand W tr (workDir W i) i.Env "find" [".", "-name", i.Artifacts]).1.2.2 with
    | some e =>
      simp only [Option.isSome_some, if_true]
      exact answered_respond W tr _ _ hfind
    | none =>
      simp only [Option.isSome_none, Bool.false_eq_true, if_false]
      refine answered_of_start W _ tr _ ?_ (publishPhase_answered W i _ _)
      rw [collectArtifacts_eq_collectKeys, collectKeys_trace, writesOf_append, writesOf_reads,
        List.append_nil, hfind]
  · simp only [hp, if_false]
    exact publishPhase_answered W i tr r

theorem buildPhase_answered (W : World) (i : buildInput) (tr : List Event)
    (r : buildResponse) : Answered W tr (buildPhase W i tr r) := by
  have hw := writesOf_runSteps W i i.Build tr r.Steps
  unfold buildPhase
  cases hl : runSteps W (workDir W i) i.Env i.Build tr r.Steps with
  | completed t s =>
    rw [hl] at hw
    exact answered_of_start W t tr _ hw (artifactPhase_answered W i t _)
  | failed t s =>
    rw [hl] at hw
    exact answered_respond W tr t _ hw
  | panicked t s =>
    rw [hl] at hw
    exact answered_panicked W tr t _ hw

/-- The writes of a run: none after a panic, the response block otherwise. -/
theorem writesOf_pipeline (W : World) (i : buildInput) :
    writesOf (pipeline W i).trace =
      if (pipeline W i).panicked = true then [] else responseEvents W (pipeline W i).r := by
  have hb : Answered W [] (pipelineBody W i) := by
    rcases pipelineBody_cases W i with h | h | h
    · rw [h]; exact answered_respond W [] _ _ rfl
    · rw [h]; exact answered_respond W [] _ _ rfl
    · rw [h]
      exact answered_of_start W (buildStart W i) [] _ rfl (buildPhase_answered W i _ _)
  unfold Answered at hb
  rw [pipeline_trace, writesOf_append, pipeline_panicked, pipeline_r, hb]
  simp [writesOf]

theorem foldl_recordEvent_writesOf (tr : List Event) :
    ∀ rw : ResponseRecorder, tr.foldl recordEvent rw = (writesOf tr).foldl recordEvent rw := by
  induction tr with
  | nil => intro rw; rfl
  | cons e rest ih =>
    intro rw
    cases e with
    | exec d en c a => simpa [writesOf, recordEvent] using ih rw
    | readFile p => simpa [writesOf, recordEvent] using ih rw
    | removeAll p => simpa [writesOf, recordEvent] using ih rw
    | writeHeader c =>
      simp only [writesOf, List.filter_cons, List.foldl_cons, if_true]
      exact ih _
    | write b =>
      simp only [writesOf, List.filter_cons, List.foldl_cons, if_true]
      exact ih _

/-- C16 (what the code does). For every request body that parses, the handler
delivers no response at all: no status and no body reach the caller.  The
goroutine writes to its own copy `w` of the recorder; that copy holds the
status (200, or 500 when serialisation fails) but drops the body, because the
body buffer of the zero value is nil; and the handler then reads the untouched
`rr`, where `rr.Body.Bytes()` panics. -/
theorem handler_delivers_no_response (W : World) (i : buildInput) :
    (∀ status body, build W (some i) ≠ Delivery.response status body) ∧
    ((pipeline W i).panicked = false → build W (some i) = Delivery.aborted) ∧
    ((pipeline W i).panicked = false →
      goroutineRecorder W i =
        ⟨match W.marshal (pipeline W i).r with
          | some _ => 200
          | none => 500, none, true⟩) := by
  refine ⟨?_, ?_, ?_⟩
  · intro status body
    unfold build
    cases h : (pipeline W i).panicked <;> simp [h]
  · intro h
    unfold build
    simp [h]
  · intro h
    unfold goroutineRecorder
    rw [foldl_recordEvent_writesOf, writesOf_pipeline, h]
    simp only [Bool.false_eq_true, if_false, responseEvents]
    cases W.marshal (pipeline W i).r <;> rfl

/-- In the sample world the pipeline records status 200 and the handler delivers
nothing; when serialisation fails it records status 500 and the handler
delivers nothing either. -/
theorem handler_sample_runs :
    goroutineRecorder (sampleWorld "") passingInput = ⟨200, none, true⟩ ∧
    build (sampleWorld "") (some passingInput) = Delivery.aborted ∧
    goroutineRecorder marshalFailWorld passingInput = ⟨500, none, true⟩ ∧
    build marshalFailWorld (some passingInput) = Delivery.aborted ∧
    build (sampleWorld "") (some emptyStepInput) = Delivery.crashed := by
  decide

/-- The handler delivers nothing for the sample request whose steps all
succeed. -/
theorem handler_delivers_no_response_witness :
    (pipeline (sampleWorld "") passingInput).panicked = false ∧
    build (sampleWorld "") (some passingInput) = Delivery.aborted :=
  ⟨by decide, (handler_delivers_no_response (sampleWorld "") passingInput).2.1 (by decide)⟩

/-- C18 (as amended). The environment list that `runCommand` hands to `os/exec`
is the inherited host environment followed by exactly one entry `k=v2` per
overlay entry `(k, v)`, where `v2` is `os.ExpandEnv` of `v` with every
`$WORKDIR` replaced by the absolute path of the working directory, so the
references inside the inserted path are resolved too.  For an overlay whose
keys are distinct names (not empty, without `=`) and entries free of NUL, the
child process gets that list with only the last entry kept for each key: every
entry of its environment comes from the list; for each overlay key it has the
entry of the overlay and no other entry with that key, so an inherited entry
with an overlay key is replaced, not kept; an inherited entry whose key is not
an overlay key and is not repeated later is kept; and an overlay value that is
exactly `$WORKDIR` gives the absolute path whenever that path contains no
`$`. -/
theorem child_environment (H : Host) (workDir : String) (env : List (String × String)) :
    cmdEnv H workDir env =
      H.Environ ++ env.map (fun kv =>
        kv.1 ++ "=" ++ ExpandEnv H (replaceWorkdir (H.Abs workDir) kv.2)) ∧
    ((∀ kv ∈ env, kv.1 ≠ "" ∧ '=' ∉ kv.1.data) →
      (env.map Prod.fst).Nodup →
      (∀ e ∈ cmdEnv H workDir env, Char.ofNat 0 ∉ e.data) →
    ∃ out, childEnv H workDir env = some out ∧
      (∀ x ∈ out, x ∈ cmdEnv H workDir env) ∧
      (∀ kv ∈ env,
        kv.1 ++ "=" ++ ExpandEnv H (replaceWorkdir (H.Abs workDir) kv.2) ∈ out ∧
        ∀ x ∈ out, envKey x.data = some kv.1.data →
          x = kv.1 ++ "=" ++ ExpandEnv H (replaceWorkdir (H.Abs workDir) kv.2)) ∧
      (∀ pre h post k, H.Environ = pre ++ h :: post → envKey h.data = some k →
        (∀ y ∈ post, envKey y.data ≠ some k) → (∀ kv ∈ env, kv.1.data ≠ k) → h ∈ out) ∧
      (∀ k, (k, "$WORKDIR") ∈ env → '$' ∉ (H.Abs workDir).data →
        k ++ "=" ++ H.Abs workDir ∈ out)) := by
  have hce : cmdEnv H workDir env = H.Environ ++ env.map (overlayEntry H workDir) :=
    cmdEnv_eq H workDir env
  refine ⟨hce, ?_⟩
  intro hkeys hnodup hnul
  have hno : ¬ ∃ e ∈ cmdEnv H workDir env, Char.ofNat 0 ∈ e.data := by
    rintro ⟨e, he, h0⟩
    exact hnul e he h0
  have hentry : ∀ kv ∈ env,
      overlayEntry H workDir kv ∈ dedupEnv (cmdEnv H workDir env) ∧
      ∀ x ∈ dedupEnv (cmdEnv H workDir env), envKey x.data = some kv.1.data →
        x = overlayEntry H workDir kv := by
    intro kv hkv
    obtain ⟨e1, e2, rfl⟩ := List.append_of_mem hkv
    have hnd : kv.1 ∉ e2.map Prod.fst := by
      simp only [List.map_append, List.map_cons] at hnodup
      have := (List.nodup_append.mp hnodup).2.1
      exact (List.nodup_cons.mp this).1
    have hsplit : cmdEnv H workDir (e1 ++ kv :: e2) =
        (H.Environ ++ e1.map (overlayEntry H workDir)) ++
          overlayEntry H workDir kv :: e2.map (overlayEntry H workDir) := by
      rw [hce]; simp
    rw [hsplit]
    apply dedupEnv_keeps
    · apply hnul
      rw [hsplit]; simp
    · exact envKey_entry _ _ (hkeys kv hkv).1 (hkeys kv hkv).2
    · intro y hy hyk
      obtain ⟨kv2, hkv2, rfl⟩ := List.mem_map.mp hy
      have hk2 := hkeys kv2 (by simp [hkv2])
      have e := envKey_entry kv2.1
        (ExpandEnv H (replaceWorkdir (H.Abs workDir) kv2.2)) hk2.1 hk2.2
      have e2 : envKey (overlayEntry H workDir kv2).data = some kv2.1.data := e
      rw [e2] at hyk
      have : kv2.1 = kv.1 := String.ext (Option.some.inj hyk)
      exact hnd (List.mem_map.mpr ⟨kv2, hkv2, this⟩)
  refine ⟨dedupEnv (cmdEnv H workDir env), by simp only [childEnv, hno, if_false],
    fun x hx => dedupEnv_mem _ x hx, hentry, ?_, ?_⟩
  · intro pre h post k hE hk hpost hov
    have hsplit : cmdEnv H workDir env =
        pre ++ h :: (post ++ env.map (overlayEntry H workDir)) := by
      rw [hce, hE]; simp
    rw [hsplit]
    refine (dedupEnv_keeps pre _ h k ?_ hk ?_).1
    · apply hnul
      rw [hsplit]; simp
    · intro y hy hyk
      rcases List.mem_append.mp hy with hy | hy
      · exact hpost y hy hyk
      · obtain ⟨kv2, hkv2, rfl⟩ := List.mem_map.mp hy
        have hk2 := hkeys kv2 hkv2
        have e2 : envKey (overlayEntry H workDir kv2).data = some kv2.1.data :=
          envKey_entry kv2.1 _ hk2.1 hk2.2
        rw [e2] at hyk
        exact hov kv2 hkv2 (Option.some.inj hyk)
  · intro k hk hd
    have := (hentry (k, "$WORKDIR") hk).1
    simp only [overlayEntry, replaceWorkdir_exact, ExpandEnv_no_dollar H _ hd] at this
    exact this

/-- On a host whose current directory is `/srv/ci`, for a command run in `.` the
overlay `HOME=$WORKDIR/h`, `OUT=$WORKDIR` gives the child `OUT=/srv/ci` and
`HOME=/srv/ci/h`, keeps `PATH` and drops the inherited `HOME=/root`. -/
theorem child_environment_witness :
    childEnv (hostAt "/srv/ci") "." [("HOME", "$WORKDIR/h"), ("OUT", "$WORKDIR")] =
      some ["PATH=/usr/bin", "HOME=/srv/ci/h", "OUT=/srv/ci"] ∧
    ∃ out, childEnv (hostAt "/srv/ci") "." [("HOME", "$WORKDIR/h"), ("OUT", "$WORKDIR")] =
        some out ∧
      "OUT" ++ "=" ++ (hostAt "/srv/ci").Abs "." ∈ out ∧
      ∀ x ∈ out, envKey x.data = some "HOME".data → x = "HOME=/srv/ci/h" := by
  refine ⟨by decide, ?_⟩
  obtain ⟨out, h1, _, h3, _, h5⟩ := (child_environment (hostAt "/srv/ci") "."
    [("HOME", "$WORKDIR/h"), ("OUT", "$WORKDIR")]).2 (by decide) (by decide) (by decide)
  refine ⟨out, h1, h5 "OUT" (by decide) (by decide), ?_⟩
  intro x hx hk
  have := (h3 ("HOME", "$WORKDIR/h") (by decide)).2 x hx hk
  rw [this]
  decide

/-- C18 (counterexample). On a host whose current directory is `/srv/$HOME`, the
absolute path of the working directory `.` contains a `$`, and the overlay
value `$WORKDIR` does not resolve to that path: the reference `$HOME` inside the
inserted path is expanded as well.  And on a host with current directory
`/srv/ci`, an overlay entry for `HOME` replaces the inherited entry, so the
child environment is not the inherited environment followed by the overlay
entry. -/
theorem workdir_value_expanded_twice :
    (hostAt "/srv/$HOME").Abs "." = "/srv/$HOME" ∧
    childEnv (hostAt "/srv/$HOME") "." [("OUT", "$WORKDIR")] =
      some ((hostAt "/srv/$HOME").Environ ++ ["OUT=/srv//root"]) ∧
    childEnv (hostAt "/srv/$HOME") "." [("OUT", "$WORKDIR")] ≠
      some ((hostAt "/srv/$HOME").Environ ++ ["OUT=" ++ (hostAt "/srv/$HOME").Abs "."]) ∧
    childEnv (hostAt "/srv/ci") "." [("HOME", "$WORKDIR/h")] =
      some ["PATH=/usr/bin", "HOME=/srv/ci/h"] ∧
    childEnv (hostAt "/srv/ci") "." [("HOME", "$WORKDIR/h")] ≠
      some ((hostAt "/srv/ci").Environ ++ ["HOME=/srv/ci/h"]) := by
  decide

end Ssbs
